import Mathlib

/-!
# Verification of the lock-crabbing in-memory B+tree (`src/include/tree/lock_crabbing.h`)

This file gives a shallow embedding, in Lean 4, of the sequential semantics of the
concurrent B+tree found in `src/src/include/tree/lock_crabbing.h` of the repository,
together with proofs and refutations of the frozen claims about its specification.

Modelling conventions:
* C++ `int` keys and values are modelled as `Int` (no overflow is exercised by any
  claim; all node-size arithmetic is on small non-negative quantities, modelled as `Nat`).
* A `LeafNode` with `size_ = n` is modelled as the list of its first `n` `(key, value)`
  entries.  An `InternalNode` with `size_ = n` is modelled as the list of its first `n`
  `(child, key)` pairs (`child_[i]`, `keys_[i]`): the C++ node stores one key per child,
  the first `size_ - 1` of which are the routing separators used by `SearchChildIndex`,
  while the last is a cached right-most key.
* `std::lower_bound` is modelled as the length of the longest prefix of keys `< key`;
  on sorted data (the only way the tree ever calls it) this is exactly the index
  `std::lower_bound` returns.
* Latches are erased from the functional semantics (every claim about tree contents is
  about single-threaded executions); the latch *discipline* of `LeafNode::Update` and
  `QueryContext` is modelled separately as an explicit event trace.
* The leaf right-sibling chain: `LeafNode::Insert` splices a split-off sibling directly
  after the node and `LeafNode::Balance` short-circuits a merged-away sibling, so in a
  single-threaded execution the chain always enumerates the leaves in left-to-right
  tree order; the iterator model therefore walks the list of leaves of the tree.
-/

namespace BTree

/-- A key/value entry of a leaf node (`keys_[i]`, `values_[i]`). -/
abbrev Entry := Int × Int

/-- A B+tree node: either a leaf (list of entries, sorted by key) or an internal node
(list of `(child, key)` pairs, mirroring the parallel arrays `child_[i]`/`keys_[i]`). -/
inductive BNode where
  | leaf (kvs : List Entry) : BNode
  | internal (cs : List (BNode × Int)) : BNode

/-- `UNDERFLOW_BOUND(N) = ((N) + 1) / 2` from `common/macros.h` (C++ integer division,
i.e. floor). -/
def UNDERFLOW_BOUND (n : Nat) : Nat := (n + 1) / 2

/-- `std::lower_bound(keys_, keys_ + size, key) - keys_` over the (sorted) key array of a
leaf: the number of leading entries with key `< k`. -/
def lbIdx (k : Int) (kvs : List Entry) : Nat :=
  (kvs.takeWhile (fun e => e.1 < k)).length

/-- `LeafNode::SearchKeyIndex`'s boolean result:
`index < size && keys_[index] == key` at `index = lbIdx`. -/
def keyFound (k : Int) (kvs : List Entry) : Bool :=
  match kvs.drop (lbIdx k kvs) with
  | [] => false
  | e :: _ => e.1 == k

/-- `RIGHTMOST_KEY` of a leaf: `keys_[size - 1]` (the macro asserts `size > 0`;
the default `0` is never reached on the tree's call sites). -/
def entriesRightmostKey (kvs : List Entry) : Int :=
  ((kvs.getLast?).map Prod.fst).getD 0

/-- `LEFTMOST_KEY` of a leaf: `keys_[0]`. -/
def entriesLeftmostKey (kvs : List Entry) : Int :=
  ((kvs.head?).map Prod.fst).getD 0

/-- `RIGHTMOST_KEY(NODE) = NODE->GetKey(NODE->Size() - 1)`: the last stored key of a
leaf, or the last (cached) key slot of an internal node. -/
def nodeRightmostKey : BNode → Int
  | .leaf kvs => entriesRightmostKey kvs
  | .internal cs => ((cs.getLast?).map Prod.snd).getD 0

/-- Result of a node-level `Insert`: either the rewritten node (returned `false`,
no split), or the `Split` out-parameter `{left, boundary_key, right}` (returned `true`). -/
inductive InsRes where
  | ok (n : BNode) : InsRes
  | split (l : BNode) (b : Int) (r : BNode) : InsRes

/-- `LeafNode::Insert` (lock_crabbing.h, lines 293–345), latch calls erased.
`L` is the template `Capacity`. -/
def leafInsert (L : Nat) (k v : Int) (kvs : List Entry) : InsRes :=
  let pos := lbIdx k kvs
  if keyFound k kvs then
    -- key already present: overwrite `values_[insert_pos]`
    .ok (.leaf (kvs.set pos (k, v)))
  else if kvs.length < L then
    -- room available: `ShiftAndInsert(key, val, insert_pos)`
    .ok (.leaf (kvs.take pos ++ (k, v) :: kvs.drop pos))
  else
    -- split: `boundary_idx = UNDERFLOW_BOUND(this->Size())`
    let bIdx := UNDERFLOW_BOUND kvs.length
    let left0 := kvs.take bIdx
    let right0 := kvs.drop bIdx
    if pos < bIdx then
      let left1 := left0.take pos ++ (k, v) :: left0.drop pos
      .split (.leaf left1) (entriesRightmostKey left1) (.leaf right0)
    else
      let right1 := right0.take (pos - bIdx) ++ (k, v) :: right0.drop (pos - bIdx)
      .split (.leaf left0) (entriesRightmostKey left0) (.leaf right1)

/-- `LeafNode::Search` (lines 347–363): the found flag together with the value
copied to the out-parameter. -/
def leafSearch (k : Int) (kvs : List Entry) : Option Int :=
  if keyFound k kvs then ((kvs.drop (lbIdx k kvs)).head?.map Prod.snd)
  else none

/-- `LeafNode::Delete` (lines 382–409): returns `(found, underflow, new entries)`.
`underflow = (--Size() < UNDERFLOW_BOUND(Capacity))`. -/
def leafDelete (L : Nat) (k : Int) (kvs : List Entry) : Bool × Bool × List Entry :=
  if keyFound k kvs then
    let kvs' := kvs.eraseIdx (lbIdx k kvs)
    (true, decide (kvs'.length < UNDERFLOW_BOUND L), kvs')
  else
    (false, false, kvs)

/-- `LeafNode::Balance` (lines 425–464): `(merged, left', right', boundary')`.
`boundary'` is the in-out `boundary` parameter after the call. -/
def leafBalance (L : Nat) (l r : List Entry) (boundary : Int) :
    Bool × List Entry × List Entry × Int :=
  let B := UNDERFLOW_BOUND L
  if l.length < B ∧ r.length > B then
    -- borrow the leftmost entry of the right sibling
    (false, l ++ r.take 1, r.drop 1, entriesLeftmostKey r)
  else if l.length > B ∧ r.length < B then
    -- borrow this node's rightmost entry into the right sibling's head
    let l' := l.dropLast
    (false, l', (l.getLast?.toList) ++ r, entriesRightmostKey l')
  else
    -- merge the right sibling into this node
    let l' := l ++ r
    (true, l', [], entriesRightmostKey l')

/-- The routing separators of an internal node: `keys_[0 .. size-1)` (the last key slot
is excluded, exactly as in `SearchChildIndex`'s `this->keys_ + this->Size() - 1`). -/
def routingKeys (cs : List (BNode × Int)) : List Int :=
  (cs.map Prod.snd).dropLast

/-- `InternalNode::SearchChildIndex` (lines 551–553):
`std::lower_bound(keys_, keys_ + size - 1, key) - keys_`. -/
def searchChildIndex (k : Int) (cs : List (BNode × Int)) : Nat :=
  ((routingKeys cs).takeWhile (fun x => x < k)).length

mutual

/-- Dispatch of the virtual `Insert` over the two node classes. -/
def nodeInsert (L I : Nat) (k v : Int) : BNode → InsRes
  | .leaf kvs => leafInsert L k v kvs
  | .internal cs => internalInsert L I k v cs
termination_by n => sizeOf n
decreasing_by
  simp only [BNode.internal.sizeOf_spec]; omega

/-- `InternalNode::Insert` (lines 599–661), latch calls erased. `I` is the internal
`Capacity`; the node may transiently hold `I + OVERFLOW_SIZE = I + 1` pairs. -/
def internalInsert (L I : Nat) (k v : Int) (cs : List (BNode × Int)) : InsRes :=
  let ti := searchChildIndex k cs
  match h : cs[ti]? with
  | none => .ok (.internal cs)  -- unreachable: internal nodes are never empty
  | some (c, ck) =>
    match nodeInsert L I k v c with
    | .ok c' =>
      -- child did not split: only the child subtree changed
      .ok (.internal (cs.set ti (c', ck)))
    | .split cl b cr =>
      -- `std::swap(this->keys_[target_idx], split.boundary_key)` then
      -- `ShiftAndInsert(split.boundary_key, split.right, target_idx + 1)`
      let cs1 := cs.set ti (cl, b)
      let cs2 := cs1.take (ti + 1) ++ (cr, ck) :: cs1.drop (ti + 1)
      if cs2.length ≤ I then
        .ok (.internal cs2)
      else
        -- split: `boundary_idx = UNDERFLOW_BOUND(this->Size())`
        let bIdx := UNDERFLOW_BOUND cs2.length
        .split (.internal (cs2.take bIdx))
          (((cs2.take bIdx).getLast?.map Prod.snd).getD 0)
          (.internal (cs2.drop bIdx))
termination_by sizeOf cs
decreasing_by
  obtain ⟨hn, he⟩ := List.getElem?_eq_some.mp h
  have hm : (c, ck) ∈ cs := he ▸ List.getElem_mem hn
  have := List.sizeOf_lt_of_mem hm
  simp only [Prod.mk.sizeOf_spec] at this
  omega

end

/-- `Node::Search` dispatch: `InternalNode::Search` (lines 663–674) descends via
`SearchChildIndex`; `LeafNode::Search` finishes. Returns the value out-parameter
when found. -/
def nodeSearch (k : Int) : BNode → Option Int
  | .leaf kvs => leafSearch k kvs
  | .internal cs =>
    match h : cs[searchChildIndex k cs]? with
    | none => none  -- unreachable: internal nodes are never empty
    | some (c, ck) => nodeSearch k c
termination_by n => sizeOf n
decreasing_by
  obtain ⟨hn, he⟩ := List.getElem?_eq_some.mp h
  have hm : (c, ck) ∈ cs := he ▸ List.getElem_mem hn
  have := List.sizeOf_lt_of_mem hm
  simp only [Prod.mk.sizeOf_spec] at this
  simp only [BNode.internal.sizeOf_spec]
  omega

/-- `InternalNode::Balance` (lines 807–855): `(merged, left', right', boundary')` on the
pair lists of the two sibling internal nodes.  In the merge branch the write
`this->keys_[this->Size()] = boundary` is immediately overwritten by the subsequent
`std::copy` of the right sibling's keys, so the merged node is the plain concatenation
of the two pair lists and the in-out `boundary` is returned unchanged. -/
def internalBalance (I : Nat) (l r : List (BNode × Int)) (boundary : Int) :
    Bool × List (BNode × Int) × List (BNode × Int) × Int :=
  let B := UNDERFLOW_BOUND I
  if l.length < B ∧ r.length > B then
    -- borrow the right sibling's leftmost child; its new key slot is
    -- `RIGHTMOST_KEY(child_[Size()])`, which also becomes the new boundary
    match r with
    | [] => (false, l, r, boundary)  -- unreachable: `Size() > B ≥ 1`
    | (c, _) :: rrest =>
      let nk := nodeRightmostKey c
      (false, l ++ [(c, nk)], rrest, nk)
  else if l.length > B ∧ r.length < B then
    -- `right_sibling->ShiftAndInsert(boundary, child_[Size()-1], 0)`, then drop
    -- this node's last slot and report `RIGHTMOST_KEY(this)`
    match l.getLast? with
    | none => (false, l, r, boundary)  -- unreachable: `Size() > B ≥ 1`
    | some (c, _) =>
      let l' := l.dropLast
      (false, l', (c, boundary) :: r, ((l'.getLast?.map Prod.snd).getD 0))
  else
    (true, l ++ r, [], boundary)

/-- Dispatch of the virtual `Balance`: `left->Balance(right, boundary)` is only ever
called on two siblings, which always have the same node class. -/
def nodeBalance (L I : Nat) (ln rn : BNode) (boundary : Int) :
    Bool × BNode × BNode × Int :=
  match ln, rn with
  | .leaf l, .leaf r =>
    let (m, l', r', b') := leafBalance L l r boundary
    (m, .leaf l', .leaf r', b')
  | .internal l, .internal r =>
    let (m, l', r', b') := internalBalance I l r boundary
    (m, .internal l', .internal r', b')
  | ln, rn => (false, ln, rn, boundary)  -- unreachable: siblings share a level

mutual

/-- Dispatch of the virtual `Delete` over the two node classes:
returns `(found, underflow, new node)`. -/
def nodeDelete (L I : Nat) (k : Int) : BNode → Bool × Bool × BNode
  | .leaf kvs =>
    let (found, uf, kvs') := leafDelete L k kvs
    (found, uf, .leaf kvs')
  | .internal cs => internalDelete L I k cs
termination_by n => sizeOf n
decreasing_by
  simp only [BNode.internal.sizeOf_spec]; omega

/-- `InternalNode::Delete` (lines 703–805), latch calls erased. -/
def internalDelete (L I : Nat) (k : Int) (cs : List (BNode × Int)) :
    Bool × Bool × BNode :=
  let ti := searchChildIndex k cs
  match h : cs[ti]? with
  | none => (false, false, .internal cs)  -- unreachable: internal nodes are never empty
  | some (c, ck) =>
    let res := nodeDelete L I k c
    let cs0 := cs.set ti (res.2.2, ck)
    if ¬res.1 ∨ ¬res.2.1 then
      -- key not found or the child did not underflow: structure unchanged
      (res.1, res.2.1, .internal cs0)
    else if cs0.length ≤ 1 then
      -- no sibling available for rebalancing; the parent handles it
      (true, res.2.1, .internal cs0)
    else
      -- rebalance, preferring the left sibling of the target child
      let li := if 1 ≤ ti then ti - 1 else ti
      let lc := ((cs0[li]?.map Prod.fst).getD (.leaf []))
      let rc := ((cs0[li + 1]?.map Prod.fst).getD (.leaf []))
      let boundary := ((cs0[li]?.map Prod.snd).getD 0)
      let (merged, lc', rc', b') := nodeBalance L I lc rc boundary
      if ¬merged then
        -- borrow executed: patch `keys_[boundary_idx]`, clear underflow
        let cs1 := (cs0.set li (lc', b')).set (li + 1)
          (rc', ((cs0[li + 1]?.map Prod.snd).getD 0))
        (true, false, .internal cs1)
      else
        -- merge executed: swap `keys_[boundary_idx]` and `keys_[boundary_idx+1]`,
        -- then `DeleteIndex(boundary_idx + 1)` removes the dead right child slot
        let cs1 := (cs0.set li (lc', ((cs0[li + 1]?.map Prod.snd).getD 0))).eraseIdx (li + 1)
        (true, decide (cs1.length < UNDERFLOW_BOUND I), .internal cs1)
termination_by sizeOf cs
decreasing_by
  obtain ⟨hn, he⟩ := List.getElem?_eq_some.mp h
  have hm : (c, ck) ∈ cs := he ▸ List.getElem_mem hn
  have := List.sizeOf_lt_of_mem hm
  simp only [Prod.mk.sizeOf_spec] at this
  omega

end

/-- `MemoryBTree::Insert` (lines 882–903): on a root split, a new internal root
`InternalNode(split)` is installed, whose key slots are
`{split.boundary_key, RIGHTMOST_KEY(split.right)}`. -/
def treeInsert (L I : Nat) (k v : Int) (root : BNode) : BNode :=
  match nodeInsert L I k v root with
  | .ok n => n
  | .split l b r => .internal [(l, b), (r, nodeRightmostKey r)]

/-- `MemoryBTree::Delete` (lines 905–938): after a successful delete, an internal root
with a single remaining child is replaced by that child. -/
def treeDelete (L I : Nat) (k : Int) (root : BNode) : Bool × BNode :=
  let (found, _, root') := nodeDelete L I k root
  if ¬found then (false, root')
  else
    match root' with
    | .internal [(c, _)] => (true, c)
    | r => (true, r)

/-- `MemoryBTree::Search` (lines 875–880). -/
def treeSearch (k : Int) (root : BNode) : Option Int := nodeSearch k root

/-- The empty tree: `MemoryBTree()` starts with a single empty leaf as root. -/
def emptyTree : BNode := .leaf []

mutual

/-- In-order list of entries of the tree: what `TreeScan` (lines 990–1001) followed by
repeated `MemoryIterator::Next` enumerates — the entries of the leftmost leaf, then of
each successive leaf along the right-sibling chain. -/
def toList : BNode → List Entry
  | .leaf kvs => kvs
  | .internal cs => pairsToList cs

/-- Concatenated entries of a list of `(child, key)` pairs, left to right. -/
def pairsToList : List (BNode × Int) → List Entry
  | [] => []
  | (c, _) :: rest => toList c ++ pairsToList rest

end

mutual

/-- The leaves of the tree, left to right: the leaf right-sibling chain as maintained
by `LeafNode::Insert` (splice after split) and `LeafNode::Balance` (short-circuit on
merge) in a single-threaded execution. -/
def leaves : BNode → List (List Entry)
  | .leaf kvs => [kvs]
  | .internal cs => pairsLeaves cs

/-- Concatenated leaves of a list of `(child, key)` pairs. -/
def pairsLeaves : List (BNode × Int) → List (List Entry)
  | [] => []
  | (c, _) :: rest => leaves c ++ pairsLeaves rest

end

/-! ## Operation sequences and the reference model

A *legal sequence of operations* is any list of `Insert`/`Delete` calls executed
sequentially from a fresh tree.  The reference model is a key-sorted association list. -/

/-- A single public mutating operation of `MemoryBTree`. -/
inductive Op where
  | ins (k v : Int) : Op
  | del (k : Int) : Op

/-- Apply one operation to the tree (capacities `L`, `I`). -/
def applyOp (L I : Nat) (t : BNode) : Op → BNode
  | .ins k v => treeInsert L I k v t
  | .del k => (treeDelete L I k t).2

/-- The tree state after running a sequence of operations from a fresh tree. -/
def applyOps (L I : Nat) (ops : List Op) : BNode :=
  ops.foldl (applyOp L I) emptyTree

/-- Reference model: insert into / overwrite in a key-sorted association list. -/
def listInsert (k v : Int) : List Entry → List Entry
  | [] => [(k, v)]
  | (k0, v0) :: rest =>
    if k0 < k then (k0, v0) :: listInsert k v rest
    else if k0 = k then (k, v) :: rest
    else (k, v) :: (k0, v0) :: rest

/-- Reference model: erase a key from a key-sorted association list. -/
def listErase (k : Int) : List Entry → List Entry
  | [] => []
  | (k0, v0) :: rest => if k0 = k then rest else (k0, v0) :: listErase k rest

/-- Reference model: look a key up in an association list (first match). -/
def listLookup (k : Int) : List Entry → Option Int
  | [] => none
  | (k0, v0) :: rest => if k0 = k then some v0 else listLookup k rest

/-- Reference model state after a sequence of operations. -/
def modelOps (ops : List Op) : List Entry :=
  ops.foldl (fun m op => match op with
    | .ins k v => listInsert k v m
    | .del k => listErase k m) []

/-! ## Printing, iterators, latches, and checkers -/

/-- One `(key,value)` item of `LeafNode::String` (lines 257–267). -/
def entryString (e : Entry) : String :=
  "(" ++ toString e.1 ++ "," ++ toString e.2 ++ ")"

mutual

/-- `Node::String`: `LeafNode::String` (lines 257–267) and `InternalNode::String`
(lines 558–567). -/
def nodeString : BNode → String
  | .leaf kvs => "[LEAF: " ++ String.intercalate " " (kvs.map entryString) ++ "]"
  | .internal cs => "[INTERNAL: " ++ internalBody cs ++ "]"

/-- The loop of `InternalNode::String`: `child | key | ` for every index below
`size - 1`, then the last child. -/
def internalBody : List (BNode × Int) → String
  | [] => ""
  | [(c, _)] => nodeString c
  | (c, k) :: p2 :: rest =>
    nodeString c ++ " | " ++ toString k ++ " | " ++ internalBody (p2 :: rest)

end

/-- `MemoryIterator`'s fields: `current_` and the following right-sibling chain
(`[]` = `nullptr`), `offset_`, and `key_high_` (`some` iff `upper_bound_`). -/
structure IterState where
  chain : List (List Entry)
  offset : Nat
  high : Option Int

/-- `MemoryIterator::Next` (lines 959–979) with its two out-parameters modelled as
an in-out pair: returns `(return value, out-parameters after the call, iterator)`. -/
def iterNext : IterState → (Int × Int) → Bool × (Int × Int) × IterState
  | ⟨[], off, hb⟩, out => (false, out, ⟨[], off, hb⟩)
  | ⟨kvs :: rest, off, hb⟩, out =>
    match kvs[off]? with
    | some e =>
      ((match hb with
        | none => true
        | some b => decide (e.1 ≤ b)), e, ⟨kvs :: rest, off + 1, hb⟩)
    | none => iterNext ⟨rest, 0, hb⟩ out
termination_by st _ => st.chain.length

/-- `MemoryBTree::TreeScan` (lines 990–1001): an iterator at the leftmost leaf,
offset `0`, no upper bound. -/
def treeScanIter (t : BNode) : IterState := ⟨leaves t, 0, none⟩

/-- The leaf chain from the leaf `LocateKey(k)` reaches onwards (that leaf and all
leaves after it in sibling order). -/
def leavesFrom (k : Int) : BNode → List (List Entry)
  | .leaf kvs => [kvs]
  | .internal cs =>
    match h : cs[searchChildIndex k cs]? with
    | none => []
    | some (c, ck) => leavesFrom k c ++ pairsLeaves (cs.drop (searchChildIndex k cs + 1))
termination_by n => sizeOf n
decreasing_by
  obtain ⟨hn, he⟩ := List.getElem?_eq_some.mp h
  have hm : (c, ck) ∈ cs := he ▸ List.getElem_mem hn
  have := List.sizeOf_lt_of_mem hm
  simp only [Prod.mk.sizeOf_spec] at this
  simp only [BNode.internal.sizeOf_spec]
  omega

/-- `MemoryBTree::RangeQuery` (lines 981–989): `LocateKey` pins the leaf for
`key_low` and its `SearchKeyIndex` position; `key_high` is the inclusive bound. -/
def rangeQueryIter (t : BNode) (klo khi : Int) : IterState :=
  ⟨leavesFrom klo t, lbIdx klo ((leavesFrom klo t).headD []), some khi⟩

/-- Latch modes of `common::Constants`. -/
inductive LatchMode where
  | SHARE : LatchMode
  | EXCLUSIVE : LatchMode
  | NONE : LatchMode
deriving DecidableEq

/-- One latch operation performed through `QueryContext`, by latch index. -/
inductive LatchEvent where
  | acquire (idx : Nat) (mode : LatchMode) : LatchEvent
  | release (idx : Nat) (mode : LatchMode) : LatchEvent

/-- The latch bookkeeping of `QueryContext`: `latches_.size()` and
`smallest_unlk_idx_`. -/
structure Ctx where
  nlatches : Nat
  smallest : Nat

/-- `QueryContext::AcquireLatch` (lines 107–127): locks in the given mode, appends
the latch, returns its index. -/
def acquireLatch (st : Ctx) (mode : LatchMode) : Nat × Ctx × List LatchEvent :=
  (st.nlatches, ⟨st.nlatches + 1, st.smallest⟩, [.acquire st.nlatches mode])

/-- `QueryContext::ReleaseLatch` (lines 143–164): unlocks
`latches_[smallest_unlk_idx_ .. upto_idx)` each in the given mode. -/
def releaseLatch (st : Ctx) (upto : Nat) (mode : LatchMode) : Ctx × List LatchEvent :=
  if upto ≤ st.smallest then (st, [])
  else (⟨st.nlatches, upto⟩,
    (List.range' st.smallest (upto - st.smallest)).map (fun i => .release i mode))

/-- The latch trace of `LeafNode::Update` (lines 365–380) called with an empty
context (the leaf is the tree root): `AcquireLatch(…, EXCLUSIVE)`,
`ReleaseLatch(depth, EXCLUSIVE)`, then `ReleaseLatch(depth + 1, SHARE)`. -/
def leafUpdateTrace : List LatchEvent :=
  let st0 : Ctx := ⟨0, 0⟩
  let r1 := acquireLatch st0 .EXCLUSIVE
  let r2 := releaseLatch r1.2.1 r1.1 .EXCLUSIVE
  let r3 := releaseLatch r2.1 (r1.1 + 1) .SHARE
  r1.2.2 ++ r2.2 ++ r3.2

/-- The mode a trace acquired latch `idx` in (first acquisition). -/
def acquiredMode (tr : List LatchEvent) (idx : Nat) : Option LatchMode :=
  match tr with
  | [] => none
  | .acquire i m :: rest => if i = idx then some m else acquiredMode rest idx
  | .release _ _ :: rest => acquiredMode rest idx

/-- Every release in the trace uses the mode its latch was acquired in. -/
def modesMatchB (tr : List LatchEvent) : Bool :=
  tr.all fun e =>
    match e with
    | .acquire _ _ => true
    | .release i m =>
      match acquiredMode tr i with
      | none => false
      | some m0 => decide (m0 = m)

/-- `InternalNode::ClearChildArray` (line 589): drops all child pointers (leaves
are unaffected). -/
def clearChildArray : BNode → BNode
  | .leaf kvs => .leaf kvs
  | .internal _ => .internal []

mutual

/-- The number of node objects freed by `delete node`: `~InternalNode`
(lines 545–549) deletes `child_[idx]` for every `idx < size`, recursively. -/
def destructorFreeCount : BNode → Nat
  | .leaf _ => 1
  | .internal cs => 1 + pairsFreeCount cs

/-- Freed-object count of a child array. -/
def pairsFreeCount : List (BNode × Int) → Nat
  | [] => 0
  | (c, _) :: rest => destructorFreeCount c + pairsFreeCount rest

end

/-- `lbL ≤ size` for a leaf / `lbI ≤ size` for an internal node, as a Boolean. -/
def lowB (lbL lbI : Nat) : BNode → Bool
  | .leaf kvs => decide (lbL ≤ kvs.length)
  | .internal cs => decide (lbI ≤ cs.length)

mutual

/-- Every node strictly below the top of `t` meets its minimum occupancy. -/
def lowAllB (lbL lbI : Nat) : BNode → Bool
  | .leaf _ => true
  | .internal cs => pairsLowAllB lbL lbI cs

/-- Minimum occupancy of every node of a child array, recursively. -/
def pairsLowAllB (lbL lbI : Nat) : List (BNode × Int) → Bool
  | [] => true
  | (c, _) :: rest => lowB lbL lbI c && lowAllB lbL lbI c && pairsLowAllB lbL lbI rest

end

mutual

/-- The separator bounds of every internal node of `t`: each routing separator
`keys_[i]` (`i < size - 1`) is an inclusive upper bound for all keys in child `i`
and a strict lower bound for all keys to its right. -/
def sepOKb : BNode → Bool
  | .leaf _ => true
  | .internal cs => routeOKb cs

/-- The separator-bounds check along one child array. -/
def routeOKb : List (BNode × Int) → Bool
  | [] => true
  | [(c, _)] => sepOKb c
  | (c, k) :: p2 :: rest =>
    (toList c).all (fun e => decide (e.1 ≤ k)) &&
      (pairsToList (p2 :: rest)).all (fun e => decide (k < e.1)) &&
      sepOKb c && routeOKb (p2 :: rest)

end

mutual

/-- The literal reading of the claimed separator invariant: every routing
separator `keys_[i]` (`i < size - 1`) *equals* the rightmost key currently stored
in the subtree of child `i`. -/
def sepEqB : BNode → Bool
  | .leaf _ => true
  | .internal cs => routeEqB cs

/-- The separator-equality check along one child array. -/
def routeEqB : List (BNode × Int) → Bool
  | [] => true
  | [(c, _)] => sepEqB c
  | (c, k) :: p2 :: rest =>
    decide (entriesRightmostKey (toList c) = k) && sepEqB c && routeEqB (p2 :: rest)

end

/-! ## The structural invariant

`GoodT lbL lbI L I lo hi h t` says: every key of `t` lies in the interval `(lo, hi]`
(`none` meaning unbounded; `hi = none` holds exactly on the right-most spine), every
leaf is sorted and at depth `h` (`h = 0`), every node size is at most the capacity,
every non-root node reaches its lower size bound (`lbL` entries for leaves, `lbI`
children for internal nodes), the key slot of every pair whose child is an internal
node equals that child's own cached last key slot, and in an internal node with an
upper bound `hi = some x` the last key slot is exactly `x`.

Instantiating `lbL := 1, lbI := 2` gives the behavioural invariant (any `L ≥ 2`,
`I ≥ 3`); instantiating the code's underflow bounds `⌊(L+1)/2⌋`/`⌊(I+1)/2⌋` gives the
minimum-occupancy invariant (even `L`). -/

/-- Entries are sorted strictly by key. -/
def EntSorted (kvs : List Entry) : Prop :=
  kvs.Pairwise (fun a b => a.1 < b.1)

/-- `lo` is a strict (exclusive) lower bound for `k` (`none` = unbounded). -/
def OptLt : Option Int → Int → Prop
  | none, _ => True
  | some a, k => a < k

/-- `hi` is an inclusive upper bound for `k` (`none` = unbounded). -/
def OptLe (k : Int) : Option Int → Prop
  | none => True
  | some b => k ≤ b

/-- If the child of a pair is an internal node, its cached last key slot equals the
pair's key slot in the parent. -/
def CachedIs (c : BNode) (k : Int) : Prop :=
  match c with
  | .leaf _ => True
  | .internal _ => nodeRightmostKey c = k

/-- Lower size bound for a non-root node: `lbL` entries for a leaf, `lbI` children
for an internal node. -/
def LowOK (lbL lbI : Nat) : BNode → Prop
  | .leaf kvs => lbL ≤ kvs.length
  | .internal cs => lbI ≤ cs.length

mutual

/-- The node invariant (see the section comment).  An internal node is a chain of
interior pairs followed by a last pair whose key slot is pinned to the upper bound. -/
inductive GoodT (lbL lbI L I : Nat) : Option Int → Option Int → Nat → BNode → Prop where
  | leaf {lo hi : Option Int} {kvs : List Entry}
      (hsort : EntSorted kvs)
      (hbnd : ∀ e ∈ kvs, OptLt lo e.1 ∧ OptLe e.1 hi)
      (hlen : kvs.length ≤ L) :
      GoodT lbL lbI L I lo hi 0 (.leaf kvs)
  | internal {lo hi m : Option Int} {h : Nat} {ps : List (BNode × Int)}
      {c : BNode} {k : Int}
      (hlen : (ps ++ [(c, k)]).length ≤ I)
      (hch : ChainT lbL lbI L I lo h ps m)
      (hc : GoodT lbL lbI L I m hi h c)
      (hlow : LowOK lbL lbI c)
      (hcache : CachedIs c k)
      (hpin : ∀ x, hi = some x → k = x)
      (hmx : ∀ x, hi = some x → OptLt m x) :
      GoodT lbL lbI L I lo hi (h + 1) (.internal (ps ++ [(c, k)]))

/-- A chain of interior pairs: each child spans `(previous key, own key]`, keys
strictly increase, and `m` is the running bound after the chain. -/
inductive ChainT (lbL lbI L I : Nat) : Option Int → Nat → List (BNode × Int) →
    Option Int → Prop where
  | nil {lo : Option Int} {h : Nat} : ChainT lbL lbI L I lo h [] lo
  | cons {lo m : Option Int} {h : Nat} {c : BNode} {k : Int}
      {rest : List (BNode × Int)}
      (hc : GoodT lbL lbI L I lo (some k) h c)
      (hlow : LowOK lbL lbI c)
      (hcache : CachedIs c k)
      (hlok : OptLt lo k)
      (hrest : ChainT lbL lbI L I (some k) h rest m) :
      ChainT lbL lbI L I lo h ((c, k) :: rest) m

end

/-- The root invariant: `MemoryBTree`'s root (`root_`) is either a leaf with no
minimum occupancy, or an internal node with at least two children; both unbounded. -/
def GoodRoot (lbL lbI L I : Nat) : BNode → Prop
  | .leaf kvs => EntSorted kvs ∧ kvs.length ≤ L
  | .internal cs =>
    2 ≤ cs.length ∧ ∃ h, GoodT lbL lbI L I none none h (.internal cs)

/-- `Node::Size()`: the number of stored entries (leaf) or children (internal). -/
def nodeSize : BNode → Nat
  | .leaf kvs => kvs.length
  | .internal cs => cs.length

/-- The node's own `UNDERFLOW_BOUND(Capacity)`: the threshold its `DeleteIndex`
compares the shrunken size against. -/
def ufBound (L I : Nat) : BNode → Nat
  | .leaf _ => UNDERFLOW_BOUND L
  | .internal _ => UNDERFLOW_BOUND I

/-- The node's own minimum-occupancy parameter (`lbL` for leaves, `lbI` for
internal nodes), so that `LowOK lbL lbI t ↔ lowBound lbL lbI t ≤ nodeSize t`. -/
def lowBound (lbL lbI : Nat) : BNode → Nat
  | .leaf _ => lbL
  | .internal _ => lbI

/-- The full postcondition of a node-level `Insert` call on a good subtree. -/
def InsOutcome (lbL lbI L I : Nat) (lo hi : Option Int) (h : Nat) (t : BNode)
    (k v : Int) : InsRes → Prop
  | .ok t' =>
      GoodT lbL lbI L I lo hi h t' ∧
      (∀ kk, CachedIs t kk → CachedIs t' kk) ∧
      (LowOK lbL lbI t → LowOK lbL lbI t') ∧
      toList t' = listInsert k v (toList t) ∧
      nodeSize t ≤ nodeSize t'
  | .split l b r =>
      GoodT lbL lbI L I lo (some b) h l ∧ GoodT lbL lbI L I (some b) hi h r ∧
      LowOK lbL lbI l ∧ LowOK lbL lbI r ∧
      CachedIs l b ∧ (∀ kk, CachedIs t kk → CachedIs r kk) ∧
      OptLt lo b ∧
      toList l ++ toList r = listInsert k v (toList t)

/-- The full postcondition of `left->Balance(right, boundary)` on two adjacent
siblings, `kr` being the right sibling's key slot in the parent. -/
def BalOutcome (lbL lbI L I : Nat) (lo hi : Option Int) (h : Nat)
    (lc rc : BNode) (kr : Int) : Bool × BNode × BNode × Int → Prop
  | (true, l', _, _) =>
      GoodT lbL lbI L I lo hi h l' ∧ LowOK lbL lbI l' ∧ CachedIs l' kr ∧
      toList l' = toList lc ++ toList rc
  | (false, l', r', b') =>
      GoodT lbL lbI L I lo (some b') h l' ∧ GoodT lbL lbI L I (some b') hi h r' ∧
      LowOK lbL lbI l' ∧ LowOK lbL lbI r' ∧
      CachedIs l' b' ∧ CachedIs r' kr ∧ OptLt lo b' ∧
      toList l' ++ toList r' = toList lc ++ toList rc

/-- The full postcondition of a node-level `Delete` call on a good subtree. -/
def DelOutcome (lbL lbI L I : Nat) (lo hi : Option Int) (h : Nat) (t : BNode)
    (k : Int) : Bool × Bool × BNode → Prop
  | (found, uf, t') =>
      GoodT lbL lbI L I lo hi h t' ∧
      toList t' = listErase k (toList t) ∧
      (found = true ↔ k ∈ (toList t).map Prod.fst) ∧
      (found = false → t' = t ∧ uf = false) ∧
      (∀ kk, CachedIs t kk → CachedIs t' kk) ∧
      nodeSize t ≤ nodeSize t' + 1 ∧ nodeSize t' ≤ nodeSize t ∧
      (uf = true → found = true ∧ nodeSize t' < ufBound L I t') ∧
      (uf = false → LowOK lbL lbI t → LowOK lbL lbI t')

/-! ## Elementary lemmas: the leaf-array primitives against the reference model -/

theorem entSorted_nil : EntSorted [] := List.Pairwise.nil

theorem entSorted_cons {e : Entry} {rest : List Entry} :
    EntSorted (e :: rest) ↔ (∀ b ∈ rest, e.1 < b.1) ∧ EntSorted rest :=
  List.pairwise_cons

theorem lbIdx_cons (k : Int) (e : Entry) (rest : List Entry) :
    lbIdx k (e :: rest) = if e.1 < k then lbIdx k rest + 1 else 0 := by
  simp only [lbIdx, List.takeWhile_cons]
  by_cases h : e.1 < k <;> simp [h]

theorem keyFound_cons (k : Int) (e : Entry) (rest : List Entry) :
    keyFound k (e :: rest) =
      if e.1 < k then keyFound k rest else e.1 == k := by
  by_cases h : e.1 < k <;>
    simp [keyFound, lbIdx_cons, h]

/-- The in-room insertion path of `LeafNode::Insert` computes exactly the
reference-model insertion (the not-found case). -/
theorem insertAt_eq_listInsert (k v : Int) (kvs : List Entry)
    (h : keyFound k kvs = false) :
    kvs.take (lbIdx k kvs) ++ (k, v) :: kvs.drop (lbIdx k kvs) = listInsert k v kvs := by
  induction kvs with
  | nil => simp [lbIdx, listInsert]
  | cons e rest ih =>
    rw [keyFound_cons] at h
    rw [lbIdx_cons]
    by_cases he : e.1 < k
    · simp only [he, if_true]
      rw [List.take_succ_cons, List.drop_succ_cons]
      have := ih (by simpa [he] using h)
      simp only [listInsert]
      rw [if_pos he]
      cases e
      simp [this]
    · simp only [he, if_false]
      have hek : ¬ ((e.1 == k) = true) := by simpa [he] using h
      simp only [List.take_zero, List.drop_zero, List.nil_append, listInsert]
      cases e
      rw [if_neg he, if_neg (by simpa using hek)]

/-- The overwrite path of `LeafNode::Insert` computes exactly the reference-model
insertion (the found case). -/
theorem set_eq_listInsert (k v : Int) (kvs : List Entry)
    (h : keyFound k kvs = true) :
    kvs.set (lbIdx k kvs) (k, v) = listInsert k v kvs := by
  induction kvs with
  | nil => simp [keyFound, lbIdx] at h
  | cons e rest ih =>
    rw [keyFound_cons] at h
    rw [lbIdx_cons]
    by_cases he : e.1 < k
    · simp only [he, if_true]
      have := ih (by simpa [he] using h)
      cases e
      simp only [listInsert]
      rw [if_pos he]
      simp [List.set, this]
    · have hek : e.1 = k := by simpa [he] using h
      cases e with | mk k0 v0 =>
      simp only at he hek
      simp only [he, if_false, listInsert]
      rw [if_pos hek]
      simp [List.set]

/-- The removal path of `LeafNode::Delete` computes exactly the reference-model
erase (the found case). -/
theorem eraseIdx_eq_listErase (k : Int) (kvs : List Entry)
    (h : keyFound k kvs = true) :
    kvs.eraseIdx (lbIdx k kvs) = listErase k kvs := by
  induction kvs with
  | nil => simp [keyFound, lbIdx] at h
  | cons e rest ih =>
    rw [keyFound_cons] at h
    rw [lbIdx_cons]
    by_cases he : e.1 < k
    · simp only [he, if_true, List.eraseIdx_cons_succ]
      have := ih (by simpa [he] using h)
      cases e with | mk k0 v0 =>
      simp only at he
      simp only [listErase]
      rw [if_neg (by omega), this]
    · have hek : e.1 = k := by simpa [he] using h
      cases e with | mk k0 v0 =>
      simp only at hek
      simp only [he, if_false, List.eraseIdx_cons_zero, listErase, if_pos hek]

theorem keyFound_mem {k : Int} {kvs : List Entry} (h : keyFound k kvs = true) :
    k ∈ kvs.map Prod.fst := by
  induction kvs with
  | nil => simp [keyFound, lbIdx] at h
  | cons e rest ih =>
    rw [keyFound_cons] at h
    by_cases he : e.1 < k
    · simp only [he, if_true] at h
      simp [ih h]
    · have : e.1 = k := by simpa [he] using h
      simp [this]

theorem keyFound_of_mem {k : Int} {kvs : List Entry} (hs : EntSorted kvs)
    (h : k ∈ kvs.map Prod.fst) : keyFound k kvs = true := by
  induction kvs with
  | nil => simp at h
  | cons e rest ih =>
    rw [entSorted_cons] at hs
    rw [keyFound_cons]
    simp only [List.map_cons, List.mem_cons] at h
    rcases h with h1 | h1
    · have : ¬ e.1 < k := by omega
      simp [this, h1.symm]
    · obtain ⟨e2, he2, he2k⟩ := List.mem_map.mp h1
      have : e.1 < k := he2k ▸ hs.1 e2 he2
      simp [this, ih hs.2 h1]

/-- An absent key makes `listErase` the identity. -/
theorem listErase_of_not_mem {k : Int} {kvs : List Entry}
    (h : k ∉ kvs.map Prod.fst) : listErase k kvs = kvs := by
  induction kvs with
  | nil => rfl
  | cons e rest ih =>
    simp only [List.map_cons, List.mem_cons] at h
    push_neg at h
    cases e with | mk k0 v0 =>
    simp only [listErase]
    rw [if_neg (by simpa using fun he => h.1 he.symm), ih h.2]

/-- An absent key makes `listLookup` return `none`. -/
theorem listLookup_of_not_mem {k : Int} {kvs : List Entry}
    (h : k ∉ kvs.map Prod.fst) : listLookup k kvs = none := by
  induction kvs with
  | nil => rfl
  | cons e rest ih =>
    simp only [List.map_cons, List.mem_cons] at h
    push_neg at h
    cases e with | mk k0 v0 =>
    simp only [listLookup]
    rw [if_neg (by simpa using fun he => h.1 he.symm), ih h.2]

theorem lookup_head_of_found {k : Int} {kvs : List Entry}
    (h : keyFound k kvs = true) :
    ((kvs.drop (lbIdx k kvs)).head?.map Prod.snd) = listLookup k kvs := by
  induction kvs with
  | nil => simp [keyFound, lbIdx] at h
  | cons e rest ih =>
    rw [keyFound_cons] at h
    rw [lbIdx_cons]
    by_cases he : e.1 < k
    · simp only [he, if_true, List.drop_succ_cons]
      rw [ih (by simpa [he] using h)]
      cases e with | mk k0 v0 =>
      simp only at he
      simp only [listLookup]
      rw [if_neg (by omega)]
    · have hek : e.1 = k := by simpa [he] using h
      cases e with | mk k0 v0 =>
      simp only at hek
      simp [listLookup, hek]

/-- `LeafNode::Search` against the reference model (sorted leaf). -/
theorem leafSearch_eq_listLookup (k : Int) (kvs : List Entry) (hs : EntSorted kvs) :
    leafSearch k kvs = listLookup k kvs := by
  unfold leafSearch
  by_cases hf : keyFound k kvs = true
  · rw [if_pos hf, lookup_head_of_found hf]
  · rw [if_neg hf]
    have : k ∉ kvs.map Prod.fst := fun hm => hf (keyFound_of_mem hs hm)
    rw [listLookup_of_not_mem this]

/-! ## Reference-model lemmas -/

theorem listInsert_mem {k v : Int} {kvs : List Entry} {e : Entry}
    (h : e ∈ listInsert k v kvs) : e = (k, v) ∨ e ∈ kvs := by
  induction kvs with
  | nil => simpa [listInsert] using h
  | cons e0 rest ih =>
    cases e0 with | mk k0 v0 =>
    simp only [listInsert] at h
    split at h
    · rcases List.mem_cons.mp h with h1 | h1
      · right; simp [h1]
      · rcases ih h1 with h2 | h2
        · left; exact h2
        · right; simp [h2]
    · split at h
      · rcases List.mem_cons.mp h with h1 | h1
        · left; exact h1
        · right; simp [h1]
      · rcases List.mem_cons.mp h with h1 | h1
        · left; exact h1
        · right; exact h1

theorem listInsert_sorted {k v : Int} {kvs : List Entry} (hs : EntSorted kvs) :
    EntSorted (listInsert k v kvs) := by
  induction kvs with
  | nil => simp [listInsert, EntSorted]
  | cons e0 rest ih =>
    cases e0 with | mk k0 v0 =>
    rw [entSorted_cons] at hs
    simp only [listInsert]
    split
    · rename_i hlt
      rw [entSorted_cons]
      constructor
      · intro e he
        rcases listInsert_mem he with h1 | h1
        · rw [h1]; exact hlt
        · exact hs.1 e h1
      · exact ih hs.2
    · split
      · rename_i hlt heq
        rw [entSorted_cons]
        exact ⟨fun e he => heq ▸ hs.1 e he, hs.2⟩
      · rename_i hlt heq
        rw [entSorted_cons]
        constructor
        · intro e he
          rcases List.mem_cons.mp he with h1 | h1
          · rw [h1]; simp only; omega
          · have := hs.1 e h1
            simp only at this ⊢; omega
        · rw [entSorted_cons]; exact ⟨hs.1, hs.2⟩

theorem listInsert_length {k v : Int} (kvs : List Entry) :
    kvs.length ≤ (listInsert k v kvs).length ∧
      (listInsert k v kvs).length ≤ kvs.length + 1 := by
  induction kvs with
  | nil => simp [listInsert]
  | cons e0 rest ih =>
    cases e0 with | mk k0 v0 =>
    simp only [listInsert]
    split
    · simpa using ih
    · split <;> simp

theorem listLookup_listInsert (k v : Int) (kvs : List Entry) :
    listLookup k (listInsert k v kvs) = some v := by
  induction kvs with
  | nil => simp [listInsert, listLookup]
  | cons e0 rest ih =>
    cases e0 with | mk k0 v0 =>
    simp only [listInsert]
    split
    · rename_i hlt
      simp only [listLookup]
      rw [if_neg (by omega), ih]
    · split <;> simp [listLookup]

theorem listLookup_listInsert_ne {k v k2 : Int} (hne : k2 ≠ k) (kvs : List Entry) :
    listLookup k2 (listInsert k v kvs) = listLookup k2 kvs := by
  induction kvs with
  | nil =>
    simp only [listInsert, listLookup]
    rw [if_neg (Ne.symm hne)]
  | cons e0 rest ih =>
    cases e0 with | mk k0 v0 =>
    simp only [listInsert]
    split
    · simp only [listLookup]
      split
      · rfl
      · exact ih
    · split
      · rename_i hlt heq
        subst heq
        simp only [listLookup]
        rw [if_neg (Ne.symm hne), if_neg (Ne.symm hne)]
      · simp only [listLookup]
        rw [if_neg (Ne.symm hne)]

theorem listLookup_listErase_ne {k k2 : Int} (hne : k2 ≠ k) (kvs : List Entry) :
    listLookup k2 (listErase k kvs) = listLookup k2 kvs := by
  induction kvs with
  | nil => rfl
  | cons e0 rest ih =>
    cases e0 with | mk k0 v0 =>
    simp only [listErase]
    split
    · rename_i heq
      subst heq
      simp only [listLookup]
      rw [if_neg (Ne.symm hne)]
    · simp only [listLookup]
      split
      · rfl
      · exact ih

theorem listErase_sublist (k : Int) (kvs : List Entry) :
    (listErase k kvs).Sublist kvs := by
  induction kvs with
  | nil => simp [listErase]
  | cons e0 rest ih =>
    cases e0 with | mk k0 v0 =>
    simp only [listErase]
    split
    · exact List.sublist_cons_self _ _
    · exact List.Sublist.cons₂ _ ih

theorem listErase_sorted {k : Int} {kvs : List Entry} (hs : EntSorted kvs) :
    EntSorted (listErase k kvs) :=
  List.Pairwise.sublist (listErase_sublist k kvs) hs

theorem listLookup_listErase_self {k : Int} {kvs : List Entry} (hs : EntSorted kvs) :
    listLookup k (listErase k kvs) = none := by
  induction kvs with
  | nil => rfl
  | cons e0 rest ih =>
    cases e0 with | mk k0 v0 =>
    rw [entSorted_cons] at hs
    simp only [listErase]
    split
    · rename_i heq
      subst heq
      exact listLookup_of_not_mem (by
        intro hm
        obtain ⟨e2, he2, he2k⟩ := List.mem_map.mp hm
        have := hs.1 e2 he2
        omega)
    · rename_i hne
      simp only [listLookup]
      rw [if_neg hne]
      exact ih hs.2

/-! ## Append lemmas for the reference model -/

theorem listInsert_append_left {k v : Int} {A B : List Entry}
    (h : ∀ e ∈ A, e.1 < k) :
    listInsert k v (A ++ B) = A ++ listInsert k v B := by
  induction A with
  | nil => simp
  | cons e0 rest ih =>
    cases e0 with | mk k0 v0 =>
    simp only [List.cons_append, listInsert, List.append_eq]
    rw [if_pos (h (k0, v0) (by simp))]
    rw [ih (fun e he => h e (by simp [he]))]

theorem listInsert_append_right {k v : Int} {X C : List Entry}
    (h : ∀ e ∈ C, k < e.1) :
    listInsert k v (X ++ C) = listInsert k v X ++ C := by
  induction X with
  | nil =>
    cases C with
    | nil => simp [listInsert]
    | cons e0 rest =>
      cases e0 with | mk k0 v0 =>
      have := h (k0, v0) (by simp)
      simp only at this
      simp only [List.nil_append, listInsert]
      rw [if_neg (by omega), if_neg (by omega)]
      simp [listInsert]
  | cons e0 rest ih =>
    cases e0 with | mk k0 v0 =>
    simp only [List.cons_append, listInsert, List.append_eq]
    split
    · rw [ih]; rfl
    · split <;> simp

theorem listErase_append_left {k : Int} {A B : List Entry}
    (h : ∀ e ∈ A, e.1 ≠ k) :
    listErase k (A ++ B) = A ++ listErase k B := by
  induction A with
  | nil => simp
  | cons e0 rest ih =>
    cases e0 with | mk k0 v0 =>
    simp only [List.cons_append, listErase, List.append_eq]
    rw [if_neg (h (k0, v0) (by simp))]
    rw [ih (fun e he => h e (by simp [he]))]

theorem listErase_append_right {k : Int} {X C : List Entry}
    (h : ∀ e ∈ C, e.1 ≠ k) :
    listErase k (X ++ C) = listErase k X ++ C := by
  induction X with
  | nil =>
    simp only [List.nil_append, listErase]
    have : listErase k C = C := listErase_of_not_mem (by
      intro hm
      obtain ⟨e2, he2, he2k⟩ := List.mem_map.mp hm
      exact h e2 he2 he2k)
    simp [this, listErase]
  | cons e0 rest ih =>
    cases e0 with | mk k0 v0 =>
    simp only [List.cons_append, listErase, List.append_eq]
    split
    · rfl
    · rw [ih]; rfl

theorem listLookup_append (k : Int) (A B : List Entry) :
    listLookup k (A ++ B) =
      match listLookup k A with
      | some v => some v
      | none => listLookup k B := by
  induction A with
  | nil => simp [listLookup]
  | cons e0 rest ih =>
    cases e0 with | mk k0 v0 =>
    simp only [List.cons_append, listLookup]
    split
    · rfl
    · exact ih

/-! ## Invariant toolbox -/

theorem goodT_leaf_inv {lbL lbI L I : Nat} {lo hi : Option Int} {h : Nat}
    {kvs : List Entry} (hg : GoodT lbL lbI L I lo hi h (.leaf kvs)) :
    h = 0 ∧ EntSorted kvs ∧ (∀ e ∈ kvs, OptLt lo e.1 ∧ OptLe e.1 hi) ∧
      kvs.length ≤ L := by
  cases hg with
  | leaf hsort hbnd hlen => exact ⟨rfl, hsort, hbnd, hlen⟩

theorem goodT_internal_inv {lbL lbI L I : Nat} {lo hi : Option Int} {h : Nat}
    {cs : List (BNode × Int)} (hg : GoodT lbL lbI L I lo hi h (.internal cs)) :
    ∃ h' ps c k m, h = h' + 1 ∧ cs = ps ++ [(c, k)] ∧ cs.length ≤ I ∧
      ChainT lbL lbI L I lo h' ps m ∧ GoodT lbL lbI L I m hi h' c ∧
      LowOK lbL lbI c ∧ CachedIs c k ∧ (∀ x, hi = some x → k = x) ∧
      (∀ x, hi = some x → OptLt m x) := by
  cases hg with
  | internal hlen hch hc hlow hcache hpin hmx =>
    exact ⟨_, _, _, _, _, rfl, rfl, hlen, hch, hc, hlow, hcache, hpin, hmx⟩

theorem chainT_nil_inv {lbL lbI L I : Nat} {lo m : Option Int} {h : Nat}
    (hch : ChainT lbL lbI L I lo h [] m) : m = lo := by
  cases hch; rfl

theorem chainT_cons_inv {lbL lbI L I : Nat} {lo m : Option Int} {h : Nat}
    {c : BNode} {k : Int} {rest : List (BNode × Int)}
    (hch : ChainT lbL lbI L I lo h ((c, k) :: rest) m) :
    GoodT lbL lbI L I lo (some k) h c ∧ LowOK lbL lbI c ∧ CachedIs c k ∧
      OptLt lo k ∧ ChainT lbL lbI L I (some k) h rest m := by
  cases hch with
  | cons hc hlow hcache hlok hrest => exact ⟨hc, hlow, hcache, hlok, hrest⟩

theorem chainT_append {lbL lbI L I : Nat} {lo m1 m2 : Option Int} {h : Nat}
    {A B : List (BNode × Int)}
    (h1 : ChainT lbL lbI L I lo h A m1) (h2 : ChainT lbL lbI L I m1 h B m2) :
    ChainT lbL lbI L I lo h (A ++ B) m2 := by
  induction A generalizing lo with
  | nil => rw [chainT_nil_inv h1] at h2; simpa using h2
  | cons p A ih =>
    cases p
    obtain ⟨hc, hlow, hcache, hlok, hrest⟩ := chainT_cons_inv h1
    exact .cons hc hlow hcache hlok (ih hrest)

theorem chainT_append_inv {lbL lbI L I : Nat} {lo m : Option Int} {h : Nat}
    {A B : List (BNode × Int)}
    (hch : ChainT lbL lbI L I lo h (A ++ B) m) :
    ∃ mid, ChainT lbL lbI L I lo h A mid ∧ ChainT lbL lbI L I mid h B m := by
  induction A generalizing lo with
  | nil => exact ⟨lo, .nil, by simpa using hch⟩
  | cons p A ih =>
    cases p
    rw [List.cons_append] at hch
    obtain ⟨hc, hlow, hcache, hlok, hrest⟩ := chainT_cons_inv hch
    obtain ⟨mid, hA, hB⟩ := ih hrest
    exact ⟨mid, .cons hc hlow hcache hlok hA, hB⟩

/-- The chain's running bound only moves up. -/
theorem chainT_m_mono {lbL lbI L I : Nat} {lo m : Option Int} {h : Nat}
    {ps : List (BNode × Int)} (hch : ChainT lbL lbI L I lo h ps m) :
    ∀ x : Int, OptLt m x → OptLt lo x := by
  induction ps generalizing lo with
  | nil => rw [chainT_nil_inv hch]; exact fun x hx => hx
  | cons p ps ih =>
    cases p with | mk c k =>
    obtain ⟨hc, hlow, hcache, hlok, hrest⟩ := chainT_cons_inv hch
    intro x hx
    have hk := ih hrest x hx
    cases lo with
    | none => trivial
    | some a =>
      simp only [OptLt] at hk hlok ⊢
      omega

/-- A chain starting at `some a` ends at `some mm` with `a ≤ mm`. -/
theorem chainT_end_ge {lbL lbI L I : Nat} {a : Int} {m : Option Int} {h : Nat}
    {ps : List (BNode × Int)} (hch : ChainT lbL lbI L I (some a) h ps m) :
    ∃ mm, m = some mm ∧ a ≤ mm := by
  induction ps generalizing a with
  | nil => exact ⟨a, chainT_nil_inv hch, le_refl a⟩
  | cons p ps ih =>
    cases p with | mk c k =>
    obtain ⟨hc, hlow, hcache, hlok, hrest⟩ := chainT_cons_inv hch
    obtain ⟨mm, hmm, hge⟩ := ih hrest
    simp only [OptLt] at hlok
    exact ⟨mm, hmm, by omega⟩

theorem pairsToList_append (A B : List (BNode × Int)) :
    pairsToList (A ++ B) = pairsToList A ++ pairsToList B := by
  induction A with
  | nil => simp [pairsToList]
  | cons p A ih =>
    cases p
    simp only [List.cons_append, pairsToList, List.append_eq, ih, List.append_assoc]

theorem toList_internal (cs : List (BNode × Int)) :
    toList (.internal cs) = pairsToList cs := by
  simp [toList]

/-- Keys enumerated by a good subtree are sorted and lie in `(lo, hi]`. -/
theorem goodT_entries {lbL lbI L I : Nat} : ∀ {h : Nat} {lo hi : Option Int}
    {t : BNode}, GoodT lbL lbI L I lo hi h t →
    EntSorted (toList t) ∧ ∀ e ∈ toList t, OptLt lo e.1 ∧ OptLe e.1 hi := by
  intro h
  induction h using Nat.strong_induction_on with
  | _ h ih =>
    intro lo hi t hg
    cases t with
    | leaf kvs =>
      obtain ⟨-, hsort, hbnd, -⟩ := goodT_leaf_inv hg
      exact ⟨hsort, hbnd⟩
    | internal cs =>
      obtain ⟨h', ps, c, k, m, rfl, rfl, hlen, hch, hc, hlow, hcache, hpin, hmx⟩ :=
        goodT_internal_inv hg
      have hlt : h' < h' + 1 := Nat.lt_succ_self h'
      -- entries of the chain part: sorted, above lo, and at most the end bound
      have chainFact : ∀ {lo2 m2 : Option Int} {ps2 : List (BNode × Int)},
          ChainT lbL lbI L I lo2 h' ps2 m2 →
          EntSorted (pairsToList ps2) ∧
            (∀ e ∈ pairsToList ps2, OptLt lo2 e.1 ∧ ∃ mm, m2 = some mm ∧ e.1 ≤ mm) := by
        intro lo2 m2 ps2
        induction ps2 generalizing lo2 with
        | nil => intro _; simp [pairsToList, entSorted_nil]
        | cons p ps2 ih2 =>
          intro hch2
          cases p with | mk c3 k3 =>
          obtain ⟨hc3, hlow3, hcache3, hlok3, hrest3⟩ := chainT_cons_inv hch2
          obtain ⟨hsortc, hbndc⟩ := ih h' hlt hc3
          obtain ⟨hsortr, hbndr⟩ := ih2 hrest3
          constructor
          · simp only [pairsToList]
            rw [EntSorted, List.pairwise_append]
            refine ⟨hsortc, hsortr, ?_⟩
            intro a ha b hb
            have h1 := (hbndc a ha).2
            have h2 := (hbndr b hb).1
            simp only [OptLe, OptLt] at h1 h2
            omega
          · intro e he
            simp only [pairsToList, List.mem_append] at he
            rcases he with he | he
            · have h1 := hbndc e he
              refine ⟨h1.1, ?_⟩
              have h2 := h1.2
              simp only [OptLe] at h2
              cases ps2 with
              | nil =>
                rw [chainT_nil_inv hrest3]
                exact ⟨k3, rfl, h2⟩
              | cons q qs =>
                obtain ⟨mm, hmm, hge⟩ := chainT_end_ge hrest3
                exact ⟨mm, hmm, by omega⟩
            · have h1 := hbndr e he
              obtain ⟨h1a, h1b⟩ := h1
              refine ⟨?_, h1b⟩
              cases lo2 with
              | none => trivial
              | some a =>
                simp only [OptLt] at h1a hlok3 ⊢
                omega
      obtain ⟨hsortA, hbndA⟩ := chainFact hch
      obtain ⟨hsortC, hbndC⟩ := ih h' hlt hc
      rw [toList_internal, pairsToList_append]
      have chainHi : ∀ e ∈ pairsToList ps, OptLe e.1 hi := by
        intro e he
        obtain ⟨mm, hmm, hle⟩ := (hbndA e he).2
        cases hi with
        | none => trivial
        | some x =>
          have hmxx := hmx x rfl
          rw [hmm] at hmxx
          simp only [OptLt] at hmxx
          simp only [OptLe]
          omega
      constructor
      · simp only [pairsToList, List.append_nil]
        rw [EntSorted, List.pairwise_append]
        refine ⟨hsortA, hsortC, ?_⟩
        intro a ha b hb
        obtain ⟨mm, hmm, hle⟩ := (hbndA a ha).2
        have h2 := (hbndC b hb).1
        rw [hmm] at h2
        simp only [OptLt] at h2
        omega
      · intro e he
        simp only [pairsToList, List.append_nil, List.mem_append] at he
        rcases he with he | he
        · exact ⟨(hbndA e he).1, chainHi e he⟩
        · have h1 := hbndC e he
          exact ⟨chainT_m_mono hch e.1 h1.1, h1.2⟩

/-! ## Position lemmas for the lower-bound search -/

theorem take_lbIdx (k : Int) (kvs : List Entry) :
    kvs.take (lbIdx k kvs) = kvs.takeWhile (fun e => e.1 < k) := by
  induction kvs with
  | nil => rfl
  | cons e rest ih =>
    rw [lbIdx_cons]
    by_cases he : e.1 < k
    · simp only [he, if_true, List.take_succ_cons, List.takeWhile_cons]
      rw [if_pos (by simpa using he), ih]
    · simp [he, List.takeWhile_cons]

theorem take_lbIdx_lt (k : Int) (kvs : List Entry) :
    ∀ e ∈ kvs.take (lbIdx k kvs), e.1 < k := by
  rw [take_lbIdx]
  intro e he
  have := List.mem_takeWhile_imp he
  simpa using this

theorem drop_lbIdx_ge {k : Int} {kvs : List Entry} (hs : EntSorted kvs) :
    ∀ e ∈ kvs.drop (lbIdx k kvs), k ≤ e.1 := by
  induction kvs with
  | nil => simp
  | cons e0 rest ih =>
    rw [entSorted_cons] at hs
    rw [lbIdx_cons]
    by_cases he : e0.1 < k
    · simp only [he, if_true, List.drop_succ_cons]
      exact ih hs.2
    · simp only [he, if_false, List.drop_zero]
      intro e hm
      rcases List.mem_cons.mp hm with h1 | h1
      · subst h1; omega
      · have := hs.1 e h1
        omega

theorem drop_lbIdx_gt {k : Int} {kvs : List Entry} (hs : EntSorted kvs)
    (hnf : keyFound k kvs = false) :
    ∀ e ∈ kvs.drop (lbIdx k kvs), k < e.1 := by
  intro e he
  have hge := drop_lbIdx_ge hs e he
  rcases Int.lt_or_le k e.1 with h | h
  · exact h
  · -- then e.1 = k, contradicting not-found
    have hek : e.1 = k := by omega
    exfalso
    apply absurd hnf
    simp only [Bool.not_eq_false]
    exact keyFound_of_mem hs (by
      have h0 : e.1 ∈ (kvs.drop (lbIdx k kvs)).map Prod.fst :=
        List.mem_map_of_mem Prod.fst he
      rw [hek] at h0
      exact List.map_subset _ (List.drop_subset _ _) h0)

theorem lbIdx_append_of_all_lt {k : Int} {A B : List Entry}
    (h : ∀ e ∈ A, e.1 < k) : lbIdx k (A ++ B) = A.length + lbIdx k B := by
  induction A with
  | nil => simp
  | cons e rest ih =>
    rw [List.cons_append, lbIdx_cons, if_pos (h e (by simp)), ih (fun e he => h e (by simp [he]))]
    simp only [List.length_cons]
    omega

theorem keyFound_append_of_all_lt {k : Int} {A B : List Entry}
    (h : ∀ e ∈ A, e.1 < k) : keyFound k (A ++ B) = keyFound k B := by
  induction A with
  | nil => simp
  | cons e rest ih =>
    rw [List.cons_append, keyFound_cons, if_pos (h e (by simp)),
      ih (fun e he => h e (by simp [he]))]

theorem lbIdx_append_of_lt_length {k : Int} {A B : List Entry}
    (h : lbIdx k (A ++ B) < A.length) : lbIdx k (A ++ B) = lbIdx k A := by
  induction A with
  | nil => simp at h
  | cons e rest ih =>
    simp only [List.cons_append, lbIdx_cons, List.length_cons] at h ⊢
    by_cases he : e.1 < k
    · simp only [he, if_true] at h ⊢
      rw [ih (by omega)]
    · simp only [he, if_false]

theorem keyFound_append_of_lt_length {k : Int} {A B : List Entry}
    (h : lbIdx k (A ++ B) < A.length) : keyFound k (A ++ B) = keyFound k A := by
  induction A with
  | nil => simp at h
  | cons e rest ih =>
    simp only [List.cons_append, lbIdx_cons, List.length_cons] at h
    simp only [List.cons_append, keyFound_cons]
    by_cases he : e.1 < k
    · simp only [he, if_true] at h ⊢
      exact ih (by omega)
    · simp only [he, if_false]

/-! ## Leaf insert against the invariant -/

theorem sorted_le_last {l : List Entry} (hs : EntSorted l) :
    ∀ e ∈ l, e.1 ≤ entriesRightmostKey l := by
  induction l with
  | nil => simp
  | cons x rest ih =>
    rw [entSorted_cons] at hs
    intro e he
    rcases List.mem_cons.mp he with h1 | h1
    · subst h1
      cases rest with
      | nil => simp [entriesRightmostKey]
      | cons y r2 =>
        have h2 := ih hs.2 y (by simp)
        have h3 := hs.1 y (by simp)
        have : entriesRightmostKey (e :: y :: r2) = entriesRightmostKey (y :: r2) := by
          simp [entriesRightmostKey, List.getLast?]
        omega
    · cases rest with
      | nil => simp at h1
      | cons y r2 =>
        have h2 := ih hs.2 e h1
        have : entriesRightmostKey (x :: y :: r2) = entriesRightmostKey (y :: r2) := by
          simp [entriesRightmostKey, List.getLast?]
        omega

theorem last_key_mem {l : List Entry} (hne : l ≠ []) :
    entriesRightmostKey l ∈ l.map Prod.fst := by
  have : l.getLast? = some (l.getLast hne) := List.getLast?_eq_getLast l hne
  simp only [entriesRightmostKey, this, Option.map_some, Option.getD_some]
  exact List.mem_map_of_mem Prod.fst (List.getLast_mem hne)

theorem entSorted_take {l : List Entry} (n : Nat) (hs : EntSorted l) :
    EntSorted (l.take n) := List.Pairwise.sublist (List.take_sublist n l) hs

theorem entSorted_drop {l : List Entry} (n : Nat) (hs : EntSorted l) :
    EntSorted (l.drop n) := List.Pairwise.sublist (List.drop_sublist n l) hs

theorem drop_subset_drop {α : Type} (l : List α) {i j : Nat} (hij : i ≤ j) :
    ∀ x ∈ l.drop j, x ∈ l.drop i := by
  intro x hx
  have : l.drop j = (l.drop i).drop (j - i) := by
    rw [List.drop_drop]
    congr 1
    omega
  rw [this] at hx
  exact List.drop_subset _ _ hx

/-- Inserting an absent key grows the list by exactly one entry. -/
theorem listInsert_length_not_found {k v : Int} {kvs : List Entry}
    (hf : keyFound k kvs = false) :
    (listInsert k v kvs).length = kvs.length + 1 := by
  rw [← insertAt_eq_listInsert k v kvs hf]
  have h1 : lbIdx k kvs ≤ kvs.length := by
    have h2 := List.Sublist.length_le
      (List.takeWhile_sublist (l := kvs) (p := fun e => decide (e.1 < k)))
    simpa [lbIdx] using h2
  simp only [List.length_append, List.length_cons, List.length_take, List.length_drop]
  omega

theorem leafInsert_spec {lbL lbI L I : Nat}
    (hL : 2 ≤ L) (hlbL1 : 1 ≤ lbL) (hlbL2 : lbL ≤ UNDERFLOW_BOUND L)
    (hlbLsp : lbL ≤ L - UNDERFLOW_BOUND L)
    {lo hi : Option Int} {k v : Int} {kvs : List Entry}
    (hg : GoodT lbL lbI L I lo hi 0 (.leaf kvs))
    (hlok : OptLt lo k) (hkhi : OptLe k hi) :
    InsOutcome lbL lbI L I lo hi 0 (.leaf kvs) k v (leafInsert L k v kvs) := by
  obtain ⟨-, hsort, hbnd, hlen⟩ := goodT_leaf_inv hg
  unfold leafInsert
  by_cases hf : keyFound k kvs = true
  · rw [if_pos hf]
    rw [set_eq_listInsert k v kvs hf]
    refine ⟨?_, fun kk h => h, ?_, by simp [toList], ?_⟩
    · refine GoodT.leaf (listInsert_sorted hsort) ?_ ?_
      · intro e he
        rcases listInsert_mem he with h1 | h1
        · rw [h1]; exact ⟨hlok, hkhi⟩
        · exact hbnd e h1
      · -- insert over an existing key keeps the length
        have h2 : (listInsert k v kvs).length ≤ kvs.length := by
          rw [← set_eq_listInsert k v kvs hf]
          simp
        omega
    · intro hlow
      simp only [LowOK] at hlow ⊢
      rw [← set_eq_listInsert k v kvs hf]
      simpa using hlow
    · simp only [nodeSize]
      rw [← set_eq_listInsert k v kvs hf]
      simp
  · rw [if_neg hf]
    rw [Bool.not_eq_true] at hf
    by_cases hroom : kvs.length < L
    · rw [if_pos hroom]
      rw [insertAt_eq_listInsert k v kvs hf]
      refine ⟨?_, fun kk h => h, ?_, by simp [toList], ?_⟩
      · refine GoodT.leaf (listInsert_sorted hsort) ?_ ?_
        · intro e he
          rcases listInsert_mem he with h1 | h1
          · rw [h1]; exact ⟨hlok, hkhi⟩
          · exact hbnd e h1
        · have := (listInsert_length (k := k) (v := v) kvs).2
          omega
      · intro hlow
        simp only [LowOK] at hlow ⊢
        have := (listInsert_length (k := k) (v := v) kvs).1
        omega
      · simp only [nodeSize]
        have := (listInsert_length (k := k) (v := v) kvs).1
        omega
    · rw [if_neg hroom]
      have hfull : kvs.length = L := by omega
      set bIdx := UNDERFLOW_BOUND kvs.length with hbIdx
      have hbIdxval : bIdx = (L + 1) / 2 := by rw [hbIdx, hfull]; rfl
      have hbIdx1 : 1 ≤ bIdx := by rw [hbIdxval]; omega
      have hbIdxle : bIdx ≤ L := by rw [hbIdxval]; omega
      have hsplit : kvs.take bIdx ++ kvs.drop bIdx = kvs := List.take_append_drop _ _
      have hlenL : (kvs.take bIdx).length = bIdx := by
        rw [List.length_take]; omega
      have hlenR : (kvs.drop bIdx).length = L - bIdx := by
        rw [List.length_drop, hfull]
      have hsortL : EntSorted (kvs.take bIdx) := entSorted_take _ hsort
      have hsortR : EntSorted (kvs.drop bIdx) := entSorted_drop _ hsort
      have hcross : ∀ a ∈ kvs.take bIdx, ∀ b ∈ kvs.drop bIdx, a.1 < b.1 := by
        have := hsplit ▸ hsort
        rw [EntSorted, List.pairwise_append] at this
        exact this.2.2
      by_cases hpos : lbIdx k kvs < bIdx
      · rw [if_pos hpos]
        -- the new entry goes into the left half
        have hposL : lbIdx k (kvs.take bIdx ++ kvs.drop bIdx) < (kvs.take bIdx).length := by
          rw [hsplit, hlenL]; exact hpos
        have hidx : lbIdx k kvs = lbIdx k (kvs.take bIdx) := by
          conv_lhs => rw [← hsplit]
          exact lbIdx_append_of_lt_length hposL
        have hfL : keyFound k (kvs.take bIdx) = false := by
          rw [← hf]
          conv_rhs => rw [← hsplit]
          exact (keyFound_append_of_lt_length hposL).symm
        have hleft1 : (kvs.take bIdx).take (lbIdx k kvs) ++ (k, v) ::
            (kvs.take bIdx).drop (lbIdx k kvs) = listInsert k v (kvs.take bIdx) := by
          rw [hidx]
          exact insertAt_eq_listInsert k v _ hfL
        rw [hleft1]
        set left1 := listInsert k v (kvs.take bIdx) with hl1
        have hsort1 : EntSorted left1 := listInsert_sorted hsortL
        have hmem1 : ∀ e ∈ left1, e = (k, v) ∨ e ∈ kvs.take bIdx :=
          fun e he => listInsert_mem he
        have hlen1 : left1.length = bIdx + 1 := by
          rw [hl1, listInsert_length_not_found hfL, hlenL]
        have hne1 : left1 ≠ [] := by
          intro hcon; rw [hcon] at hlen1; simp at hlen1
        have hble : ∀ e ∈ left1, e.1 ≤ entriesRightmostKey left1 := sorted_le_last hsort1
        obtain ⟨eb, hebmem, hebk⟩ := List.mem_map.mp (last_key_mem hne1)
        have hblo : OptLt lo (entriesRightmostKey left1) := by
          rw [← hebk]
          rcases hmem1 eb hebmem with h1 | h1
          · rw [h1]; exact hlok
          · exact (hbnd eb (List.take_subset _ _ h1)).1
        have hbltR : ∀ e ∈ kvs.drop bIdx, entriesRightmostKey left1 < e.1 := by
          intro e he
          rw [← hebk]
          rcases hmem1 eb hebmem with h1 | h1
          · -- the boundary is k; entries right of the insertion point exceed k
            rw [h1]
            have : e ∈ kvs.drop (lbIdx k kvs) :=
              drop_subset_drop kvs (by omega) e he
            exact drop_lbIdx_gt hsort hf e this
          · exact hcross eb h1 e he
        have htoList : left1 ++ kvs.drop bIdx = listInsert k v kvs := by
          have hgt : ∀ e ∈ kvs.drop bIdx, k < e.1 := by
            intro e he
            exact drop_lbIdx_gt hsort hf e (drop_subset_drop kvs (by omega) e he)
          rw [hl1, ← listInsert_append_right hgt, hsplit]
        refine ⟨?_, ?_, ?_, ?_, trivial, fun kk h => h, hblo, ?_⟩
        · -- left part good
          refine GoodT.leaf hsort1 ?_ ?_
          · intro e he
            refine ⟨?_, by simpa [OptLe] using hble e he⟩
            rcases hmem1 e he with h1 | h1
            · rw [h1]; exact hlok
            · exact (hbnd e (List.take_subset _ _ h1)).1
          · rw [hlen1, hbIdxval]; omega
        · -- right part good
          refine GoodT.leaf hsortR ?_ ?_
          · intro e he
            exact ⟨by simpa [OptLt] using hbltR e he,
              (hbnd e (List.drop_subset _ _ he)).2⟩
          · rw [hlenR]; omega
        · simp only [LowOK]; rw [hlen1]; omega
        · simp only [LowOK]; rw [hlenR]; omega
        · simpa [toList] using htoList
      · rw [if_neg hpos]
        -- the new entry goes into the right half
        have hallL : ∀ e ∈ kvs.take bIdx, e.1 < k := by
          intro e he
          apply take_lbIdx_lt k kvs
          have : kvs.take bIdx = (kvs.take (lbIdx k kvs)).take bIdx := by
            rw [List.take_take]
            congr 1
            omega
          rw [this] at he
          exact List.take_subset _ _ he
        have hidx : lbIdx k kvs = bIdx + lbIdx k (kvs.drop bIdx) := by
          conv_lhs => rw [← hsplit]
          rw [lbIdx_append_of_all_lt hallL, hlenL]
        have hfR : keyFound k (kvs.drop bIdx) = false := by
          rw [← hf]
          conv_rhs => rw [← hsplit]
          exact (keyFound_append_of_all_lt hallL).symm
        have hright1 : (kvs.drop bIdx).take (lbIdx k kvs - bIdx) ++ (k, v) ::
            (kvs.drop bIdx).drop (lbIdx k kvs - bIdx) = listInsert k v (kvs.drop bIdx) := by
          have : lbIdx k kvs - bIdx = lbIdx k (kvs.drop bIdx) := by omega
          rw [this]
          exact insertAt_eq_listInsert k v _ hfR
        rw [hright1]
        set right1 := listInsert k v (kvs.drop bIdx) with hr1
        have hsort1 : EntSorted right1 := listInsert_sorted hsortR
        have hmem1 : ∀ e ∈ right1, e = (k, v) ∨ e ∈ kvs.drop bIdx :=
          fun e he => listInsert_mem he
        have hlen1 : right1.length = L - bIdx + 1 := by
          rw [hr1, listInsert_length_not_found hfR, hlenR]
        have hneL : kvs.take bIdx ≠ [] := by
          intro hcon
          have := hlenL
          rw [hcon] at this
          simp at this
          omega
        have hble : ∀ e ∈ kvs.take bIdx, e.1 ≤ entriesRightmostKey (kvs.take bIdx) :=
          sorted_le_last hsortL
        obtain ⟨eb, hebmem, hebk⟩ := List.mem_map.mp (last_key_mem hneL)
        have hblo : OptLt lo (entriesRightmostKey (kvs.take bIdx)) := by
          rw [← hebk]
          exact (hbnd eb (List.take_subset _ _ hebmem)).1
        have hbltk : entriesRightmostKey (kvs.take bIdx) < k := by
          rw [← hebk]
          exact hallL eb hebmem
        have hbltR : ∀ e ∈ right1, entriesRightmostKey (kvs.take bIdx) < e.1 := by
          intro e he
          rcases hmem1 e he with h1 | h1
          · rw [h1]; exact hbltk
          · rw [← hebk]
            exact hcross eb hebmem e h1
        have htoList : kvs.take bIdx ++ right1 = listInsert k v kvs := by
          rw [hr1, ← listInsert_append_left hallL, hsplit]
        refine ⟨?_, ?_, ?_, ?_, trivial, fun kk h => h, hblo, ?_⟩
        · refine GoodT.leaf hsortL ?_ ?_
          · intro e he
            exact ⟨(hbnd e (List.take_subset _ _ he)).1,
              by simpa [OptLe] using hble e he⟩
          · rw [hlenL]; omega
        · refine GoodT.leaf hsort1 ?_ ?_
          · intro e he
            refine ⟨by simpa [OptLt] using hbltR e he, ?_⟩
            rcases hmem1 e he with h1 | h1
            · rw [h1]; exact hkhi
            · exact (hbnd e (List.drop_subset _ _ h1)).2
          · rw [hlen1, hbIdxval]; omega
        · simp only [LowOK]; rw [hlenL]; omega
        · simp only [LowOK]; rw [hlen1]; omega
        · simpa [toList] using htoList

/-! ## More structural helpers -/

/-- Entries of a chain: sorted, above the start bound, at most the end bound. -/
theorem chainT_entries {lbL lbI L I : Nat} {lo m : Option Int} {h : Nat}
    {ps : List (BNode × Int)} (hch : ChainT lbL lbI L I lo h ps m) :
    EntSorted (pairsToList ps) ∧
      ∀ e ∈ pairsToList ps, OptLt lo e.1 ∧ ∃ mm, m = some mm ∧ e.1 ≤ mm := by
  induction ps generalizing lo with
  | nil => simp [pairsToList, entSorted_nil]
  | cons p ps ih =>
    cases p with | mk c3 k3 =>
    obtain ⟨hc3, hlow3, hcache3, hlok3, hrest3⟩ := chainT_cons_inv hch
    obtain ⟨hsortc, hbndc⟩ := goodT_entries hc3
    obtain ⟨hsortr, hbndr⟩ := ih hrest3
    constructor
    · simp only [pairsToList]
      rw [EntSorted, List.pairwise_append]
      refine ⟨hsortc, hsortr, ?_⟩
      intro a ha b hb
      have h1 := (hbndc a ha).2
      have h2 := (hbndr b hb).1
      simp only [OptLe, OptLt] at h1 h2
      omega
    · intro e he
      simp only [pairsToList, List.mem_append] at he
      rcases he with he | he
      · have h1 := hbndc e he
        refine ⟨h1.1, ?_⟩
        have h2 := h1.2
        simp only [OptLe] at h2
        cases ps with
        | nil =>
          rw [chainT_nil_inv hrest3]
          exact ⟨k3, rfl, h2⟩
        | cons q qs =>
          obtain ⟨mm, hmm, hge⟩ := chainT_end_ge hrest3
          exact ⟨mm, hmm, by omega⟩
      · have h1 := hbndr e he
        obtain ⟨h1a, h1b⟩ := h1
        refine ⟨?_, h1b⟩
        cases lo with
        | none => trivial
        | some a =>
          simp only [OptLt] at h1a hlok3 ⊢
          omega

theorem chainT_entries_lt {lbL lbI L I : Nat} {lo m : Option Int} {h : Nat}
    {ps : List (BNode × Int)} {k : Int}
    (hch : ChainT lbL lbI L I lo h ps m) (hmk : OptLt m k) :
    ∀ e ∈ pairsToList ps, e.1 < k := by
  intro e he
  obtain ⟨-, hbnd⟩ := chainT_entries hch
  obtain ⟨-, mm, hmm, hle⟩ := hbnd e he
  rw [hmm] at hmk
  simp only [OptLt] at hmk
  omega

theorem chainT_entries_gt {lbL lbI L I : Nat} {a : Int} {m : Option Int} {h : Nat}
    {ps : List (BNode × Int)} (hch : ChainT lbL lbI L I (some a) h ps m) :
    ∀ e ∈ pairsToList ps, a < e.1 := by
  intro e he
  obtain ⟨-, hbnd⟩ := chainT_entries hch
  have := (hbnd e he).1
  simpa [OptLt] using this

/-- A non-root good subtree is never empty. -/
theorem goodT_toList_ne {lbL lbI L I : Nat} (hlbL : 1 ≤ lbL) (hlbI : 2 ≤ lbI) :
    ∀ {h : Nat} {lo hi : Option Int} {t : BNode},
      GoodT lbL lbI L I lo hi h t → LowOK lbL lbI t → toList t ≠ [] := by
  intro h
  induction h using Nat.strong_induction_on with
  | _ h ih =>
    intro lo hi t hg hlow
    cases t with
    | leaf kvs =>
      simp only [LowOK] at hlow
      simp only [toList]
      intro hcon
      rw [hcon] at hlow
      simp at hlow
      omega
    | internal cs =>
      obtain ⟨h', ps, c, k, m, rfl, rfl, hlen, hch, hc, hlowc, hcache, hpin, hmx⟩ :=
        goodT_internal_inv hg
      rw [toList_internal, pairsToList_append]
      have hcne := ih h' (Nat.lt_succ_self h') hc hlowc
      simp only [pairsToList, List.append_nil]
      intro hcon
      rcases List.append_eq_nil.mp hcon with ⟨-, h2⟩
      exact hcne h2

/-- A nonempty good subtree with both bounds forces the bounds apart. -/
theorem good_lo_lt_hi {lbL lbI L I : Nat} {b x : Int} {h : Nat} {t : BNode}
    (hg : GoodT lbL lbI L I (some b) (some x) h t) (hne : toList t ≠ []) :
    b < x := by
  obtain ⟨-, hbnd⟩ := goodT_entries hg
  cases hl : toList t with
  | nil => exact absurd hl hne
  | cons e rest =>
    have := hbnd e (by rw [hl]; simp)
    obtain ⟨h1, h2⟩ := this
    simp only [OptLt, OptLe] at h1 h2
    omega

theorem getElem?_append_cons {α : Type} (A B : List α) (y : α) :
    (A ++ y :: B)[A.length]? = some y := by
  induction A with
  | nil => simp
  | cons a A ih => simpa using ih

theorem set_append_cons {α : Type} (A B : List α) (y x : α) :
    (A ++ y :: B).set A.length x = A ++ x :: B := by
  induction A with
  | nil => simp
  | cons a A ih => simpa using ih

theorem insertAfter_append_cons {α : Type} (A B : List α) (y z : α) :
    (A ++ y :: B).take (A.length + 1) ++ z :: (A ++ y :: B).drop (A.length + 1)
      = A ++ y :: z :: B := by
  induction A with
  | nil => simp
  | cons a A ih => simpa using ih

theorem getElem?_mid_append {α : Type} (A B : List α) (y x : α) :
    ((A ++ y :: B) ++ [x])[A.length]? = some y := by
  induction A with
  | nil => simp
  | cons a A ih => simpa using ih

theorem set_mid_append {α : Type} (A B : List α) (y x z : α) :
    ((A ++ y :: B) ++ [x]).set A.length z = (A ++ z :: B) ++ [x] := by
  induction A with
  | nil => simp
  | cons a A ih => simpa using ih

theorem insertAfter_mid_append {α : Type} (A B : List α) (y x z : α) :
    ((A ++ y :: B) ++ [x]).take (A.length + 1) ++ z ::
        ((A ++ y :: B) ++ [x]).drop (A.length + 1) = (A ++ y :: z :: B) ++ [x] := by
  induction A with
  | nil => simp
  | cons a A ih => simpa using ih

theorem eraseIdx_mid_append {α : Type} (A B : List α) (y x : α) :
    ((A ++ y :: B) ++ [x]).eraseIdx A.length = (A ++ B) ++ [x] := by
  induction A with
  | nil => simp
  | cons a A ih => simpa using ih

theorem eraseIdx_append_cons {α : Type} (A B : List α) (y : α) :
    (A ++ y :: B).eraseIdx A.length = A ++ B := by
  induction A with
  | nil => simp
  | cons a A ih => simpa using ih

theorem routingKeys_append_single (ps : List (BNode × Int)) (c : BNode) (k : Int) :
    routingKeys (ps ++ [(c, k)]) = ps.map Prod.snd := by
  simp [routingKeys]

theorem nodeRightmostKey_append (ps : List (BNode × Int)) (c : BNode) (k : Int) :
    nodeRightmostKey (.internal (ps ++ [(c, k)])) = k := by
  simp [nodeRightmostKey]

theorem pairsToList_append_single (ps : List (BNode × Int)) (c : BNode) (k : Int) :
    pairsToList (ps ++ [(c, k)]) = pairsToList ps ++ toList c := by
  rw [pairsToList_append]
  simp [pairsToList]

/-- `ChainT` ending in an explicit last pair pins the end bound to its key. -/
theorem chainT_snoc_end {lbL lbI L I : Nat} {lo m : Option Int} {h : Nat}
    {A : List (BNode × Int)} {c : BNode} {k : Int}
    (hch : ChainT lbL lbI L I lo h (A ++ [(c, k)]) m) : m = some k := by
  obtain ⟨mid, -, h2⟩ := chainT_append_inv hch
  obtain ⟨-, -, -, -, h3⟩ := chainT_cons_inv h2
  exact chainT_nil_inv h3

/-- Locating the search key inside a chain: either every routing key is below `k`
(the descent goes to the last child), or the chain splits at the first routing key
`≥ k`. -/
theorem chain_focus {lbL lbI L I : Nat} {k : Int} {lo m : Option Int} {h : Nat}
    {ps : List (BNode × Int)}
    (hch : ChainT lbL lbI L I lo h ps m) (hlok : OptLt lo k) :
    (((ps.map Prod.snd).takeWhile (fun x => decide (x < k))).length = ps.length ∧
       OptLt m k) ∨
    (∃ A c2 k2 B la, ps = A ++ (c2, k2) :: B ∧
       A.length = ((ps.map Prod.snd).takeWhile (fun x => decide (x < k))).length ∧
       ChainT lbL lbI L I lo h A la ∧ GoodT lbL lbI L I la (some k2) h c2 ∧
       LowOK lbL lbI c2 ∧ CachedIs c2 k2 ∧ OptLt la k2 ∧ OptLt la k ∧ k ≤ k2 ∧
       ChainT lbL lbI L I (some k2) h B m) := by
  induction ps generalizing lo with
  | nil =>
    left
    rw [chainT_nil_inv hch]
    exact ⟨rfl, hlok⟩
  | cons p ps ih =>
    cases p with | mk c2 k2 =>
    obtain ⟨hc2, hlow2, hcache2, hlok2, hrest⟩ := chainT_cons_inv hch
    by_cases hlt : k2 < k
    · rcases ih hrest (by simpa [OptLt] using hlt) with ⟨hlen, hmk⟩ | hr
      · left
        constructor
        · simp only [List.map_cons, List.takeWhile_cons, decide_eq_true_eq]
          rw [if_pos hlt]
          simp [hlen]
        · exact hmk
      · right
        obtain ⟨A, c3, k3, B, la, rfl, hA, hchA, hg3, hlow3, hcache3, hlak3, hlak,
          hkk3, hchB⟩ := hr
        refine ⟨(c2, k2) :: A, c3, k3, B, la, by simp, ?_,
          .cons hc2 hlow2 hcache2 hlok2 hchA, hg3, hlow3, hcache3, hlak3, hlak,
          hkk3, hchB⟩
        simp only [List.map_cons, List.takeWhile_cons, decide_eq_true_eq]
        rw [if_pos hlt]
        simp [hA]
    · right
      refine ⟨[], c2, k2, ps, lo, by simp, ?_, .nil, hc2, hlow2, hcache2, hlok2,
        hlok, by omega, hrest⟩
      simp only [List.map_cons, List.takeWhile_cons, decide_eq_true_eq]
      rw [if_neg hlt]
      simp

theorem chainT_ne_end_gt_lo {lbL lbI L I : Nat} {lo : Option Int} {bb : Int}
    {h : Nat} {T : List (BNode × Int)}
    (hch : ChainT lbL lbI L I lo h T (some bb)) (hne : T ≠ []) : OptLt lo bb := by
  cases T with
  | nil => exact absurd rfl hne
  | cons p T =>
    cases p with | mk c1 k1 =>
    obtain ⟨-, -, -, hlok1, hrest⟩ := chainT_cons_inv hch
    obtain ⟨mm, hmm, hge⟩ := chainT_end_ge hrest
    cases hmm
    cases lo with
    | none => trivial
    | some a =>
      simp only [OptLt] at hlok1 ⊢
      omega

/-- Splitting an over-full internal node's pair list at `bIdx` yields two good
internal nodes, with the code's boundary `keys_[boundary_idx - 1]`. -/
theorem split_parts {lbL lbI L I : Nat} {lo hi m2 : Option Int} {h : Nat}
    {ps2 : List (BNode × Int)} {clast : BNode} {klast : Int}
    (hch2 : ChainT lbL lbI L I lo h ps2 m2)
    (hglast : GoodT lbL lbI L I m2 hi h clast)
    (hlowlast : LowOK lbL lbI clast)
    (hcachelast : CachedIs clast klast)
    (hpin2 : ∀ x, hi = some x → klast = x)
    (hmx2 : ∀ x, hi = some x → OptLt m2 x)
    {bIdx : Nat} (hb1 : 1 ≤ bIdx) (hb2 : bIdx ≤ ps2.length)
    (hszl : bIdx ≤ I) (hszr : ps2.length + 1 - bIdx ≤ I) :
    ∀ bb, bb = ((((ps2 ++ [(clast, klast)]).take bIdx).getLast?.map Prod.snd).getD 0) →
    GoodT lbL lbI L I lo (some bb) (h + 1)
        (.internal ((ps2 ++ [(clast, klast)]).take bIdx)) ∧
      GoodT lbL lbI L I (some bb) hi (h + 1)
        (.internal ((ps2 ++ [(clast, klast)]).drop bIdx)) ∧
      OptLt lo bb ∧
      nodeRightmostKey (.internal ((ps2 ++ [(clast, klast)]).take bIdx)) = bb ∧
      nodeRightmostKey (.internal ((ps2 ++ [(clast, klast)]).drop bIdx)) = klast ∧
      ((ps2 ++ [(clast, klast)]).take bIdx).length = bIdx ∧
      ((ps2 ++ [(clast, klast)]).drop bIdx).length = ps2.length + 1 - bIdx := by
  intro bb hbb
  have htake : (ps2 ++ [(clast, klast)]).take bIdx = ps2.take bIdx := by
    rw [List.take_append_of_le_length hb2]
  have hdrop : (ps2 ++ [(clast, klast)]).drop bIdx = ps2.drop bIdx ++ [(clast, klast)] := by
    rw [List.drop_append_of_le_length hb2]
  have hTne : ps2.take bIdx ≠ [] := by
    intro hcon
    have := congrArg List.length hcon
    simp only [List.length_take, List.length_nil] at this
    omega
  -- decompose the chain at bIdx
  have hsplitT : ps2.take bIdx ++ ps2.drop bIdx = ps2 := List.take_append_drop _ _
  obtain ⟨mid, chA, chB⟩ := chainT_append_inv (by rw [hsplitT]; exact hch2)
  -- peel the last pair of the take part
  obtain ⟨T', cbp, hT'⟩ : ∃ T' cbp, ps2.take bIdx = T' ++ [cbp] := by
    refine ⟨(ps2.take bIdx).dropLast, (ps2.take bIdx).getLast hTne, ?_⟩
    rw [List.dropLast_append_getLast hTne]
  cases cbp with | mk cb bb0 =>
  have hbbval : bb = bb0 := by
    rw [hbb, htake, hT']
    simp
  rw [hbbval]
  rw [hT'] at chA
  obtain ⟨mid2, chA', chLast⟩ := chainT_append_inv chA
  obtain ⟨hgb, hlowb, hcacheb, hmid2b, hnil⟩ := chainT_cons_inv chLast
  have hmid : mid = some bb0 := chainT_nil_inv hnil
  subst hmid
  have hlenT : (ps2.take bIdx).length = bIdx := by
    rw [List.length_take]; omega
  have hlenT' : T'.length + 1 = bIdx := by
    have := congrArg List.length hT'
    simp only [List.length_append, List.length_cons, List.length_nil] at this
    omega
  refine ⟨?_, ?_, ?_, ?_, ?_, by rw [htake]; exact hlenT, by rw [hdrop]; simp; omega⟩
  · rw [htake, hT']
    exact GoodT.internal
      (by simp only [List.length_append, List.length_cons, List.length_nil]; omega)
      chA' hgb hlowb hcacheb
      (fun x hx => by cases hx; rfl) (fun x hx => by cases hx; exact hmid2b)
  · rw [hdrop]
    refine GoodT.internal ?_ chB hglast hlowlast hcachelast hpin2 hmx2
    simp only [List.length_append, List.length_cons, List.length_nil, List.length_drop]
    omega
  · exact chainT_ne_end_gt_lo chA (by simp)
  · rw [htake, hT', nodeRightmostKey_append]
  · rw [hdrop, nodeRightmostKey_append]

/-! ## The insert preservation/refinement theorem -/

theorem nodeInsert_spec {lbL lbI L I : Nat}
    (hL : 2 ≤ L) (hI : 3 ≤ I) (hlbL1 : 1 ≤ lbL) (hlbI1 : 2 ≤ lbI)
    (hlbL2 : lbL ≤ UNDERFLOW_BOUND L) (hlbLsp : lbL ≤ L - UNDERFLOW_BOUND L)
    (hlbI2 : lbI ≤ UNDERFLOW_BOUND (I + 1))
    (hlbIsp : lbI ≤ I + 1 - UNDERFLOW_BOUND (I + 1)) {k v : Int} :
    ∀ {h : Nat} {lo hi : Option Int} {t : BNode},
      GoodT lbL lbI L I lo hi h t → OptLt lo k → OptLe k hi →
      InsOutcome lbL lbI L I lo hi h t k v (nodeInsert L I k v t) := by
  intro h
  induction h using Nat.strong_induction_on with
  | _ h ih =>
    intro lo hi t hg hlok hkhi
    cases t with
    | leaf kvs =>
      obtain ⟨hh0, -, -, -⟩ := goodT_leaf_inv hg
      subst hh0
      rw [show nodeInsert L I k v (.leaf kvs) = leafInsert L k v kvs from by
        simp [nodeInsert]]
      exact leafInsert_spec hL hlbL1 hlbL2 hlbLsp hg hlok hkhi
    | internal cs =>
      obtain ⟨h', ps, c, klast, m, rfl, rfl, hlen, hch, hc, hlowc, hcachec, hpin, hmx⟩ :=
        goodT_internal_inv hg
      have hti : searchChildIndex k (ps ++ [(c, klast)]) =
          ((ps.map Prod.snd).takeWhile (fun x => decide (x < k))).length := by
        simp [searchChildIndex, routingKeys_append_single]
      rw [show nodeInsert L I k v (.internal (ps ++ [(c, klast)])) =
          internalInsert L I k v (ps ++ [(c, klast)]) from by simp [nodeInsert]]
      rw [internalInsert.eq_def]
      simp only []
      rcases chain_focus hch hlok with ⟨hlenfoc, hmk⟩ |
        ⟨A, c2, k2, B, la, rfl, hA, hchA, hg2, hlow2, hcache2, hlak2, hlak, hkk2, hchB⟩
      · -- the descent goes to the last child
        have htival : searchChildIndex k (ps ++ [(c, klast)]) = ps.length := by
          rw [hti, hlenfoc]
        have hget : (ps ++ [(c, klast)])[searchChildIndex k (ps ++ [(c, klast)])]? =
            some (c, klast) := by
          rw [htival]
          exact getElem?_append_cons ps [] (c, klast)
        have ihc := ih h' (Nat.lt_succ_self h') hc hmk hkhi
        split
        · rename_i heq
          rw [heq] at hget
          cases hget
        · rename_i c0 ck0 heq
          rw [hget] at heq
          injection heq with heq2
          cases heq2
          split
          · -- child did not split
            rename_i c' hres
            rw [hres] at ihc
            obtain ⟨hg', hcpres, hlowpres, htl, hsz⟩ := ihc
            rw [htival, set_append_cons ps [] (c, klast) (c', klast)]
            refine ⟨?_, ?_, ?_, ?_, ?_⟩
            · exact GoodT.internal (by simpa using hlen) hch hg'
                (hlowpres hlowc) (hcpres klast hcachec) hpin hmx
            · intro kk hck
              simp only [CachedIs, nodeRightmostKey_append] at hck ⊢
              exact hck
            · intro hl
              simpa [LowOK] using (by simpa [LowOK] using hl : lbI ≤ ps.length + 1)
            · rw [toList_internal, toList_internal, pairsToList_append_single,
                pairsToList_append_single, htl]
              exact (listInsert_append_left (chainT_entries_lt hch hmk)).symm
            · simp only [nodeSize, List.length_append, List.length_cons,
                List.length_nil]
              omega
          · -- child split
            rename_i cl b cr hres
            rw [hres] at ihc
            obtain ⟨hgl, hgr, hlowl, hlowr, hcl, hcrpres, hlob, htl⟩ := ihc
            rw [htival, set_append_cons ps [] (c, klast) (cl, b)]
            have hcs2 : (ps ++ [(cl, b)]).take (ps.length + 1) ++ (cr, klast) ::
                (ps ++ [(cl, b)]).drop (ps.length + 1) =
                (ps ++ [(cl, b)]) ++ [(cr, klast)] := by
              have h1 : (ps ++ [(cl, b)]).length = ps.length + 1 := by simp
              rw [← h1, List.take_length, List.drop_length]
            rw [hcs2]
            have hchain2 : ChainT lbL lbI L I lo h' (ps ++ [(cl, b)]) (some b) :=
              chainT_append hch (.cons hgl hlowl hcl hlob .nil)
            have hcrcache : CachedIs cr klast := hcrpres klast hcachec
            have hcrne : toList cr ≠ [] := goodT_toList_ne hlbL1 hlbI1 hgr hlowr
            have htoL : pairsToList ((ps ++ [(cl, b)]) ++ [(cr, klast)]) =
                listInsert k v (pairsToList (ps ++ [(c, klast)])) := by
              rw [pairsToList_append_single, pairsToList_append_single,
                pairsToList_append_single, List.append_assoc, htl]
              exact (listInsert_append_left (chainT_entries_lt hch hmk)).symm
            split
            · -- no overflow: the wider node stands
              rename_i hfit
              refine ⟨?_, ?_, ?_, ?_, ?_⟩
              · refine GoodT.internal (by simpa using hfit) hchain2 hgr hlowr
                  hcrcache ?_ ?_
                · exact fun x hx => hpin x hx
                · intro x hx
                  have hkx := hpin x hx
                  subst hkx
                  have := good_lo_lt_hi (hx ▸ hgr) hcrne
                  simpa [OptLt] using this
              · intro kk hck
                simp only [CachedIs, nodeRightmostKey_append] at hck ⊢
                exact hck
              · intro hl
                simp only [LowOK] at hl ⊢
                simp only [List.length_append, List.length_cons, List.length_nil] at hl ⊢
                omega
              · rw [toList_internal, toList_internal, htoL]
              · simp only [nodeSize, List.length_append, List.length_cons,
                  List.length_nil]
                omega
            · -- overflow: split this internal node
              rename_i hover
              set cs2 := (ps ++ [(cl, b)]) ++ [(cr, klast)] with hcs2def
              have hlen2 : cs2.length = I + 1 := by
                have h1 : (ps ++ [(c, klast)]).length ≤ I := hlen
                simp only [hcs2def, List.length_append, List.length_cons,
                  List.length_nil] at h1 hover ⊢
                omega
              have hps2 : cs2 = (ps ++ [(cl, b)]) ++ [(cr, klast)] := rfl
              have hb1 : 1 ≤ UNDERFLOW_BOUND cs2.length := by
                rw [hlen2]; simp [UNDERFLOW_BOUND]; omega
              have hb2 : UNDERFLOW_BOUND cs2.length ≤ (ps ++ [(cl, b)]).length := by
                rw [hlen2]
                have : (ps ++ [(cl, b)]).length = I := by
                  simp only [hcs2def, List.length_append, List.length_cons,
                    List.length_nil] at hlen2 ⊢
                  omega
                rw [this]
                simp [UNDERFLOW_BOUND]
                omega
              obtain ⟨hgL, hgR, hloB, hrmL, hrmR, hlenL2, hlenR2⟩ :=
                split_parts hchain2 hgr hlowr hcrcache hpin
                  (fun x hx => by
                    have hkx := hpin x hx
                    subst hkx
                    have := good_lo_lt_hi (hx ▸ hgr) hcrne
                    simpa [OptLt] using this)
                  hb1 hb2
                  (by rw [hlen2]; simp [UNDERFLOW_BOUND]; omega)
                  (by
                    have : (ps ++ [(cl, b)]).length = I := by
                      simp only [hcs2def, List.length_append, List.length_cons,
                        List.length_nil] at hlen2 ⊢
                      omega
                    rw [this, hlen2]
                    simp [UNDERFLOW_BOUND]
                    omega)
                  _ rfl
              rw [← hcs2def] at hlenL2 hlenR2 hrmL hrmR hgL hgR hloB
              have hps2len : (ps ++ [(cl, b)]).length = I := by
                simp only [hcs2def, List.length_append, List.length_cons,
                  List.length_nil] at hlen2 ⊢
                omega
              refine ⟨hgL, hgR, ?_, ?_, ?_, ?_, hloB, ?_⟩
              · simp only [LowOK]
                rw [hlenL2, hlen2]
                exact hlbI2
              · simp only [LowOK]
                rw [hlenR2, hps2len, hlen2]
                exact hlbIsp
              · simp only [CachedIs]
                exact hrmL
              · intro kk hck
                simp only [CachedIs, nodeRightmostKey_append] at hck
                simp only [CachedIs]
                rw [hrmR, hck]
              · rw [toList_internal, toList_internal, ← pairsToList_append,
                  List.take_append_drop, htoL, toList_internal]
      · -- the descent goes into the chain
        have htival : searchChildIndex k ((A ++ (c2, k2) :: B) ++ [(c, klast)]) =
            A.length := by rw [hti, ← hA]
        have hget : ((A ++ (c2, k2) :: B) ++ [(c, klast)])[searchChildIndex k
            ((A ++ (c2, k2) :: B) ++ [(c, klast)])]? = some (c2, k2) := by
          rw [htival]
          exact getElem?_mid_append A B (c2, k2) (c, klast)
        have ihc := ih h' (Nat.lt_succ_self h') hg2 hlak (by simpa [OptLe] using hkk2)
        have hleft_lt : ∀ e ∈ pairsToList A, e.1 < k :=
          chainT_entries_lt hchA hlak
        have hmge : ∃ mm, m = some mm ∧ k2 ≤ mm := chainT_end_ge hchB
        have hright_gt : ∀ e ∈ pairsToList B ++ toList c, k < e.1 := by
          intro e he
          rcases List.mem_append.mp he with he | he
          · have := chainT_entries_gt hchB e he
            omega
          · obtain ⟨mm, hmm, hge⟩ := hmge
            obtain ⟨-, hbnd⟩ := goodT_entries hc
            have := (hbnd e he).1
            rw [hmm] at this
            simp only [OptLt] at this
            omega
        have hsrcList : pairsToList ((A ++ (c2, k2) :: B) ++ [(c, klast)]) =
            pairsToList A ++ (toList c2 ++ (pairsToList B ++ toList c)) := by
          rw [pairsToList_append_single, pairsToList_append]
          simp [pairsToList, List.append_assoc]
        split
        · rename_i heq
          rw [heq] at hget
          cases hget
        · rename_i c0 ck0 heq
          rw [hget] at heq
          injection heq with heq2
          cases heq2
          split
          · -- child did not split
            rename_i c' hres
            rw [hres] at ihc
            obtain ⟨hg', hcpres, hlowpres, htl, hsz⟩ := ihc
            rw [htival, set_mid_append A B (c2, k2) (c, klast) (c', k2)]
            refine ⟨?_, ?_, ?_, ?_, ?_⟩
            · refine GoodT.internal ?_
                (chainT_append hchA (.cons hg' (hlowpres hlow2)
                  (hcpres k2 hcache2) hlak2 hchB)) hc hlowc hcachec hpin hmx
              simp only [List.length_append, List.length_cons, List.length_nil] at hlen ⊢
              omega
            · intro kk hck
              simp only [CachedIs, nodeRightmostKey_append] at hck ⊢
              exact hck
            · intro hl
              simp only [LowOK, List.length_append, List.length_cons,
                List.length_nil] at hl ⊢
              omega
            · rw [toList_internal, toList_internal, hsrcList,
                pairsToList_append_single, pairsToList_append]
              rw [listInsert_append_left hleft_lt, listInsert_append_right hright_gt,
                ← htl]
              simp [pairsToList, List.append_assoc]
            · simp only [nodeSize, List.length_append, List.length_cons,
                List.length_nil]
              omega
          · -- child split
            rename_i cl b cr hres
            rw [hres] at ihc
            obtain ⟨hgl, hgr, hlowl, hlowr, hcl, hcrpres, hlob, htl⟩ := ihc
            rw [htival, set_mid_append A B (c2, k2) (c, klast) (cl, b),
              insertAfter_mid_append A B (cl, b) (c, klast) (cr, k2)]
            have hcrne : toList cr ≠ [] := goodT_toList_ne hlbL1 hlbI1 hgr hlowr
            have hbk2 : OptLt (some b) k2 := by
              simpa [OptLt] using good_lo_lt_hi hgr hcrne
            have hchain2 : ChainT lbL lbI L I lo h' (A ++ (cl, b) :: (cr, k2) :: B) m :=
              chainT_append hchA (.cons hgl hlowl hcl hlob
                (.cons hgr hlowr (hcrpres k2 hcache2) hbk2 hchB))
            have htoL : pairsToList ((A ++ (cl, b) :: (cr, k2) :: B) ++ [(c, klast)]) =
                listInsert k v
                  (pairsToList ((A ++ (c2, k2) :: B) ++ [(c, klast)])) := by
              rw [hsrcList, pairsToList_append_single, pairsToList_append]
              rw [listInsert_append_left hleft_lt, listInsert_append_right hright_gt,
                ← htl]
              simp [pairsToList, List.append_assoc]
            split
            · rename_i hfit
              refine ⟨?_, ?_, ?_, ?_, ?_⟩
              · exact GoodT.internal (by simpa using hfit) hchain2 hc hlowc
                  hcachec hpin hmx
              · intro kk hck
                simp only [CachedIs, nodeRightmostKey_append] at hck ⊢
                exact hck
              · intro hl
                simp only [LowOK, List.length_append, List.length_cons,
                  List.length_nil] at hl ⊢
                omega
              · rw [toList_internal, toList_internal, htoL]
              · simp only [nodeSize, List.length_append, List.length_cons,
                  List.length_nil]
                omega
            · rename_i hover
              have hlen2 : ((A ++ (cl, b) :: (cr, k2) :: B) ++ [(c, klast)]).length
                  = I + 1 := by
                simp only [List.length_append, List.length_cons,
                  List.length_nil] at hlen hover ⊢
                omega
              have hps2len : (A ++ (cl, b) :: (cr, k2) :: B).length = I := by
                simp only [List.length_append, List.length_cons,
                  List.length_nil] at hlen2 ⊢
                omega
              have hb1 : 1 ≤ UNDERFLOW_BOUND
                  ((A ++ (cl, b) :: (cr, k2) :: B) ++ [(c, klast)]).length := by
                rw [hlen2]; simp [UNDERFLOW_BOUND]; omega
              have hb2 : UNDERFLOW_BOUND
                    ((A ++ (cl, b) :: (cr, k2) :: B) ++ [(c, klast)]).length ≤
                  (A ++ (cl, b) :: (cr, k2) :: B).length := by
                rw [hlen2, hps2len]
                simp [UNDERFLOW_BOUND]
                omega
              obtain ⟨hgL, hgR, hloB, hrmL, hrmR, hlenL2, hlenR2⟩ :=
                split_parts hchain2 hc hlowc hcachec hpin hmx hb1 hb2
                  (by rw [hlen2]; simp [UNDERFLOW_BOUND]; omega)
                  (by rw [hps2len, hlen2]; simp [UNDERFLOW_BOUND]; omega)
                  _ rfl
              refine ⟨hgL, hgR, ?_, ?_, ?_, ?_, hloB, ?_⟩
              · simp only [LowOK]
                rw [hlenL2, hlen2]
                exact hlbI2
              · simp only [LowOK]
                rw [hlenR2, hps2len, hlen2]
                exact hlbIsp
              · simp only [CachedIs]
                exact hrmL
              · intro kk hck
                simp only [CachedIs, nodeRightmostKey_append] at hck
                simp only [CachedIs]
                rw [hrmR, hck]
              · rw [toList_internal, toList_internal, ← pairsToList_append,
                  List.take_append_drop, htoL, toList_internal]

/-! ## The search refinement theorem -/

theorem nodeSearch_spec {lbL lbI L I : Nat} {k : Int} :
    ∀ {h : Nat} {lo hi : Option Int} {t : BNode},
      GoodT lbL lbI L I lo hi h t → OptLt lo k →
      nodeSearch k t = listLookup k (toList t) := by
  intro h
  induction h using Nat.strong_induction_on with
  | _ h ih =>
    intro lo hi t hg hlok
    cases t with
    | leaf kvs =>
      obtain ⟨-, hs, -, -⟩ := goodT_leaf_inv hg
      rw [show nodeSearch k (.leaf kvs) = leafSearch k kvs from by
        simp [nodeSearch]]
      simp only [toList]
      exact leafSearch_eq_listLookup k kvs hs
    | internal cs =>
      obtain ⟨h', ps, c, klast, m, rfl, rfl, hlen, hch, hc, hlowc, hcachec, hpin, hmx⟩ :=
        goodT_internal_inv hg
      have hti : searchChildIndex k (ps ++ [(c, klast)]) =
          ((ps.map Prod.snd).takeWhile (fun x => decide (x < k))).length := by
        simp [searchChildIndex, routingKeys_append_single]
      rw [nodeSearch.eq_def]
      simp only []
      rcases chain_focus hch hlok with ⟨hlenfoc, hmk⟩ |
        ⟨A, c2, k2, B, la, rfl, hA, hchA, hg2, hlow2, hcache2, hlak2, hlak, hkk2, hchB⟩
      · -- the descent goes to the last child
        have htival : searchChildIndex k (ps ++ [(c, klast)]) = ps.length := by
          rw [hti, hlenfoc]
        have hget : (ps ++ [(c, klast)])[searchChildIndex k (ps ++ [(c, klast)])]? =
            some (c, klast) := by
          rw [htival]
          exact getElem?_append_cons ps [] (c, klast)
        split
        · rename_i heq
          rw [heq] at hget
          cases hget
        · rename_i c0 ck0 heq
          rw [hget] at heq
          injection heq with heq2
          cases heq2
          have hAnone : listLookup k (pairsToList ps) = none :=
            listLookup_of_not_mem (by
              intro hmem
              obtain ⟨e, he, hek⟩ := List.mem_map.mp hmem
              have h1 := chainT_entries_lt hch hmk e he
              rw [hek] at h1
              exact lt_irrefl _ h1)
          rw [ih h' (Nat.lt_succ_self h') hc hmk, toList_internal,
            pairsToList_append_single, listLookup_append, hAnone]
      · -- the descent goes into the chain
        have htival : searchChildIndex k ((A ++ (c2, k2) :: B) ++ [(c, klast)]) =
            A.length := by rw [hti, ← hA]
        have hget : ((A ++ (c2, k2) :: B) ++ [(c, klast)])[searchChildIndex k
            ((A ++ (c2, k2) :: B) ++ [(c, klast)])]? = some (c2, k2) := by
          rw [htival]
          exact getElem?_mid_append A B (c2, k2) (c, klast)
        have hmge : ∃ mm, m = some mm ∧ k2 ≤ mm := chainT_end_ge hchB
        have hright_gt : ∀ e ∈ pairsToList B ++ toList c, k < e.1 := by
          intro e he
          rcases List.mem_append.mp he with he | he
          · have := chainT_entries_gt hchB e he
            omega
          · obtain ⟨mm, hmm, hge⟩ := hmge
            obtain ⟨-, hbnd⟩ := goodT_entries hc
            have := (hbnd e he).1
            rw [hmm] at this
            simp only [OptLt] at this
            omega
        have hsrcList : pairsToList ((A ++ (c2, k2) :: B) ++ [(c, klast)]) =
            pairsToList A ++ (toList c2 ++ (pairsToList B ++ toList c)) := by
          rw [pairsToList_append_single, pairsToList_append]
          simp [pairsToList, List.append_assoc]
        split
        · rename_i heq
          rw [heq] at hget
          cases hget
        · rename_i c0 ck0 heq
          rw [hget] at heq
          injection heq with heq2
          cases heq2
          have hAnone : listLookup k (pairsToList A) = none :=
            listLookup_of_not_mem (by
              intro hmem
              obtain ⟨e, he, hek⟩ := List.mem_map.mp hmem
              have h1 := chainT_entries_lt hchA hlak e he
              rw [hek] at h1
              exact lt_irrefl _ h1)
          have hrest_none : listLookup k (pairsToList B ++ toList c) = none :=
            listLookup_of_not_mem (by
              intro hmem
              obtain ⟨e, he, hek⟩ := List.mem_map.mp hmem
              have h1 := hright_gt e he
              rw [hek] at h1
              exact lt_irrefl _ h1)
          rw [ih h' (Nat.lt_succ_self h') hg2 hlak, toList_internal, hsrcList,
            listLookup_append, hAnone]
          simp only []
          rw [listLookup_append, hrest_none]
          cases hcv : listLookup k (toList c2) <;> simp

/-! ## Delete-side toolbox -/

/-- Replacing the lower bound by a weaker one preserves goodness. -/
theorem goodT_weaken_lo {lbL lbI L I : Nat} {lo lo' : Option Int}
    (himp : ∀ x : Int, OptLt lo x → OptLt lo' x) :
    ∀ {h : Nat} {hi : Option Int} {t : BNode},
      GoodT lbL lbI L I lo hi h t → GoodT lbL lbI L I lo' hi h t := by
  intro h
  induction h using Nat.strong_induction_on with
  | _ h ih =>
    intro hi t hg
    cases t with
    | leaf kvs =>
      obtain ⟨hh0, hs, hbnd, hlen⟩ := goodT_leaf_inv hg
      subst hh0
      exact GoodT.leaf hs (fun e he => ⟨himp _ (hbnd e he).1, (hbnd e he).2⟩) hlen
    | internal cs =>
      obtain ⟨h', ps, c, klast, m, rfl, rfl, hlen, hch, hc, hlowc, hcachec, hpin, hmx⟩ :=
        goodT_internal_inv hg
      cases ps with
      | nil =>
        have hm : m = lo := chainT_nil_inv hch
        subst hm
        exact GoodT.internal hlen .nil (ih h' (Nat.lt_succ_self h') hc) hlowc hcachec
          hpin (fun x hx => himp x (hmx x hx))
      | cons p ps2 =>
        cases p with | mk c1 k1 =>
        obtain ⟨hc1, hlow1, hcache1, hlok1, hrest⟩ := chainT_cons_inv hch
        exact GoodT.internal hlen
          (.cons (ih h' (Nat.lt_succ_self h') hc1) hlow1 hcache1 (himp _ hlok1) hrest)
          hc hlowc hcachec hpin hmx

/-- The chain analogue of `goodT_weaken_lo` (nonempty chains keep their end bound). -/
theorem chainT_weaken_lo {lbL lbI L I : Nat} {lo lo' m : Option Int} {h : Nat}
    {ps : List (BNode × Int)}
    (himp : ∀ x : Int, OptLt lo x → OptLt lo' x)
    (hch : ChainT lbL lbI L I lo h ps m) (hne : ps ≠ []) :
    ChainT lbL lbI L I lo' h ps m := by
  cases ps with
  | nil => exact absurd rfl hne
  | cons p ps2 =>
    cases p with | mk c1 k1 =>
    obtain ⟨hc1, hlow1, hcache1, hlok1, hrest⟩ := chainT_cons_inv hch
    exact .cons (goodT_weaken_lo himp hc1) hlow1 hcache1 (himp _ hlok1) hrest

/-- Tightening the upper bound of a chain pair to the child's real rightmost key
(what `InternalNode::Balance` reads via `RIGHTMOST_KEY(child)` when borrowing). -/
theorem goodT_tighten {lbL lbI L I : Nat} {lo : Option Int} {kc : Int} {h : Nat}
    {c : BNode} (hlbL1 : 1 ≤ lbL) (hlbI1 : 2 ≤ lbI)
    (hg : GoodT lbL lbI L I lo (some kc) h c) (hlow : LowOK lbL lbI c)
    (hcache : CachedIs c kc) :
    GoodT lbL lbI L I lo (some (nodeRightmostKey c)) h c ∧
      nodeRightmostKey c ≤ kc ∧ OptLt lo (nodeRightmostKey c) ∧
      CachedIs c (nodeRightmostKey c) := by
  cases c with
  | leaf kvs =>
    obtain ⟨hh0, hs, hbnd, hlen⟩ := goodT_leaf_inv hg
    subst hh0
    have hne : kvs ≠ [] := by
      simp only [LowOK] at hlow
      intro hcon
      rw [hcon] at hlow
      simp at hlow
      omega
    have hmem : entriesRightmostKey kvs ∈ kvs.map Prod.fst := last_key_mem hne
    obtain ⟨e0, he0, he0k⟩ := List.mem_map.mp hmem
    have hb0 := hbnd e0 he0
    refine ⟨?_, ?_, ?_, trivial⟩
    · refine GoodT.leaf hs (fun e he => ⟨(hbnd e he).1, ?_⟩) hlen
      simp only [nodeRightmostKey, OptLe]
      exact sorted_le_last hs e he
    · simp only [nodeRightmostKey]
      rw [← he0k]
      simpa [OptLe] using hb0.2
    · simp only [nodeRightmostKey]
      rw [← he0k]
      exact hb0.1
  | internal cs =>
    have hck : nodeRightmostKey (.internal cs) = kc := hcache
    rw [hck]
    refine ⟨hg, le_refl _, ?_, hcache⟩
    have hne := goodT_toList_ne hlbL1 hlbI1 hg hlow
    cases lo with
    | none => trivial
    | some a =>
      simp only [OptLt]
      exact good_lo_lt_hi hg hne

/-- Erasing a present key shrinks the list by exactly one entry. -/
theorem listErase_length_found {k : Int} {kvs : List Entry}
    (hf : keyFound k kvs = true) :
    (listErase k kvs).length + 1 = kvs.length := by
  rw [← eraseIdx_eq_listErase k kvs hf]
  have hlb : lbIdx k kvs < kvs.length := by
    by_contra hcon
    push_neg at hcon
    have hdrop : kvs.drop (lbIdx k kvs) = [] := List.drop_eq_nil_of_le hcon
    rw [keyFound, hdrop] at hf
    cases hf
  simp only [List.length_eraseIdx, if_pos hlb]
  omega

/-- `left->Balance(right, boundary)` on two good adjacent siblings: a borrow
restores both minimum occupancies, a merge fits in one node; the entry sequence
is preserved. -/
theorem nodeBalance_spec {lbL lbI L I : Nat}
    (hL : 2 ≤ L) (hI : 3 ≤ I) (hlbL1 : 1 ≤ lbL) (hlbI1 : 2 ≤ lbI)
    (hlbL2 : lbL ≤ UNDERFLOW_BOUND L) (hlbIB : lbI ≤ UNDERFLOW_BOUND I)
    {h : Nat} {lo hi : Option Int} {bk kr : Int} {lc rc : BNode}
    (hgl : GoodT lbL lbI L I lo (some bk) h lc)
    (hgr : GoodT lbL lbI L I (some bk) hi h rc)
    (hcr : CachedIs rc kr)
    (hlobk : OptLt lo bk)
    (hbkhi : ∀ x, hi = some x → bk < x)
    (hszl : lowBound lbL lbI lc ≤ nodeSize lc + 1)
    (hszr : lowBound lbL lbI rc ≤ nodeSize rc + 1)
    (hlone : LowOK lbL lbI lc ∨ LowOK lbL lbI rc)
    (hunder : nodeSize lc < ufBound L I lc ∨ nodeSize rc < ufBound L I rc) :
    BalOutcome lbL lbI L I lo hi h lc rc kr (nodeBalance L I lc rc bk) := by
  have h2B : 2 * UNDERFLOW_BOUND L ≤ L + 1 ∧ L ≤ 2 * UNDERFLOW_BOUND L := by
    unfold UNDERFLOW_BOUND; omega
  have h2BI : 2 * UNDERFLOW_BOUND I ≤ I + 1 ∧ I ≤ 2 * UNDERFLOW_BOUND I := by
    unfold UNDERFLOW_BOUND; omega
  cases lc with
  | leaf l =>
    cases rc with
    | internal rcs =>
      obtain ⟨hh0, -, -, -⟩ := goodT_leaf_inv hgl
      obtain ⟨h2, -, -, -, -, hh2, -⟩ := goodT_internal_inv hgr
      omega
    | leaf r =>
      obtain ⟨hh0, hsl, hbl, hlenl⟩ := goodT_leaf_inv hgl
      subst hh0
      obtain ⟨-, hsr, hbr, hlenr⟩ := goodT_leaf_inv hgr
      simp only [lowBound, nodeSize] at hszl hszr
      simp only [LowOK] at hlone
      simp only [ufBound, nodeSize] at hunder
      have hl_le : ∀ e ∈ l, e.1 ≤ bk := fun e he => by
        have := (hbl e he).2
        simpa [OptLe] using this
      have hr_gt : ∀ e ∈ r, bk < e.1 := fun e he => by
        have := (hbr e he).1
        simpa [OptLt] using this
      by_cases h1 : l.length < UNDERFLOW_BOUND L ∧ r.length > UNDERFLOW_BOUND L
      · -- leaf borrow from the right sibling
        cases r with
        | nil => exact absurd h1.2 (by simp)
        | cons e0 rt =>
        have hnb : nodeBalance L I (.leaf l) (.leaf (e0 :: rt)) bk =
            (false, .leaf (l ++ [e0]), .leaf rt, e0.1) := by
          simp only [nodeBalance, leafBalance]
          rw [if_pos h1]
          simp [entriesLeftmostKey]
        rw [hnb]
        have hbk_e0 : bk < e0.1 := hr_gt e0 (by simp)
        rw [entSorted_cons] at hsr
        refine ⟨?_, ?_, ?_, ?_, trivial, trivial, ?_, ?_⟩
        · refine GoodT.leaf ?_ ?_ ?_
          · rw [EntSorted, List.pairwise_append]
            refine ⟨hsl, List.pairwise_singleton _ _, ?_⟩
            intro a ha b hb
            simp only [List.mem_singleton] at hb
            subst hb
            have := hl_le a ha
            omega
          · intro e he
            rcases List.mem_append.mp he with he | he
            · refine ⟨(hbl e he).1, ?_⟩
              have := hl_le e he
              simp only [OptLe]
              omega
            · simp only [List.mem_singleton] at he
              subst he
              refine ⟨?_, by simp [OptLe]⟩
              cases lo with
              | none => trivial
              | some a => simp only [OptLt] at hlobk ⊢; omega
          · simp only [List.length_append, List.length_singleton]
            omega
        · refine GoodT.leaf hsr.2 ?_ ?_
          · intro e he
            exact ⟨by simpa [OptLt] using hsr.1 e he, (hbr e (by simp [he])).2⟩
          · simp only [List.length_cons] at hlenr
            omega
        · simp only [LowOK, List.length_append, List.length_singleton]
          omega
        · simp only [LowOK]
          simp only [List.length_cons] at h1
          omega
        · cases lo with
          | none => trivial
          | some a => simp only [OptLt] at hlobk ⊢; omega
        · simp [toList]
      · by_cases h2 : l.length > UNDERFLOW_BOUND L ∧ r.length < UNDERFLOW_BOUND L
        · -- leaf borrow towards the right sibling
          have hlne : l ≠ [] := by
            intro hcon
            rw [hcon] at h2
            simp only [List.length_nil] at h2
            omega
          obtain ⟨li, elast, rfl⟩ : ∃ li elast, l = li ++ [elast] :=
            ⟨l.dropLast, l.getLast hlne, (List.dropLast_append_getLast hlne).symm⟩
          have hnb : nodeBalance L I (.leaf (li ++ [elast])) (.leaf r) bk =
              (false, .leaf li, .leaf (elast :: r), entriesRightmostKey li) := by
            simp only [nodeBalance, leafBalance]
            rw [if_neg h1, if_pos h2]
            simp
          rw [hnb]
          have hB1 : 1 ≤ UNDERFLOW_BOUND L := by unfold UNDERFLOW_BOUND; omega
          have hline : li ≠ [] := by
            intro hcon
            rw [hcon] at h2
            simp only [List.nil_append, List.length_singleton] at h2
            omega
          obtain ⟨e1, he1, he1k⟩ := List.mem_map.mp (last_key_mem hline)
          rw [EntSorted, List.pairwise_append] at hsl
          obtain ⟨hsli, -, hcross⟩ := hsl
          refine ⟨?_, ?_, ?_, ?_, trivial, trivial, ?_, ?_⟩
          · refine GoodT.leaf hsli ?_ ?_
            · intro e he
              refine ⟨(hbl e (List.mem_append_left _ he)).1, ?_⟩
              simp only [OptLe]
              exact sorted_le_last hsli e he
            · simp only [List.length_append, List.length_singleton] at hlenl
              omega
          · refine GoodT.leaf ?_ ?_ ?_
            · rw [entSorted_cons]
              refine ⟨fun e he => ?_, hsr⟩
              have h3 := hl_le elast (List.mem_append_right _ (by simp))
              have h4 := hr_gt e he
              omega
            · intro e he
              rcases List.mem_cons.mp he with he | he
              · subst he
                refine ⟨?_, ?_⟩
                · have := hcross e1 he1 e (by simp)
                  simp only [OptLt]
                  omega
                · have h3 := hl_le e (List.mem_append_right _ (by simp))
                  cases hi with
                  | none => trivial
                  | some x =>
                    have := hbkhi x rfl
                    simp only [OptLe]
                    omega
              · refine ⟨?_, (hbr e he).2⟩
                have h3 := hl_le e1 (List.mem_append_left _ he1)
                have h4 := hr_gt e he
                simp only [OptLt]
                omega
            · simp only [List.length_cons]
              omega
          · simp only [LowOK]
            simp only [List.length_append, List.length_singleton] at h2
            omega
          · simp only [LowOK, List.length_cons]
            omega
          · rw [← he1k]
            exact (hbl e1 (List.mem_append_left _ he1)).1
          · simp [toList]
        · -- leaf merge
          have hnb : nodeBalance L I (.leaf l) (.leaf r) bk =
              (true, .leaf (l ++ r), .leaf [], entriesRightmostKey (l ++ r)) := by
            simp only [nodeBalance, leafBalance]
            rw [if_neg h1, if_neg h2]
          rw [hnb]
          push_neg at h1 h2
          refine ⟨?_, ?_, trivial, by simp [toList]⟩
          · refine GoodT.leaf ?_ ?_ ?_
            · rw [EntSorted, List.pairwise_append]
              refine ⟨hsl, hsr, ?_⟩
              intro a ha b hb
              have h3 := hl_le a ha
              have h4 := hr_gt b hb
              omega
            · intro e he
              rcases List.mem_append.mp he with he | he
              · refine ⟨(hbl e he).1, ?_⟩
                have h3 := hl_le e he
                cases hi with
                | none => trivial
                | some x =>
                  have := hbkhi x rfl
                  simp only [OptLe]
                  omega
              · refine ⟨?_, (hbr e he).2⟩
                have h4 := hr_gt e he
                cases lo with
                | none => trivial
                | some a => simp only [OptLt] at hlobk ⊢; omega
            · simp only [List.length_append]
              omega
          · simp only [LowOK, List.length_append]
            omega
  | internal lps =>
    cases rc with
    | leaf r =>
      obtain ⟨hh0, -, -, -⟩ := goodT_leaf_inv hgr
      obtain ⟨h2, -, -, -, -, hh2, -⟩ := goodT_internal_inv hgl
      omega
    | internal rps =>
      obtain ⟨hl2, pl, cll, kll, ml, hhl, hpsl, hlenl, hchl, hcll, hlowll, hcachell,
        hpinl, hmxl⟩ := goodT_internal_inv hgl
      obtain ⟨hr2, pr, crl, krl, mr, hhr, hpsr, hlenr, hchr, hcrl, hlowrl, hcacherl,
        hpinr, hmxr⟩ := goodT_internal_inv hgr
      subst hhl
      have hhr2 : hr2 = hl2 := by omega
      subst hhr2
      subst hpsl
      subst hpsr
      have hkll : bk = kll := (hpinl bk rfl).symm
      subst hkll
      have hkr : nodeRightmostKey (.internal (pr ++ [(crl, krl)])) = kr := hcr
      rw [nodeRightmostKey_append] at hkr
      subst hkr
      simp only [lowBound, nodeSize] at hszl hszr
      simp only [LowOK] at hlone
      simp only [ufBound, nodeSize] at hunder
      have hBI2 : 2 ≤ UNDERFLOW_BOUND I := by unfold UNDERFLOW_BOUND; omega
      have hBIleI : UNDERFLOW_BOUND I ≤ I := by unfold UNDERFLOW_BOUND; omega
      by_cases h1 : (pl ++ [(cll, bk)]).length < UNDERFLOW_BOUND I ∧
          (pr ++ [(crl, krl)]).length > UNDERFLOW_BOUND I
      · -- internal borrow from the right sibling
        cases pr with
        | nil =>
          have := h1.2
          simp only [List.nil_append, List.length_singleton] at this
          omega
        | cons p0 pr' =>
        cases p0 with | mk c0 k0 =>
        obtain ⟨hc0, hlow0, hcache0, hlok0, hrest⟩ := chainT_cons_inv hchr
        obtain ⟨hgc0t, hnkle, hbknk, hcache0t⟩ :=
          goodT_tighten hlbL1 hlbI1 hc0 hlow0 hcache0
        have hnb : nodeBalance L I (.internal (pl ++ [(cll, bk)]))
            (.internal ((c0, k0) :: pr' ++ [(crl, krl)])) bk =
            (false, .internal ((pl ++ [(cll, bk)]) ++ [(c0, nodeRightmostKey c0)]),
              .internal (pr' ++ [(crl, krl)]), nodeRightmostKey c0) := by
          simp only [nodeBalance, internalBalance, List.cons_append]
          rw [if_pos (by simpa [List.cons_append] using h1)]
        rw [hnb]
        have hbknk' : bk < nodeRightmostKey c0 := by simpa [OptLt] using hbknk
        have hrlen2 : (pr' ++ [(crl, krl)]).length ≤ I := by
          simp only [List.cons_append, List.length_cons] at hlenr
          simp only [List.length_append, List.length_singleton] at hlenr ⊢
          omega
        have hrnode : GoodT lbL lbI L I (some k0) hi (hr2 + 1)
            (.internal (pr' ++ [(crl, krl)])) :=
          GoodT.internal hrlen2 hrest hcrl hlowrl hcacherl hpinr hmxr
        refine ⟨?_, ?_, ?_, ?_, ?_, ?_, ?_, ?_⟩
        · refine GoodT.internal ?_
            (chainT_append hchl (.cons hcll hlowll hcachell (hmxl bk rfl) .nil))
            hgc0t hlow0 hcache0t (fun x hx => Option.some.inj hx)
            (fun x hx => by
              have hx2 := Option.some.inj hx
              subst hx2
              exact hbknk)
          simp only [List.length_append, List.length_singleton] at h1 ⊢
          omega
        · refine goodT_weaken_lo ?_ hrnode
          intro x hx
          simp only [OptLt] at hx ⊢
          omega
        · simp only [LowOK, List.length_append, List.length_singleton] at hszl ⊢
          omega
        · simp only [LowOK, List.length_append, List.length_singleton,
            List.cons_append, List.length_cons] at h1 ⊢
          omega
        · show nodeRightmostKey (.internal ((pl ++ [(cll, bk)]) ++
            [(c0, nodeRightmostKey c0)])) = nodeRightmostKey c0
          exact nodeRightmostKey_append _ _ _
        · show nodeRightmostKey (.internal (pr' ++ [(crl, krl)])) = krl
          exact nodeRightmostKey_append _ _ _
        · cases lo with
          | none => trivial
          | some a => simp only [OptLt] at hlobk ⊢; omega
        · simp [toList_internal, pairsToList_append_single, pairsToList_append,
            pairsToList, List.append_assoc]
      · by_cases h2 : (pl ++ [(cll, bk)]).length > UNDERFLOW_BOUND I ∧
            (pr ++ [(crl, krl)]).length < UNDERFLOW_BOUND I
        · -- internal borrow towards the right sibling
          have hplne : pl ≠ [] := by
            intro hcon
            rw [hcon] at h2
            simp only [List.nil_append, List.length_singleton] at h2
            omega
          obtain ⟨pl', q, rfl⟩ : ∃ pl' q, pl = pl' ++ [q] :=
            ⟨pl.dropLast, pl.getLast hplne, (List.dropLast_append_getLast hplne).symm⟩
          cases q with | mk cq kq =>
          obtain ⟨mid, hchpl', hchq⟩ := chainT_append_inv hchl
          obtain ⟨hgq, hlowq, hcacheq, hlokq, hnilq⟩ := chainT_cons_inv hchq
          have hml : ml = some kq := chainT_nil_inv hnilq
          subst hml
          have hnb : nodeBalance L I (.internal ((pl' ++ [(cq, kq)]) ++ [(cll, bk)]))
              (.internal (pr ++ [(crl, krl)])) bk =
              (false, .internal (pl' ++ [(cq, kq)]),
                .internal ((cll, bk) :: pr ++ [(crl, krl)]), kq) := by
            simp only [nodeBalance, internalBalance]
            rw [if_neg h1, if_pos h2]
            simp
          rw [hnb]
          refine ⟨?_, ?_, ?_, ?_, ?_, ?_, ?_, ?_⟩
          · refine GoodT.internal ?_ hchpl' hgq hlowq hcacheq
              (fun x hx => Option.some.inj hx)
              (fun x hx => by
                have hx2 := Option.some.inj hx
                subst hx2
                exact hlokq)
            simp only [List.length_append, List.length_singleton] at hlenl ⊢
            omega
          · refine GoodT.internal ?_
              (.cons hcll hlowll hcachell (hmxl bk rfl) hchr) hcrl hlowrl hcacherl
              hpinr hmxr
            simp only [List.cons_append, List.length_cons,
              List.length_append, List.length_singleton] at h2 ⊢
            omega
          · simp only [LowOK, List.length_append, List.length_singleton] at h2 ⊢
            omega
          · simp only [LowOK, List.cons_append, List.length_cons,
              List.length_append, List.length_singleton] at hszr ⊢
            omega
          · show nodeRightmostKey (.internal (pl' ++ [(cq, kq)])) = kq
            exact nodeRightmostKey_append _ _ _
          · show nodeRightmostKey (.internal ((cll, bk) :: pr ++ [(crl, krl)])) = krl
            exact nodeRightmostKey_append ((cll, bk) :: pr) crl krl
          · exact chainT_ne_end_gt_lo hchl (by simp)
          · simp [toList_internal, pairsToList_append_single, pairsToList_append,
              pairsToList, List.append_assoc]
        · -- internal merge
          have hnb : nodeBalance L I (.internal (pl ++ [(cll, bk)]))
              (.internal (pr ++ [(crl, krl)])) bk =
              (true, .internal ((pl ++ [(cll, bk)]) ++ (pr ++ [(crl, krl)])),
                .internal [], bk) := by
            simp only [nodeBalance, internalBalance]
            rw [if_neg h1, if_neg h2]
          rw [hnb]
          push_neg at h1 h2
          have hshape : (pl ++ [(cll, bk)]) ++ (pr ++ [(crl, krl)]) =
              (pl ++ (cll, bk) :: pr) ++ [(crl, krl)] := by
            simp [List.append_assoc]
          refine ⟨?_, ?_, ?_, ?_⟩
          · rw [hshape]
            refine GoodT.internal ?_
              (chainT_append hchl (.cons hcll hlowll hcachell (hmxl bk rfl) hchr))
              hcrl hlowrl hcacherl hpinr hmxr
            simp only [List.length_append, List.length_cons,
              List.length_singleton] at h1 h2 hunder ⊢
            omega
          · simp only [LowOK, List.length_append, List.length_singleton] at hlone ⊢
            omega
          · show nodeRightmostKey (.internal ((pl ++ [(cll, bk)]) ++
              (pr ++ [(crl, krl)]))) = krl
            rw [hshape]
            exact nodeRightmostKey_append _ _ _
          · simp [toList_internal, pairsToList_append, pairsToList, List.append_assoc]

theorem getElem?_snoc2_right {α : Type} (A : List α) (y x : α) :
    ((A ++ [y]) ++ [x])[A.length + 1]? = some x := by
  induction A with
  | nil => simp
  | cons a A ih => simpa using ih

theorem set2_snoc {α : Type} (A : List α) (y x z1 z2 : α) :
    (((A ++ [y]) ++ [x]).set A.length z1).set (A.length + 1) z2 =
      (A ++ [z1]) ++ [z2] := by
  induction A with
  | nil => simp
  | cons a A ih => simpa using ih

theorem setErase_snoc {α : Type} (A : List α) (y x z1 : α) :
    (((A ++ [y]) ++ [x]).set A.length z1).eraseIdx (A.length + 1) = A ++ [z1] := by
  induction A with
  | nil => simp
  | cons a A ih => simpa using ih

theorem getElem?_mid2_right {α : Type} (A B : List α) (y1 y2 x : α) :
    ((A ++ y1 :: y2 :: B) ++ [x])[A.length + 1]? = some y2 := by
  induction A with
  | nil => simp
  | cons a A ih => simpa using ih

theorem set2_mid2 {α : Type} (A B : List α) (y1 y2 x z1 z2 : α) :
    (((A ++ y1 :: y2 :: B) ++ [x]).set A.length z1).set (A.length + 1) z2 =
      (A ++ z1 :: z2 :: B) ++ [x] := by
  induction A with
  | nil => simp
  | cons a A ih => simpa using ih

theorem setErase_mid2 {α : Type} (A B : List α) (y1 y2 x z1 : α) :
    (((A ++ y1 :: y2 :: B) ++ [x]).set A.length z1).eraseIdx (A.length + 1) =
      (A ++ z1 :: B) ++ [x] := by
  induction A with
  | nil => simp
  | cons a A ih => simpa using ih

/-- Reassembling the parent after `Balance` on its two last children
(the rebalanced pair straddles the chain and the last child). -/
theorem rebalance_snoc {lbL lbI L I : Nat} (hlbL1 : 1 ≤ lbL) (hlbI1 : 2 ≤ lbI)
    {h' : Nat} {lo hi m2 : Option Int} {W : List (BNode × Int)}
    {lcn rcn lc' rc' : BNode} {bk klast b' : Int} {merged : Bool}
    (hlen : W.length + 2 ≤ I)
    (hchW : ChainT lbL lbI L I lo h' W m2)
    (hlobk : OptLt m2 bk)
    (hbkx : ∀ x, hi = some x → bk < x)
    (hpin : ∀ x, hi = some x → klast = x)
    (hbal : BalOutcome lbL lbI L I m2 hi h' lcn rcn klast (merged, lc', rc', b')) :
    if merged = true then
      GoodT lbL lbI L I lo hi (h' + 1) (.internal (W ++ [(lc', klast)])) ∧
        toList (.internal (W ++ [(lc', klast)])) =
          pairsToList W ++ (toList lcn ++ toList rcn)
    else
      GoodT lbL lbI L I lo hi (h' + 1)
          (.internal ((W ++ [(lc', b')]) ++ [(rc', klast)])) ∧
        toList (.internal ((W ++ [(lc', b')]) ++ [(rc', klast)])) =
          pairsToList W ++ (toList lcn ++ toList rcn) := by
  cases merged with
  | true =>
    obtain ⟨hgm, hlowm, hcachem, htl⟩ := hbal
    simp only [if_pos rfl]
    constructor
    · refine GoodT.internal ?_ hchW hgm hlowm hcachem hpin ?_
      · simp only [List.length_append, List.length_singleton]
        omega
      · intro x hx
        have h1 := hbkx x hx
        cases m2 with
        | none => trivial
        | some a => simp only [OptLt] at hlobk ⊢; omega
    · rw [toList_internal, pairsToList_append_single, htl]
  | false =>
    obtain ⟨hgl', hgr', hlowl', hlowr', hcachel', hcacher', hlob', htl⟩ := hbal
    simp only [Bool.false_eq_true, if_false]
    constructor
    · refine GoodT.internal ?_
        (chainT_append hchW (.cons hgl' hlowl' hcachel' hlob' .nil)) hgr' hlowr'
        hcacher' hpin ?_
      · simp only [List.length_append, List.length_singleton]
        omega
      · intro x hx
        have hne : toList rc' ≠ [] := goodT_toList_ne hlbL1 hlbI1 hgr' hlowr'
        have := good_lo_lt_hi (hx ▸ hgr') hne
        simpa [OptLt] using this
    · rw [toList_internal, pairsToList_append_single, pairsToList_append_single,
        List.append_assoc, htl]

/-- Reassembling the parent after `Balance` on two adjacent interior children. -/
theorem rebalance_mid2 {lbL lbI L I : Nat} (hlbL1 : 1 ≤ lbL) (hlbI1 : 2 ≤ lbI)
    {h' : Nat} {lo hi m2 m : Option Int} {A B : List (BNode × Int)}
    {lcn rcn lc' rc' clast : BNode} {bk krk klast b' : Int} {merged : Bool}
    (hlen : A.length + B.length + 3 ≤ I)
    (hchA : ChainT lbL lbI L I lo h' A m2)
    (hlobk : OptLt m2 bk)
    (hbkk : bk < krk)
    (hchB : ChainT lbL lbI L I (some krk) h' B m)
    (hclast : GoodT lbL lbI L I m hi h' clast)
    (hlowlast : LowOK lbL lbI clast)
    (hcachelast : CachedIs clast klast)
    (hpin : ∀ x, hi = some x → klast = x)
    (hmx : ∀ x, hi = some x → OptLt m x)
    (hbal : BalOutcome lbL lbI L I m2 (some krk) h' lcn rcn krk (merged, lc', rc', b')) :
    if merged = true then
      GoodT lbL lbI L I lo hi (h' + 1)
          (.internal ((A ++ (lc', krk) :: B) ++ [(clast, klast)])) ∧
        toList (.internal ((A ++ (lc', krk) :: B) ++ [(clast, klast)])) =
          pairsToList A ++ ((toList lcn ++ toList rcn) ++
            (pairsToList B ++ toList clast))
    else
      GoodT lbL lbI L I lo hi (h' + 1)
          (.internal ((A ++ (lc', b') :: (rc', krk) :: B) ++ [(clast, klast)])) ∧
        toList (.internal ((A ++ (lc', b') :: (rc', krk) :: B) ++ [(clast, klast)])) =
          pairsToList A ++ ((toList lcn ++ toList rcn) ++
            (pairsToList B ++ toList clast)) := by
  cases merged with
  | true =>
    obtain ⟨hgm, hlowm, hcachem, htl⟩ := hbal
    simp only [if_pos rfl]
    constructor
    · refine GoodT.internal ?_
        (chainT_append hchA (.cons hgm hlowm hcachem ?_ hchB)) hclast hlowlast
        hcachelast hpin hmx
      · simp only [List.length_append, List.length_cons, List.length_singleton,
          List.length_nil]
        omega
      · cases m2 with
        | none => trivial
        | some a => simp only [OptLt] at hlobk ⊢; omega
    · rw [toList_internal, pairsToList_append_single, pairsToList_append]
      simp only [pairsToList, List.append_assoc]
      rw [htl]
      simp [List.append_assoc]
  | false =>
    obtain ⟨hgl', hgr', hlowl', hlowr', hcachel', hcacher', hlob', htl⟩ := hbal
    simp only [Bool.false_eq_true, if_false]
    have hbrk : OptLt (some b') krk := by
      have hne : toList rc' ≠ [] := goodT_toList_ne hlbL1 hlbI1 hgr' hlowr'
      simpa [OptLt] using good_lo_lt_hi hgr' hne
    constructor
    · refine GoodT.internal ?_
        (chainT_append hchA (.cons hgl' hlowl' hcachel' hlob'
          (.cons hgr' hlowr' hcacher' hbrk hchB))) hclast hlowlast
        hcachelast hpin hmx
      simp only [List.length_append, List.length_cons, List.length_singleton,
          List.length_nil]
      omega
    · rw [toList_internal, pairsToList_append_single, pairsToList_append]
      simp only [pairsToList, List.append_assoc]
      rw [← List.append_assoc (toList lc'), htl]
      simp [List.append_assoc]

theorem lowOK_iff {lbL lbI : Nat} {n : BNode} :
    LowOK lbL lbI n ↔ lowBound lbL lbI n ≤ nodeSize n := by
  cases n <;> simp [LowOK, lowBound, nodeSize]

/-- Nodes of equal height have the same class, hence the same bounds. -/
theorem goodT_same_class {lbL lbI L I : Nat} {h : Nat} {lo1 hi1 lo2 hi2 : Option Int}
    {t1 t2 : BNode} (h1 : GoodT lbL lbI L I lo1 hi1 h t1)
    (h2 : GoodT lbL lbI L I lo2 hi2 h t2) :
    lowBound lbL lbI t1 = lowBound lbL lbI t2 ∧ ufBound L I t1 = ufBound L I t2 := by
  cases t1 with
  | leaf kvs1 =>
    cases t2 with
    | leaf kvs2 => exact ⟨rfl, rfl⟩
    | internal cs2 =>
      obtain ⟨hh0, -, -, -⟩ := goodT_leaf_inv h1
      obtain ⟨h2x, -, -, -, -, hh2, -⟩ := goodT_internal_inv h2
      omega
  | internal cs1 =>
    cases t2 with
    | internal cs2 => exact ⟨rfl, rfl⟩
    | leaf kvs2 =>
      obtain ⟨hh0, -, -, -⟩ := goodT_leaf_inv h2
      obtain ⟨h2x, -, -, -, -, hh2, -⟩ := goodT_internal_inv h1
      omega

theorem not_mem_keys_of_lt {k : Int} {X : List Entry}
    (h : ∀ e ∈ X, e.1 < k) : k ∉ X.map Prod.fst := by
  intro hm
  obtain ⟨e, he, hek⟩ := List.mem_map.mp hm
  have := h e he
  omega

theorem not_mem_keys_of_gt {k : Int} {X : List Entry}
    (h : ∀ e ∈ X, k < e.1) : k ∉ X.map Prod.fst := by
  intro hm
  obtain ⟨e, he, hek⟩ := List.mem_map.mp hm
  have := h e he
  omega

theorem listErase_middle {k : Int} {Ae Be Ce : List Entry}
    (hA : ∀ e ∈ Ae, e.1 < k) (hC : ∀ e ∈ Ce, k < e.1) :
    listErase k (Ae ++ (Be ++ Ce)) = Ae ++ (listErase k Be ++ Ce) := by
  rw [listErase_append_left (fun e he => (hA e he).ne),
    listErase_append_right (fun e he => (hC e he).ne.symm)]

/-! ## The delete preservation/refinement theorem -/

theorem nodeDelete_spec {lbL lbI L I : Nat}
    (hL : 2 ≤ L) (hI : 3 ≤ I) (hlbL1 : 1 ≤ lbL) (hlbI1 : 2 ≤ lbI)
    (hlbL2 : lbL ≤ UNDERFLOW_BOUND L) (hlbIB : lbI ≤ UNDERFLOW_BOUND I)
    {k : Int} :
    ∀ {h : Nat} {lo hi : Option Int} {t : BNode},
      GoodT lbL lbI L I lo hi h t → OptLt lo k → OptLe k hi →
      (∀ cs0, t = .internal cs0 → 2 ≤ cs0.length) →
      DelOutcome lbL lbI L I lo hi h t k (nodeDelete L I k t) := by
  intro h
  induction h using Nat.strong_induction_on with
  | _ h ih =>
    intro lo hi t hg hlok hkhi hsz2
    cases t with
    | leaf kvs =>
      obtain ⟨hh0, hs, hbnd, hlenL⟩ := goodT_leaf_inv hg
      subst hh0
      by_cases hf : keyFound k kvs = true
      · have hnd : nodeDelete L I k (.leaf kvs) =
            (true, decide ((listErase k kvs).length < UNDERFLOW_BOUND L),
              .leaf (listErase k kvs)) := by
          simp only [nodeDelete, leafDelete, if_pos hf]
          rw [eraseIdx_eq_listErase k kvs hf]
        rw [hnd]
        have hsub := listErase_sublist k kvs
        have hlenE := listErase_length_found hf
        refine ⟨?_, rfl, ?_, ?_, fun kk _ => trivial, ?_, ?_, ?_, ?_⟩
        · refine GoodT.leaf (listErase_sorted hs) ?_ ?_
          · intro e he
            exact hbnd e (hsub.subset he)
          · have := hsub.length_le
            omega
        · exact ⟨fun _ => keyFound_mem hf, fun _ => rfl⟩
        · intro hcon
          cases hcon
        · simp only [nodeSize]
          omega
        · simp only [nodeSize]
          have := hsub.length_le
          omega
        · intro hdec
          refine ⟨rfl, ?_⟩
          simp only [nodeSize, ufBound]
          exact of_decide_eq_true hdec
        · intro hdec hl
          have h9 := of_decide_eq_false hdec
          simp only [LowOK] at hl ⊢
          omega
      · have hf' : keyFound k kvs = false := by simpa using hf
        have hnm : k ∉ kvs.map Prod.fst := fun hm => hf (keyFound_of_mem hs hm)
        have hnd : nodeDelete L I k (.leaf kvs) = (false, false, .leaf kvs) := by
          simp only [nodeDelete, leafDelete, hf', Bool.false_eq_true, if_false]
        rw [hnd]
        refine ⟨hg, ?_, ?_, fun _ => ⟨rfl, rfl⟩, fun kk hck => hck, Nat.le_succ _,
          le_refl _, ?_, fun _ hl => hl⟩
        · exact (listErase_of_not_mem hnm).symm
        · constructor
          · intro hcon
            cases hcon
          · intro hm
            exact absurd hm hnm
        · intro hcon
          cases hcon
    | internal cs =>
      obtain ⟨h', ps, c, klast, m, rfl, rfl, hlen, hch, hc, hlowc, hcachec, hpin, hmx⟩ :=
        goodT_internal_inv hg
      have hsz2n : 2 ≤ (ps ++ [(c, klast)]).length := hsz2 _ rfl
      have hti : searchChildIndex k (ps ++ [(c, klast)]) =
          ((ps.map Prod.snd).takeWhile (fun x => decide (x < k))).length := by
        simp [searchChildIndex, routingKeys_append_single]
      rw [show nodeDelete L I k (.internal (ps ++ [(c, klast)])) =
          internalDelete L I k (ps ++ [(c, klast)]) from by simp [nodeDelete]]
      rw [internalDelete.eq_def]
      simp only []
      rcases chain_focus hch hlok with ⟨hlenfoc, hmk⟩ |
        ⟨A, c2, k2, B, la, rfl, hA, hchA, hg2, hlow2, hcache2, hlak2, hlak, hkk2, hchB⟩
      · -- the target child is the last one
        have htival : searchChildIndex k (ps ++ [(c, klast)]) = ps.length := by
          rw [hti, hlenfoc]
        have hget : (ps ++ [(c, klast)])[searchChildIndex k (ps ++ [(c, klast)])]? =
            some (c, klast) := by
          rw [htival]
          exact getElem?_append_cons ps [] (c, klast)
        have hsz2c : ∀ cs0, c = .internal cs0 → 2 ≤ cs0.length := by
          intro cs0 he
          rw [he] at hlowc
          simp only [LowOK] at hlowc
          omega
        have ihc := ih h' (Nat.lt_succ_self h') hc hmk hkhi hsz2c
        have hleft_lt : ∀ e ∈ pairsToList ps, e.1 < k := chainT_entries_lt hch hmk
        have htL : toList (.internal (ps ++ [(c, klast)])) =
            pairsToList ps ++ toList c := by
          rw [toList_internal, pairsToList_append_single]
        have hmemiff : (k ∈ (toList (.internal (ps ++ [(c, klast)]))).map
            Prod.fst) ↔ k ∈ (toList c).map Prod.fst := by
          rw [htL]
          simp only [List.map_append, List.mem_append]
          have h1 := not_mem_keys_of_lt hleft_lt
          tauto
        have herase : listErase k (toList (.internal (ps ++ [(c, klast)]))) =
            pairsToList ps ++ listErase k (toList c) := by
          rw [htL, listErase_append_left (fun e he => (hleft_lt e he).ne)]
        split
        · rename_i heq
          rw [heq] at hget
          cases hget
        · rename_i c0 ck0 heq
          rw [hget] at heq
          injection heq with heq2
          cases heq2
          rcases hres : nodeDelete L I k c with ⟨fc, ufc, c'⟩
          rw [hres] at ihc
          obtain ⟨hgc', htlc, hfmem, hnf, hcpres, hsz1, hszu, hufT, hufF⟩ := ihc
          split
          · -- key absent in the child, or no underflow
            rename_i hcond
            rw [htival, set_append_cons ps [] (c, klast) (c', klast)]
            have hlowc' : LowOK lbL lbI c' := by
              rcases hcond with hcond | hcond
              · have h0 := hnf (by simpa using hcond)
                rw [h0.1]
                exact hlowc
              · exact hufF (by simpa using hcond) hlowc
            refine ⟨?_, ?_, ?_, ?_, ?_, ?_, ?_, ?_, ?_⟩
            · exact GoodT.internal (by simpa using hlen) hch hgc' hlowc'
                (hcpres klast hcachec) hpin hmx
            · rw [toList_internal, pairsToList_append_single, htlc, herase]
            · rw [hmemiff]
              exact hfmem
            · intro hfc0
              obtain ⟨hc0, hu0⟩ := hnf hfc0
              rw [hc0]
              exact ⟨rfl, hu0⟩
            · intro kk hck
              simp only [CachedIs, nodeRightmostKey_append] at hck ⊢
              exact hck
            · simp only [nodeSize, List.length_append, List.length_singleton, List.length_nil]
              omega
            · simp only [nodeSize, List.length_append, List.length_singleton, List.length_nil]
              omega
            · intro hufc
              exfalso
              rcases hcond with hcond | hcond
              · have h0 := hnf (by simpa using hcond)
                rw [h0.2] at hufc
                cases hufc
              · rw [hufc] at hcond
                exact hcond (by simp)
            · intro _ hl
              simp only [LowOK, List.length_append, List.length_singleton, List.length_nil] at hl ⊢
              omega
          · -- found and the child underflowed: rebalance with the left sibling
            rename_i hcond
            push_neg at hcond
            obtain ⟨hfc, hufc⟩ := hcond
            have hfc' : fc = true := hfc
            have hufc' : ufc = true := hufc
            rw [htival, set_append_cons ps [] (c, klast) (c', klast)]
            rw [if_neg (show ¬(ps ++ [(c', klast)]).length ≤ 1 from by
              simp only [List.length_append, List.length_singleton, List.length_nil] at hsz2n ⊢
              omega)]
            have hps1 : 1 ≤ ps.length := by
              simp only [List.length_append, List.length_singleton, List.length_nil] at hsz2n
              omega
            rw [if_pos hps1]
            have hpsne : ps ≠ [] := by
              intro hcon
              rw [hcon] at hps1
              simp at hps1
            obtain ⟨ps', qs, rfl⟩ : ∃ ps' qs, ps = ps' ++ [qs] :=
              ⟨ps.dropLast, ps.getLast hpsne, (List.dropLast_append_getLast hpsne).symm⟩
            cases qs with | mk cs_ ks_ =>
            have hli : (ps' ++ [(cs_, ks_)]).length - 1 = ps'.length := by simp
            rw [hli]
            have hgli : ((ps' ++ [(cs_, ks_)]) ++ [(c', klast)])[ps'.length]? =
                some (cs_, ks_) :=
              getElem?_mid_append ps' [] (cs_, ks_) (c', klast)
            have hgli1 : ((ps' ++ [(cs_, ks_)]) ++ [(c', klast)])[ps'.length + 1]? =
                some (c', klast) :=
              getElem?_snoc2_right ps' (cs_, ks_) (c', klast)
            rw [hgli, hgli1]
            simp only [Option.map_some', Option.getD_some]
            obtain ⟨mid2, hchps', hchq⟩ := chainT_append_inv hch
            obtain ⟨hgs, hlows, hcaches, hloks, hnilq⟩ := chainT_cons_inv hchq
            have hm2 : m = some ks_ := chainT_nil_inv hnilq
            subst hm2
            obtain ⟨merged, lc', rc', b', hb⟩ :
                ∃ mg l2 r2 b2, nodeBalance L I cs_ c' ks_ = (mg, l2, r2, b2) :=
              ⟨_, _, _, _, rfl⟩
            simp only [hb]
            have hbkhi2 : ∀ x, hi = some x → ks_ < x := by
              intro x hx
              have := hmx x hx
              simpa [OptLt] using this
            have hbal : BalOutcome lbL lbI L I mid2 hi h' cs_ c' klast
                (merged, lc', rc', b') := by
              rw [← hb]
              refine nodeBalance_spec hL hI hlbL1 hlbI1 hlbL2 hlbIB hgs hgc'
                (hcpres klast hcachec) hloks hbkhi2 ?_ ?_ (Or.inl hlows) ?_
              · have h0 := lowOK_iff.mp hlows
                omega
              · have h1 := lowOK_iff.mp hlowc
                have h2 := (goodT_same_class hc hgc').1
                omega
              · exact Or.inr (hufT hufc').2
            have hlen2 : ps'.length + 2 ≤ I := by
              simp only [List.length_append, List.length_singleton, List.length_nil] at hlen
              omega
            have hsn := rebalance_snoc hlbL1 hlbI1 hlen2 hchps' hloks hbkhi2 hpin hbal
            split
            · -- borrow
              rename_i hmb
              have hmf : merged = false := by simpa using hmb
              subst hmf
              simp only [Bool.false_eq_true, if_false] at hsn
              obtain ⟨hgood, htl2⟩ := hsn
              rw [set2_snoc ps' (cs_, ks_) (c', klast) (lc', b') (rc', klast)]
              refine ⟨hgood, ?_, ?_, ?_, ?_, ?_, ?_, ?_, ?_⟩
              · rw [htl2, herase, pairsToList_append_single, ← htlc,
                  List.append_assoc]
              · rw [hmemiff]
                exact ⟨fun _ => hfmem.mp hfc', fun _ => rfl⟩
              · intro hcon
                cases hcon
              · intro kk hck
                simp only [CachedIs, nodeRightmostKey_append] at hck ⊢
                exact hck
              · simp only [nodeSize, List.length_append, List.length_singleton, List.length_nil]
                omega
              · simp only [nodeSize, List.length_append, List.length_singleton, List.length_nil]
                omega
              · intro hcon
                cases hcon
              · intro _ hl
                simp only [LowOK, List.length_append, List.length_singleton, List.length_nil] at hl ⊢
                omega
            · -- merge
              rename_i hmb
              have hmt : merged = true := by simpa using hmb
              subst hmt
              simp only [if_pos rfl] at hsn
              obtain ⟨hgood, htl2⟩ := hsn
              rw [setErase_snoc ps' (cs_, ks_) (c', klast) (lc', klast)]
              refine ⟨hgood, ?_, ?_, ?_, ?_, ?_, ?_, ?_, ?_⟩
              · rw [htl2, herase, pairsToList_append_single, ← htlc,
                  List.append_assoc]
              · rw [hmemiff]
                exact ⟨fun _ => hfmem.mp hfc', fun _ => rfl⟩
              · intro hcon
                cases hcon
              · intro kk hck
                simp only [CachedIs, nodeRightmostKey_append] at hck ⊢
                exact hck
              · simp only [nodeSize, List.length_append, List.length_singleton, List.length_nil]
                omega
              · simp only [nodeSize, List.length_append, List.length_singleton, List.length_nil]
                omega
              · intro hdec
                refine ⟨rfl, ?_⟩
                simp only [nodeSize, ufBound]
                exact of_decide_eq_true hdec
              · intro hdec hl
                have h9 := of_decide_eq_false hdec
                simp only [LowOK, List.length_append, List.length_singleton, List.length_nil] at hl ⊢
                simp only [List.length_append, List.length_singleton, List.length_nil] at h9
                omega
      · -- the target child is inside the chain
        have htival : searchChildIndex k ((A ++ (c2, k2) :: B) ++ [(c, klast)]) =
            A.length := by rw [hti, ← hA]
        have hget : ((A ++ (c2, k2) :: B) ++ [(c, klast)])[searchChildIndex k
            ((A ++ (c2, k2) :: B) ++ [(c, klast)])]? = some (c2, k2) := by
          rw [htival]
          exact getElem?_mid_append A B (c2, k2) (c, klast)
        have hsz2c : ∀ cs0, c2 = .internal cs0 → 2 ≤ cs0.length := by
          intro cs0 he
          rw [he] at hlow2
          simp only [LowOK] at hlow2
          omega
        have ihc := ih h' (Nat.lt_succ_self h') hg2 hlak (by simpa [OptLe] using hkk2)
          hsz2c
        have hleft_lt : ∀ e ∈ pairsToList A, e.1 < k := chainT_entries_lt hchA hlak
        have hmge : ∃ mm, m = some mm ∧ k2 ≤ mm := chainT_end_ge hchB
        have hright_gt : ∀ e ∈ pairsToList B ++ toList c, k < e.1 := by
          intro e he
          rcases List.mem_append.mp he with he | he
          · have := chainT_entries_gt hchB e he
            omega
          · obtain ⟨mm, hmm, hge⟩ := hmge
            obtain ⟨-, hbnd⟩ := goodT_entries hc
            have := (hbnd e he).1
            rw [hmm] at this
            simp only [OptLt] at this
            omega
        have hsrcList : pairsToList ((A ++ (c2, k2) :: B) ++ [(c, klast)]) =
            pairsToList A ++ (toList c2 ++ (pairsToList B ++ toList c)) := by
          rw [pairsToList_append_single, pairsToList_append]
          simp [pairsToList, List.append_assoc]
        have hmemiff : (k ∈ (toList (.internal ((A ++ (c2, k2) :: B) ++
            [(c, klast)]))).map Prod.fst) ↔ k ∈ (toList c2).map Prod.fst := by
          rw [toList_internal, hsrcList]
          simp only [List.map_append, List.mem_append]
          have h1 := not_mem_keys_of_lt hleft_lt
          have h2 := not_mem_keys_of_gt hright_gt
          simp only [List.map_append, List.mem_append] at h2
          tauto
        have herase : listErase k (toList (.internal ((A ++ (c2, k2) :: B) ++
            [(c, klast)]))) = pairsToList A ++
            (listErase k (toList c2) ++ (pairsToList B ++ toList c)) := by
          rw [toList_internal, hsrcList]
          exact listErase_middle hleft_lt hright_gt
        split
        · rename_i heq
          rw [heq] at hget
          cases hget
        · rename_i c0 ck0 heq
          rw [hget] at heq
          injection heq with heq2
          cases heq2
          rcases hres : nodeDelete L I k c2 with ⟨fc, ufc, c2'⟩
          rw [hres] at ihc
          obtain ⟨hgc', htlc, hfmem, hnf, hcpres, hsz1, hszu, hufT, hufF⟩ := ihc
          split
          · -- key absent in the child, or no underflow
            rename_i hcond
            rw [htival, set_mid_append A B (c2, k2) (c, klast) (c2', k2)]
            have hlowc2' : LowOK lbL lbI c2' := by
              rcases hcond with hcond | hcond
              · have h0 := hnf (by simpa using hcond)
                rw [h0.1]
                exact hlow2
              · exact hufF (by simpa using hcond) hlow2
            refine ⟨?_, ?_, ?_, ?_, ?_, ?_, ?_, ?_, ?_⟩
            · refine GoodT.internal ?_
                (chainT_append hchA (.cons hgc' hlowc2' (hcpres k2 hcache2) hlak2
                  hchB)) hc hlowc hcachec hpin hmx
              simp only [List.length_append, List.length_cons,
                List.length_singleton, List.length_nil] at hlen ⊢
              omega
            · rw [toList_internal, herase,
                show pairsToList ((A ++ (c2', k2) :: B) ++ [(c, klast)]) =
                  pairsToList A ++ (toList c2' ++ (pairsToList B ++ toList c)) from by
                  rw [pairsToList_append_single, pairsToList_append]
                  simp [pairsToList, List.append_assoc], htlc]
            · rw [hmemiff]
              exact hfmem
            · intro hfc0
              obtain ⟨hc0, hu0⟩ := hnf hfc0
              rw [hc0]
              exact ⟨rfl, hu0⟩
            · intro kk hck
              simp only [CachedIs, nodeRightmostKey_append] at hck ⊢
              exact hck
            · simp only [nodeSize, List.length_append, List.length_cons,
                List.length_singleton, List.length_nil]
              omega
            · simp only [nodeSize, List.length_append, List.length_cons,
                List.length_singleton, List.length_nil]
              omega
            · intro hufc
              exfalso
              rcases hcond with hcond | hcond
              · have h0 := hnf (by simpa using hcond)
                rw [h0.2] at hufc
                cases hufc
              · rw [hufc] at hcond
                exact hcond (by simp)
            · intro _ hl
              simp only [LowOK, List.length_append, List.length_cons,
                List.length_singleton, List.length_nil] at hl ⊢
              omega
          · -- found and the child underflowed: rebalance
            rename_i hcond
            push_neg at hcond
            obtain ⟨hfc, hufc⟩ := hcond
            have hfc' : fc = true := hfc
            have hufc' : ufc = true := hufc
            rw [htival, set_mid_append A B (c2, k2) (c, klast) (c2', k2)]
            rw [if_neg (show ¬((A ++ (c2', k2) :: B) ++ [(c, klast)]).length ≤ 1 from by
              simp only [List.length_append, List.length_cons, List.length_singleton, List.length_nil]
              omega)]
            by_cases hAnil : A = []
            · subst hAnil
              rw [if_neg (show ¬(1 ≤ ([] : List (BNode × Int)).length) from by simp)]
              have hla : lo = la := (chainT_nil_inv hchA).symm
              subst hla
              cases B with
              | nil =>
                -- the right neighbour is the last child
                have hm2 : m = some k2 := chainT_nil_inv hchB
                subst hm2
                have hgli : (([] ++ (c2', k2) :: []) ++
                    [(c, klast)])[List.length ([] : List (BNode × Int))]? =
                    some (c2', k2) :=
                  getElem?_mid_append [] [] (c2', k2) (c, klast)
                have hgli1 : (([] ++ [(c2', k2)]) ++
                    [(c, klast)])[List.length ([] : List (BNode × Int)) + 1]? =
                    some (c, klast) :=
                  getElem?_snoc2_right [] (c2', k2) (c, klast)
                rw [hgli, hgli1]
                simp only [Option.map_some', Option.getD_some]
                obtain ⟨merged, lc', rc', b', hb⟩ :
                    ∃ mg l2 r2 b2, nodeBalance L I c2' c k2 = (mg, l2, r2, b2) :=
                  ⟨_, _, _, _, rfl⟩
                simp only [hb]
                have hbkhi2 : ∀ x, hi = some x → k2 < x := by
                  intro x hx
                  have := hmx x hx
                  simpa [OptLt] using this
                have hbal : BalOutcome lbL lbI L I lo hi h' c2' c klast
                    (merged, lc', rc', b') := by
                  rw [← hb]
                  refine nodeBalance_spec hL hI hlbL1 hlbI1 hlbL2 hlbIB hgc' hc
                    hcachec hlak2 hbkhi2 ?_ ?_ (Or.inr hlowc) ?_
                  · have h1 := lowOK_iff.mp hlow2
                    have h2 := (goodT_same_class hg2 hgc').1
                    omega
                  · have h0 := lowOK_iff.mp hlowc
                    omega
                  · exact Or.inl (hufT hufc').2
                have hlen2 : List.length ([] : List (BNode × Int)) + 2 ≤ I := by
                  simp
                  omega
                have hsn := rebalance_snoc hlbL1 hlbI1 hlen2 .nil hlak2 hbkhi2 hpin
                  hbal
                split
                · -- borrow
                  rename_i hmb
                  have hmf : merged = false := by simpa using hmb
                  subst hmf
                  simp only [Bool.false_eq_true, if_false] at hsn
                  obtain ⟨hgood, htl2⟩ := hsn
                  rw [set2_snoc [] (c2', k2) (c, klast) (lc', b') (rc', klast)]
                  refine ⟨hgood, ?_, ?_, ?_, ?_, ?_, ?_, ?_, ?_⟩
                  · rw [htl2, herase, ← htlc]
                    simp [pairsToList]
                  · rw [hmemiff]
                    exact ⟨fun _ => hfmem.mp hfc', fun _ => rfl⟩
                  · intro hcon
                    cases hcon
                  · intro kk hck
                    simp only [CachedIs, nodeRightmostKey_append] at hck ⊢
                    exact hck
                  · simp only [nodeSize, List.length_append, List.length_cons,
                      List.length_singleton, List.length_nil]
                    omega
                  · simp only [nodeSize, List.length_append, List.length_cons,
                      List.length_singleton, List.length_nil]
                    omega
                  · intro hcon
                    cases hcon
                  · intro _ hl
                    simp only [LowOK, List.length_append, List.length_cons,
                      List.length_singleton, List.length_nil] at hl ⊢
                    omega
                · -- merge
                  rename_i hmb
                  have hmt : merged = true := by simpa using hmb
                  subst hmt
                  simp only [if_pos rfl] at hsn
                  obtain ⟨hgood, htl2⟩ := hsn
                  rw [setErase_snoc [] (c2', k2) (c, klast) (lc', klast)]
                  refine ⟨hgood, ?_, ?_, ?_, ?_, ?_, ?_, ?_, ?_⟩
                  · rw [htl2, herase, ← htlc]
                    simp [pairsToList]
                  · rw [hmemiff]
                    exact ⟨fun _ => hfmem.mp hfc', fun _ => rfl⟩
                  · intro hcon
                    cases hcon
                  · intro kk hck
                    simp only [CachedIs, nodeRightmostKey_append] at hck ⊢
                    exact hck
                  · simp only [nodeSize, List.length_append, List.length_cons,
                      List.length_singleton, List.length_nil]
                    omega
                  · simp only [nodeSize, List.length_append, List.length_cons,
                      List.length_singleton, List.length_nil]
                    omega
                  · intro hdec
                    refine ⟨rfl, ?_⟩
                    simp only [nodeSize, ufBound]
                    exact of_decide_eq_true hdec
                  · intro hdec hl
                    have h9 := of_decide_eq_false hdec
                    simp only [LowOK, List.length_append, List.length_cons,
                      List.length_singleton, List.length_nil] at hl ⊢
                    simp only [List.length_append, List.length_cons,
                      List.length_singleton, List.length_nil] at h9
                    omega
              | cons p2 B' =>
                cases p2 with | mk cs2_ ks2_ =>
                obtain ⟨hgs2, hlows2, hcaches2, hloks2, hchB'⟩ := chainT_cons_inv hchB
                have hgli : (([] ++ (c2', k2) :: (cs2_, ks2_) :: B') ++
                    [(c, klast)])[List.length ([] : List (BNode × Int))]? =
                    some (c2', k2) :=
                  getElem?_mid_append [] ((cs2_, ks2_) :: B') (c2', k2) (c, klast)
                have hgli1 : (([] ++ (c2', k2) :: (cs2_, ks2_) :: B') ++
                    [(c, klast)])[List.length ([] : List (BNode × Int)) + 1]? =
                    some (cs2_, ks2_) :=
                  getElem?_mid2_right [] B' (c2', k2) (cs2_, ks2_) (c, klast)
                rw [hgli, hgli1]
                simp only [Option.map_some', Option.getD_some]
                obtain ⟨merged, lc', rc', b', hb⟩ :
                    ∃ mg l2 r2 b2, nodeBalance L I c2' cs2_ k2 = (mg, l2, r2, b2) :=
                  ⟨_, _, _, _, rfl⟩
                simp only [hb]
                have hk2ks2 : k2 < ks2_ := by simpa [OptLt] using hloks2
                have hbal : BalOutcome lbL lbI L I lo (some ks2_) h' c2' cs2_ ks2_
                    (merged, lc', rc', b') := by
                  rw [← hb]
                  refine nodeBalance_spec hL hI hlbL1 hlbI1 hlbL2 hlbIB hgc' hgs2
                    hcaches2 hlak2 (fun x hx => by
                      have := Option.some.inj hx
                      subst this
                      exact hk2ks2) ?_ ?_ (Or.inr hlows2) ?_
                  · have h1 := lowOK_iff.mp hlow2
                    have h2 := (goodT_same_class hg2 hgc').1
                    omega
                  · have h0 := lowOK_iff.mp hlows2
                    omega
                  · exact Or.inl (hufT hufc').2
                have hlen2 : List.length ([] : List (BNode × Int)) + B'.length + 3
                    ≤ I := by
                  simp only [List.length_nil, List.nil_append, List.length_append,
                    List.length_cons, List.length_singleton] at hlen ⊢
                  omega
                have hsn := rebalance_mid2 hlbL1 hlbI1 hlen2 .nil hlak2 hk2ks2 hchB'
                  hc hlowc hcachec hpin hmx hbal
                split
                · -- borrow
                  rename_i hmb
                  have hmf : merged = false := by simpa using hmb
                  subst hmf
                  simp only [Bool.false_eq_true, if_false] at hsn
                  obtain ⟨hgood, htl2⟩ := hsn
                  rw [set2_mid2 [] B' (c2', k2) (cs2_, ks2_) (c, klast) (lc', b')
                    (rc', ks2_)]
                  refine ⟨hgood, ?_, ?_, ?_, ?_, ?_, ?_, ?_, ?_⟩
                  · rw [htl2, herase, ← htlc]
                    simp [pairsToList, List.append_assoc]
                  · rw [hmemiff]
                    exact ⟨fun _ => hfmem.mp hfc', fun _ => rfl⟩
                  · intro hcon
                    cases hcon
                  · intro kk hck
                    simp only [CachedIs, nodeRightmostKey_append] at hck ⊢
                    exact hck
                  · simp only [nodeSize, List.length_append, List.length_cons,
                      List.length_singleton, List.length_nil]
                    omega
                  · simp only [nodeSize, List.length_append, List.length_cons,
                      List.length_singleton, List.length_nil]
                    omega
                  · intro hcon
                    cases hcon
                  · intro _ hl
                    simp only [LowOK, List.length_append, List.length_cons,
                      List.length_singleton, List.length_nil] at hl ⊢
                    omega
                · -- merge
                  rename_i hmb
                  have hmt : merged = true := by simpa using hmb
                  subst hmt
                  simp only [if_pos rfl] at hsn
                  obtain ⟨hgood, htl2⟩ := hsn
                  rw [setErase_mid2 [] B' (c2', k2) (cs2_, ks2_) (c, klast)
                    (lc', ks2_)]
                  refine ⟨hgood, ?_, ?_, ?_, ?_, ?_, ?_, ?_, ?_⟩
                  · rw [htl2, herase, ← htlc]
                    simp [pairsToList, List.append_assoc]
                  · rw [hmemiff]
                    exact ⟨fun _ => hfmem.mp hfc', fun _ => rfl⟩
                  · intro hcon
                    cases hcon
                  · intro kk hck
                    simp only [CachedIs, nodeRightmostKey_append] at hck ⊢
                    exact hck
                  · simp only [nodeSize, List.length_append, List.length_cons,
                      List.length_singleton, List.length_nil]
                    omega
                  · simp only [nodeSize, List.length_append, List.length_cons,
                      List.length_singleton, List.length_nil]
                    omega
                  · intro hdec
                    refine ⟨rfl, ?_⟩
                    simp only [nodeSize, ufBound]
                    exact of_decide_eq_true hdec
                  · intro hdec hl
                    have h9 := of_decide_eq_false hdec
                    simp only [LowOK, List.length_append, List.length_cons,
                      List.length_singleton, List.length_nil] at hl ⊢
                    simp only [List.length_append, List.length_cons,
                      List.length_singleton, List.length_nil] at h9
                    omega
            · -- the target has a left sibling inside the chain
              obtain ⟨A', qs, rfl⟩ : ∃ A' qs, A = A' ++ [qs] :=
                ⟨A.dropLast, A.getLast hAnil, (List.dropLast_append_getLast hAnil).symm⟩
              cases qs with | mk cs_ ks_ =>
              rw [if_pos (show 1 ≤ (A' ++ [(cs_, ks_)]).length from by simp)]
              have hli : (A' ++ [(cs_, ks_)]).length - 1 = A'.length := by simp
              rw [hli]
              have hre : ((A' ++ [(cs_, ks_)]) ++ (c2', k2) :: B) ++ [(c, klast)] =
                  (A' ++ (cs_, ks_) :: (c2', k2) :: B) ++ [(c, klast)] := by
                simp
              rw [hre]
              have hgli : ((A' ++ (cs_, ks_) :: (c2', k2) :: B) ++
                  [(c, klast)])[A'.length]? = some (cs_, ks_) :=
                getElem?_mid_append A' ((c2', k2) :: B) (cs_, ks_) (c, klast)
              have hgli1 : ((A' ++ (cs_, ks_) :: (c2', k2) :: B) ++
                  [(c, klast)])[A'.length + 1]? = some (c2', k2) :=
                getElem?_mid2_right A' B (cs_, ks_) (c2', k2) (c, klast)
              rw [hgli, hgli1]
              simp only [Option.map_some', Option.getD_some]
              obtain ⟨mid2, hchA', hchq⟩ := chainT_append_inv hchA
              obtain ⟨hgs, hlows, hcaches, hloks, hnilq⟩ := chainT_cons_inv hchq
              have hla2 : la = some ks_ := chainT_nil_inv hnilq
              subst hla2
              obtain ⟨merged, lc', rc', b', hb⟩ :
                  ∃ mg l2 r2 b2, nodeBalance L I cs_ c2' ks_ = (mg, l2, r2, b2) :=
                ⟨_, _, _, _, rfl⟩
              simp only [hb]
              have hksk2 : ks_ < k2 := by simpa [OptLt] using hlak2
              have hbal : BalOutcome lbL lbI L I mid2 (some k2) h' cs_ c2' k2
                  (merged, lc', rc', b') := by
                rw [← hb]
                refine nodeBalance_spec hL hI hlbL1 hlbI1 hlbL2 hlbIB hgs hgc'
                  (hcpres k2 hcache2) hloks (fun x hx => by
                    have := Option.some.inj hx
                    subst this
                    exact hksk2) ?_ ?_ (Or.inl hlows) ?_
                · have h0 := lowOK_iff.mp hlows
                  omega
                · have h1 := lowOK_iff.mp hlow2
                  have h2 := (goodT_same_class hg2 hgc').1
                  omega
                · exact Or.inr (hufT hufc').2
              have hlen2 : A'.length + B.length + 3 ≤ I := by
                simp only [List.length_append, List.length_cons,
                  List.length_singleton, List.length_nil] at hlen ⊢
                omega
              have hsn := rebalance_mid2 hlbL1 hlbI1 hlen2 hchA' hloks hksk2 hchB
                hc hlowc hcachec hpin hmx hbal
              split
              · -- borrow
                rename_i hmb
                have hmf : merged = false := by simpa using hmb
                subst hmf
                simp only [Bool.false_eq_true, if_false] at hsn
                obtain ⟨hgood, htl2⟩ := hsn
                rw [set2_mid2 A' B (cs_, ks_) (c2', k2) (c, klast) (lc', b')
                  (rc', k2)]
                refine ⟨hgood, ?_, ?_, ?_, ?_, ?_, ?_, ?_, ?_⟩
                · rw [htl2, herase, ← htlc, pairsToList_append_single]
                  simp [List.append_assoc]
                · rw [hmemiff]
                  exact ⟨fun _ => hfmem.mp hfc', fun _ => rfl⟩
                · intro hcon
                  cases hcon
                · intro kk hck
                  simp only [CachedIs, nodeRightmostKey_append] at hck ⊢
                  exact hck
                · simp only [nodeSize, List.length_append, List.length_cons,
                    List.length_singleton, List.length_nil]
                  omega
                · simp only [nodeSize, List.length_append, List.length_cons,
                    List.length_singleton, List.length_nil]
                  omega
                · intro hcon
                  cases hcon
                · intro _ hl
                  simp only [LowOK, List.length_append, List.length_cons,
                    List.length_singleton, List.length_nil] at hl ⊢
                  omega
              · -- merge
                rename_i hmb
                have hmt : merged = true := by simpa using hmb
                subst hmt
                simp only [if_pos rfl] at hsn
                obtain ⟨hgood, htl2⟩ := hsn
                rw [setErase_mid2 A' B (cs_, ks_) (c2', k2) (c, klast) (lc', k2)]
                refine ⟨hgood, ?_, ?_, ?_, ?_, ?_, ?_, ?_, ?_⟩
                · rw [htl2, herase, ← htlc, pairsToList_append_single]
                  simp [List.append_assoc]
                · rw [hmemiff]
                  exact ⟨fun _ => hfmem.mp hfc', fun _ => rfl⟩
                · intro hcon
                  cases hcon
                · intro kk hck
                  simp only [CachedIs, nodeRightmostKey_append] at hck ⊢
                  exact hck
                · simp only [nodeSize, List.length_append, List.length_cons,
                    List.length_singleton, List.length_nil]
                  omega
                · simp only [nodeSize, List.length_append, List.length_cons,
                    List.length_singleton, List.length_nil]
                  omega
                · intro hdec
                  refine ⟨rfl, ?_⟩
                  simp only [nodeSize, ufBound]
                  exact of_decide_eq_true hdec
                · intro hdec hl
                  have h9 := of_decide_eq_false hdec
                  simp only [LowOK, List.length_append, List.length_cons,
                    List.length_singleton, List.length_nil] at hl ⊢
                  simp only [List.length_append, List.length_cons,
                    List.length_singleton, List.length_nil] at h9
                  omega

/-! ## Tree-level theorems -/

theorem goodRoot_goodT {lbL lbI L I : Nat} {t : BNode}
    (hgr : GoodRoot lbL lbI L I t) : ∃ h, GoodT lbL lbI L I none none h t := by
  cases t with
  | leaf kvs => exact ⟨0, GoodT.leaf hgr.1 (fun e _ => ⟨trivial, trivial⟩) hgr.2⟩
  | internal cs => exact hgr.2

theorem goodRoot_sorted {lbL lbI L I : Nat} {t : BNode}
    (hgr : GoodRoot lbL lbI L I t) : EntSorted (toList t) := by
  obtain ⟨h, hg⟩ := goodRoot_goodT hgr
  exact (goodT_entries hg).1

/-- `MemoryBTree::Insert` (lines 882–903) preserves the root invariant and refines
`listInsert` on the in-order entry list. -/
theorem treeInsert_root {lbL lbI L I : Nat}
    (hL : 2 ≤ L) (hI : 3 ≤ I) (hlbL1 : 1 ≤ lbL) (hlbI1 : 2 ≤ lbI)
    (hlbL2 : lbL ≤ UNDERFLOW_BOUND L) (hlbLsp : lbL ≤ L - UNDERFLOW_BOUND L)
    (hlbI2 : lbI ≤ UNDERFLOW_BOUND (I + 1))
    (hlbIsp : lbI ≤ I + 1 - UNDERFLOW_BOUND (I + 1))
    {k v : Int} {t : BNode} (hgr : GoodRoot lbL lbI L I t) :
    GoodRoot lbL lbI L I (treeInsert L I k v t) ∧
      toList (treeInsert L I k v t) = listInsert k v (toList t) := by
  obtain ⟨h, hg⟩ := goodRoot_goodT hgr
  have hins := nodeInsert_spec hL hI hlbL1 hlbI1 hlbL2 hlbLsp hlbI2 hlbIsp
    (k := k) (v := v) hg trivial trivial
  unfold treeInsert
  rcases hres : nodeInsert L I k v t with t' | ⟨l, b, r⟩
  · rw [hres] at hins
    obtain ⟨hg', hcpres, hlowpres, htl, hsz⟩ := hins
    refine ⟨?_, htl⟩
    cases t' with
    | leaf kvs' =>
      obtain ⟨-, hs', -, hlen'⟩ := goodT_leaf_inv hg'
      exact ⟨hs', hlen'⟩
    | internal cs' =>
      refine ⟨?_, h, hg'⟩
      cases t with
      | leaf kvs =>
        obtain ⟨hh0, -, -, -⟩ := goodT_leaf_inv hg
        obtain ⟨h2, -, -, -, -, hh2, -⟩ := goodT_internal_inv hg'
        omega
      | internal cs =>
        have h2 : 2 ≤ cs.length := hgr.1
        simp only [nodeSize] at hsz
        omega
  · rw [hres] at hins
    obtain ⟨hgl, hgr2, hlowl, hlowr, hcl, hcrp, hlob, htoL⟩ := hins
    constructor
    · refine ⟨by simp, h + 1, ?_⟩
      have hGapp : GoodT lbL lbI L I none none (h + 1)
          (.internal ([(l, b)] ++ [(r, nodeRightmostKey r)])) := by
        refine GoodT.internal (by simp; omega)
          (.cons hgl hlowl hcl trivial .nil) hgr2 hlowr ?_
          (fun x hx => by cases hx) (fun x hx => by cases hx)
        cases r <;> simp [CachedIs]
      simpa using hGapp
    · simpa [toList, pairsToList] using htoL

/-- `MemoryBTree::Delete` (lines 905–938) preserves the root invariant (including
the single-child root collapse), refines `listErase`, reports presence, and is the
identity on a miss. -/
theorem treeDelete_root {lbL lbI L I : Nat}
    (hL : 2 ≤ L) (hI : 3 ≤ I) (hlbL1 : 1 ≤ lbL) (hlbI1 : 2 ≤ lbI)
    (hlbL2 : lbL ≤ UNDERFLOW_BOUND L) (hlbIB : lbI ≤ UNDERFLOW_BOUND I)
    {k : Int} {t : BNode} (hgr : GoodRoot lbL lbI L I t) :
    GoodRoot lbL lbI L I (treeDelete L I k t).2 ∧
      toList (treeDelete L I k t).2 = listErase k (toList t) ∧
      ((treeDelete L I k t).1 = true ↔ k ∈ (toList t).map Prod.fst) ∧
      ((treeDelete L I k t).1 = false → (treeDelete L I k t).2 = t) := by
  obtain ⟨h, hg⟩ := goodRoot_goodT hgr
  have hsz2 : ∀ cs0, t = .internal cs0 → 2 ≤ cs0.length := by
    intro cs0 he
    subst he
    exact hgr.1
  have hdel := nodeDelete_spec hL hI hlbL1 hlbI1 hlbL2 hlbIB (k := k) hg
    trivial trivial hsz2
  unfold treeDelete
  rcases hres : nodeDelete L I k t with ⟨found, uf, t0⟩
  rw [hres] at hdel
  obtain ⟨hg0, htl0, hmem, hnf, -, -, -, -, -⟩ := hdel
  cases found with
  | false =>
    obtain ⟨ht0, -⟩ := hnf rfl
    subst ht0
    simp only [Bool.not_false, if_true]
    exact ⟨hgr, htl0, hmem, fun _ => rfl⟩
  | true =>
    simp only [Bool.not_true, if_false]
    cases t0 with
    | leaf kvs0 =>
      obtain ⟨-, hs0, -, hlen0⟩ := goodT_leaf_inv hg0
      exact ⟨⟨hs0, hlen0⟩, htl0, hmem, fun hcon => by cases hcon⟩
    | internal cs0 =>
      obtain ⟨h', ps, c0, kx, m, hh', hEq, hlen0, hch0, hc0, hlow0, -, -, -⟩ :=
        goodT_internal_inv hg0
      cases ps with
      | nil =>
        simp only [List.nil_append] at hEq
        subst hEq
        have hm : m = none := chainT_nil_inv hch0
        subst hm
        refine ⟨?_, ?_, hmem, fun hcon => by cases hcon⟩
        · cases c0 with
          | leaf kvs1 =>
            obtain ⟨-, hs1, -, hlen1⟩ := goodT_leaf_inv hc0
            exact ⟨hs1, hlen1⟩
          | internal cs1 =>
            refine ⟨?_, h', hc0⟩
            simp only [LowOK] at hlow0
            omega
        · rw [← htl0]
          simp [toList, pairsToList]
      | cons p1 ps1 =>
        subst hEq
        have hne : ∀ (c1 : BNode) (k1 : Int),
            p1 :: ps1 ++ [(c0, kx)] ≠ [(c1, k1)] := by
          intro c1 k1 hcon
          have := congrArg List.length hcon
          simp at this
        cases p1 with | mk cp kp =>
        cases ps1 with
        | nil =>
          exact ⟨⟨by simp, h, hg0⟩, htl0, hmem, fun hcon => by cases hcon⟩
        | cons p2 ps2 =>
          exact ⟨⟨by simp, h, hg0⟩, htl0, hmem, fun hcon => by cases hcon⟩

/-- Running any operation sequence from the fresh tree keeps the root invariant and
agrees with the sorted-association-list reference model. -/
theorem applyOps_invariant {lbL lbI L I : Nat}
    (hL : 2 ≤ L) (hI : 3 ≤ I) (hlbL1 : 1 ≤ lbL) (hlbI1 : 2 ≤ lbI)
    (hlbL2 : lbL ≤ UNDERFLOW_BOUND L) (hlbLsp : lbL ≤ L - UNDERFLOW_BOUND L)
    (hlbI2 : lbI ≤ UNDERFLOW_BOUND (I + 1))
    (hlbIsp : lbI ≤ I + 1 - UNDERFLOW_BOUND (I + 1))
    (hlbIB : lbI ≤ UNDERFLOW_BOUND I) :
    ∀ ops : List Op,
      GoodRoot lbL lbI L I (applyOps L I ops) ∧
        toList (applyOps L I ops) = modelOps ops := by
  have main : ∀ (ops : List Op) (t : BNode) (m : List Entry),
      GoodRoot lbL lbI L I t → toList t = m →
      GoodRoot lbL lbI L I (ops.foldl (applyOp L I) t) ∧
        toList (ops.foldl (applyOp L I) t) =
          ops.foldl (fun m op => match op with
            | .ins k v => listInsert k v m
            | .del k => listErase k m) m := by
    intro ops
    induction ops with
    | nil =>
      intro t m hgr htm
      exact ⟨hgr, by simpa using htm⟩
    | cons op rest ih =>
      intro t m hgr htm
      cases op with
      | ins k v =>
        obtain ⟨hgr', htl'⟩ := treeInsert_root hL hI hlbL1 hlbI1 hlbL2 hlbLsp
          hlbI2 hlbIsp (k := k) (v := v) hgr
        simpa [applyOp] using ih (treeInsert L I k v t) (listInsert k v m) hgr'
          (by rw [htl', htm])
      | del k =>
        obtain ⟨hgr', htl', -, -⟩ := treeDelete_root hL hI hlbL1 hlbI1 hlbL2 hlbIB
          (k := k) hgr
        simpa [applyOp] using ih (treeDelete L I k t).2 (listErase k m) hgr'
          (by rw [htl', htm])
  intro ops
  have he : GoodRoot lbL lbI L I emptyTree := ⟨entSorted_nil, by simp [emptyTree]⟩
  simpa [applyOps, modelOps] using main ops emptyTree [] he rfl

/-! ## From the invariant to the executable checkers -/

theorem lowOK_lowB {lbL lbI : Nat} {c : BNode} (h : LowOK lbL lbI c) :
    lowB lbL lbI c = true := by
  cases c <;> simpa [LowOK, lowB] using h

theorem pairsLowAllB_append (lbL lbI : Nat) (A B : List (BNode × Int)) :
    pairsLowAllB lbL lbI (A ++ B) =
      (pairsLowAllB lbL lbI A && pairsLowAllB lbL lbI B) := by
  induction A with
  | nil => simp [pairsLowAllB]
  | cons p A ih =>
    cases p with | mk c k =>
    simp [pairsLowAllB, ih, Bool.and_assoc]

/-- Under the invariant, every node strictly below the top meets its minimum
occupancy. -/
theorem goodT_lowAllB {lbL lbI L I : Nat} :
    ∀ {h : Nat} {lo hi : Option Int} {t : BNode},
      GoodT lbL lbI L I lo hi h t → lowAllB lbL lbI t = true := by
  intro h
  induction h using Nat.strong_induction_on with
  | _ h ih =>
    intro lo hi t hg
    cases t with
    | leaf kvs => simp [lowAllB]
    | internal cs =>
      obtain ⟨h', ps, c, klast, m, rfl, rfl, hlen, hch, hc, hlowc, hcachec, hpin, hmx⟩ :=
        goodT_internal_inv hg
      have hchain : ∀ (qs : List (BNode × Int)) (lo0 m0 : Option Int),
          ChainT lbL lbI L I lo0 h' qs m0 → pairsLowAllB lbL lbI qs = true := by
        intro qs
        induction qs with
        | nil => intro lo0 m0 _; simp [pairsLowAllB]
        | cons p qs ih2 =>
          intro lo0 m0 hch0
          cases p with | mk c1 k1 =>
          obtain ⟨hc1, hlow1, -, -, hrest⟩ := chainT_cons_inv hch0
          simp only [pairsLowAllB, Bool.and_eq_true]
          exact ⟨⟨lowOK_lowB hlow1, ih h' (Nat.lt_succ_self h') hc1⟩,
            ih2 _ _ hrest⟩
      rw [lowAllB, pairsLowAllB_append]
      simp only [Bool.and_eq_true]
      refine ⟨hchain ps lo m hch, ?_⟩
      simp only [pairsLowAllB, Bool.and_eq_true]
      exact ⟨⟨lowOK_lowB hlowc, ih h' (Nat.lt_succ_self h') hc⟩, trivial⟩

/-- Under the invariant, every routing separator bounds its child's keys above and
all keys to its right below. -/
theorem goodT_sepOKb {lbL lbI L I : Nat} :
    ∀ {h : Nat} {lo hi : Option Int} {t : BNode},
      GoodT lbL lbI L I lo hi h t → sepOKb t = true := by
  intro h
  induction h using Nat.strong_induction_on with
  | _ h ih =>
    intro lo hi t hg
    cases t with
    | leaf kvs => simp [sepOKb]
    | internal cs =>
      obtain ⟨h', ps, c, klast, m, rfl, rfl, hlen, hch, hc, hlowc, hcachec, hpin, hmx⟩ :=
        goodT_internal_inv hg
      rw [sepOKb]
      have hcent : ∀ mm, m = some mm → ∀ e ∈ toList c, mm < e.1 := by
        intro mm hmm e he
        obtain ⟨-, hbnd⟩ := goodT_entries hc
        have := (hbnd e he).1
        rw [hmm] at this
        simpa [OptLt] using this
      have hmain : ∀ (qs : List (BNode × Int)) (lo0 : Option Int),
          ChainT lbL lbI L I lo0 h' qs m →
          routeOKb (qs ++ [(c, klast)]) = true := by
        intro qs
        induction qs with
        | nil =>
          intro lo0 hch0
          simpa [routeOKb] using ih h' (Nat.lt_succ_self h') hc
        | cons p qs ih2 =>
          intro lo0 hch0
          cases p with | mk c1 k1 =>
          obtain ⟨hc1, hlow1, -, -, hrest⟩ := chainT_cons_inv hch0
          have hle : (toList c1).all (fun e => decide (e.1 ≤ k1)) = true := by
            rw [List.all_eq_true]
            intro e he
            obtain ⟨-, hbnd⟩ := goodT_entries hc1
            have := (hbnd e he).2
            simpa [OptLe] using this
          have hmm : ∃ mm, m = some mm ∧ k1 ≤ mm := chainT_end_ge hrest
          have hgt : (pairsToList (qs ++ [(c, klast)])).all
              (fun e => decide (k1 < e.1)) = true := by
            rw [List.all_eq_true]
            intro e he
            rw [pairsToList_append_single] at he
            rcases List.mem_append.mp he with he | he
            · have := chainT_entries_gt hrest e he
              simpa using this
            · obtain ⟨mm, hm, hge⟩ := hmm
              have := hcent mm hm e he
              simp only [decide_eq_true_eq]
              omega
          cases qs with
          | nil =>
            simp only [List.nil_append, List.cons_append, routeOKb,
              Bool.and_eq_true]
            refine ⟨⟨⟨hle, by simpa using hgt⟩,
              ih h' (Nat.lt_succ_self h') hc1⟩, ?_⟩
            simpa [routeOKb] using ih h' (Nat.lt_succ_self h') hc
          | cons p2 qs2 =>
            simp only [List.cons_append, routeOKb, Bool.and_eq_true]
            refine ⟨⟨⟨hle, by simpa using hgt⟩,
              ih h' (Nat.lt_succ_self h') hc1⟩, ?_⟩
            have := ih2 _ hrest
            simpa [List.cons_append] using this
      exact hmain ps lo hch

/-- The in-order leaf chain carries exactly the in-order entries: flattening the
leaves of `t` gives `toList t`. -/
theorem leaves_flatten : ∀ (n : Nat) (t : BNode), sizeOf t ≤ n →
    (leaves t).flatten = toList t := by
  intro n
  induction n using Nat.strong_induction_on with
  | _ n ih =>
    intro t hsz
    cases t with
    | leaf kvs => simp [leaves, toList]
    | internal cs =>
      rw [leaves, toList]
      induction cs with
      | nil => simp [pairsLeaves, pairsToList]
      | cons p cs ih2 =>
        cases p with | mk c k =>
        have hszc : sizeOf c < sizeOf (BNode.internal ((c, k) :: cs)) := by
          have := List.sizeOf_lt_of_mem (List.mem_cons_self (c, k) cs)
          simp only [Prod.mk.sizeOf_spec] at this
          simp only [BNode.internal.sizeOf_spec]
          omega
        have hsztail : sizeOf (BNode.internal cs) ≤ sizeOf (BNode.internal ((c, k) :: cs)) := by
          simp only [BNode.internal.sizeOf_spec, List.cons.sizeOf_spec]
          omega
        simp only [pairsLeaves, pairsToList, List.flatten_append]
        rw [ih (n - 1) (by omega) c (by omega)]
        have := ih2 (by omega)
        rw [this]

/-! ## Unfolding and evaluation helpers

`nodeInsert`/`nodeDelete` and their internal-node bodies are defined by
well-founded recursion, so the kernel does not reduce them on closed inputs; the
step lemmas below expose one unfolding of the internal-node bodies once the
selected child is known, which lets concrete trees be evaluated by rewriting. -/

theorem internalDelete_step {L I : Nat} {k : Int} {cs : List (BNode × Int)}
    {c : BNode} {ck : Int} (h : cs[searchChildIndex k cs]? = some (c, ck)) :
    internalDelete L I k cs =
      (let ti := searchChildIndex k cs
       let res := nodeDelete L I k c
       let cs0 := cs.set ti (res.2.2, ck)
       if ¬res.1 ∨ ¬res.2.1 then
         (res.1, res.2.1, .internal cs0)
       else if cs0.length ≤ 1 then
         (true, res.2.1, .internal cs0)
       else
         let li := if 1 ≤ ti then ti - 1 else ti
         let lc := ((cs0[li]?.map Prod.fst).getD (.leaf []))
         let rc := ((cs0[li + 1]?.map Prod.fst).getD (.leaf []))
         let boundary := ((cs0[li]?.map Prod.snd).getD 0)
         let (merged, lc', rc', b') := nodeBalance L I lc rc boundary
         if ¬merged then
           let cs1 := (cs0.set li (lc', b')).set (li + 1)
             (rc', ((cs0[li + 1]?.map Prod.snd).getD 0))
           (true, false, .internal cs1)
         else
           let cs1 := (cs0.set li (lc', ((cs0[li + 1]?.map Prod.snd).getD 0))).eraseIdx (li + 1)
           (true, decide (cs1.length < UNDERFLOW_BOUND I), .internal cs1)) := by
  rw [internalDelete.eq_def]
  simp only []
  split
  · rename_i heq
    rw [h] at heq
    cases heq
  · rename_i c2 ck2 heq
    rw [h] at heq
    injection heq with heq2
    cases heq2
    rfl

theorem internalInsert_step {L I : Nat} {k v : Int} {cs : List (BNode × Int)}
    {c : BNode} {ck : Int} (h : cs[searchChildIndex k cs]? = some (c, ck)) :
    internalInsert L I k v cs =
      (let ti := searchChildIndex k cs
       match nodeInsert L I k v c with
       | .ok c' => .ok (.internal (cs.set ti (c', ck)))
       | .split cl b cr =>
         let cs1 := cs.set ti (cl, b)
         let cs2 := cs1.take (ti + 1) ++ (cr, ck) :: cs1.drop (ti + 1)
         if cs2.length ≤ I then .ok (.internal cs2)
         else
           let bIdx := UNDERFLOW_BOUND cs2.length
           .split (.internal (cs2.take bIdx))
             (((cs2.take bIdx).getLast?.map Prod.snd).getD 0)
             (.internal (cs2.drop bIdx))) := by
  rw [internalInsert.eq_def]
  simp only []
  split
  · rename_i heq
    rw [h] at heq
    cases heq
  · rename_i c2 ck2 heq
    rw [h] at heq
    injection heq with heq2
    cases heq2
    rfl

theorem applyOps_snoc {L I : Nat} {ops : List Op} {op : Op} :
    applyOps L I (ops ++ [op]) = applyOp L I (applyOps L I ops) op := by
  simp [applyOps]

theorem applyOps_append {L I : Nat} {ops1 ops2 : List Op} :
    applyOps L I (ops1 ++ ops2) = ops2.foldl (applyOp L I) (applyOps L I ops1) := by
  simp [applyOps]

/-- The tree of the C++ test `DeleteWithoutMergeTest` prefix: four inserts stay
in a single leaf. -/
theorem applyOps_ins_ex1 :
    applyOps 4 4 [.ins 3 3, .ins 4 4, .ins 6 6, .ins 5 5] =
      .leaf [(3, 3), (4, 4), (5, 5), (6, 6)] := by
  simp [applyOps, applyOp, treeInsert, nodeInsert, leafInsert, keyFound, lbIdx,
    UNDERFLOW_BOUND, emptyTree]

/-- The fifth insert splits the full leaf root. -/
theorem applyOps_ins_ex2 :
    applyOps 4 4 [.ins 3 3, .ins 4 4, .ins 6 6, .ins 5 5, .ins 1 1] =
      .internal [(.leaf [(1, 1), (3, 3), (4, 4)], 4), (.leaf [(5, 5), (6, 6)], 6)] := by
  simp [applyOps, applyOp, treeInsert, nodeInsert, internalInsert, leafInsert,
    keyFound, lbIdx, UNDERFLOW_BOUND, emptyTree, searchChildIndex, routingKeys,
    entriesRightmostKey, nodeRightmostKey]

theorem applyOps_pair_ex :
    applyOps 4 4 [.ins 1 1, .ins 2 2] = .leaf [(1, 1), (2, 2)] := by
  simp [applyOps, applyOp, treeInsert, nodeInsert, leafInsert, keyFound, lbIdx,
    UNDERFLOW_BOUND, emptyTree]

theorem applyOps_ins5_ex :
    applyOps 4 4 [.ins 1 1, .ins 2 2, .ins 3 3, .ins 4 4, .ins 5 5] =
      .internal [(.leaf [(1, 1), (2, 2)], 2), (.leaf [(3, 3), (4, 4), (5, 5)], 5)] := by
  simp [applyOps, applyOp, treeInsert, nodeInsert, leafInsert, keyFound, lbIdx,
    UNDERFLOW_BOUND, emptyTree, entriesRightmostKey, nodeRightmostKey]

/-- Deleting 5 erases it from the right leaf and leaves the stale cached key 5
in the root's last key slot. -/
theorem applyOps_del5_ex :
    applyOps 4 4 [.ins 1 1, .ins 2 2, .ins 3 3, .ins 4 4, .ins 5 5, .del 5] =
      .internal [(.leaf [(1, 1), (2, 2)], 2), (.leaf [(3, 3), (4, 4)], 5)] := by
  rw [show ([.ins 1 1, .ins 2 2, .ins 3 3, .ins 4 4, .ins 5 5, .del 5] : List Op) =
      [.ins 1 1, .ins 2 2, .ins 3 3, .ins 4 4, .ins 5 5] ++ [.del 5] from rfl]
  rw [applyOps_snoc, applyOps_ins5_ex]
  simp only [applyOp, treeDelete]
  rw [show nodeDelete 4 4 5
      (.internal [(.leaf [(1, 1), (2, 2)], 2), (.leaf [(3, 3), (4, 4), (5, 5)], 5)]) =
      (true, false, .internal [(.leaf [(1, 1), (2, 2)], 2), (.leaf [(3, 3), (4, 4)], 5)])
      from ?_]
  · rfl
  · simp only [nodeDelete]
    rw [internalDelete_step rfl]
    simp [nodeDelete, leafDelete, keyFound, lbIdx, UNDERFLOW_BOUND,
      searchChildIndex, routingKeys]

/-- Deleting 4 merges the two leaves; the root is left with a single child. -/
theorem nodeDelete_merge_root_ex :
    nodeDelete 4 4 4 (.internal [(.leaf [(1, 1), (2, 2)], 2),
        (.leaf [(3, 3), (4, 4)], 5)]) =
      (true, true, .internal [(.leaf [(1, 1), (2, 2), (3, 3)], 5)]) := by
  simp only [nodeDelete]
  rw [internalDelete_step rfl]
  simp [nodeDelete, leafDelete, nodeBalance, leafBalance, keyFound, lbIdx,
    UNDERFLOW_BOUND, entriesRightmostKey, entriesLeftmostKey, searchChildIndex,
    routingKeys]

theorem applyOps_ins8_ex :
    applyOps 4 4 [.ins 1 1, .ins 2 2, .ins 3 3, .ins 4 4, .ins 5 5, .ins 6 6,
        .ins 7 7, .ins 8 8] =
      .internal [(.leaf [(1, 1), (2, 2)], 2), (.leaf [(3, 3), (4, 4)], 4),
        (.leaf [(5, 5), (6, 6), (7, 7), (8, 8)], 5)] := by
  have h6 : applyOp 4 4 (.internal [(.leaf [(1, 1), (2, 2)], 2),
        (.leaf [(3, 3), (4, 4), (5, 5)], 5)]) (.ins 6 6) =
      .internal [(.leaf [(1, 1), (2, 2)], 2),
        (.leaf [(3, 3), (4, 4), (5, 5), (6, 6)], 5)] := by
    simp only [applyOp, treeInsert, nodeInsert]
    rw [internalInsert_step rfl]
    simp [nodeInsert, leafInsert, keyFound, lbIdx, UNDERFLOW_BOUND,
      searchChildIndex, routingKeys]
  have h7 : applyOp 4 4 (.internal [(.leaf [(1, 1), (2, 2)], 2),
        (.leaf [(3, 3), (4, 4), (5, 5), (6, 6)], 5)]) (.ins 7 7) =
      .internal [(.leaf [(1, 1), (2, 2)], 2), (.leaf [(3, 3), (4, 4)], 4),
        (.leaf [(5, 5), (6, 6), (7, 7)], 5)] := by
    simp only [applyOp, treeInsert, nodeInsert]
    rw [internalInsert_step rfl]
    simp [nodeInsert, leafInsert, keyFound, lbIdx, UNDERFLOW_BOUND,
      searchChildIndex, routingKeys, entriesRightmostKey]
  have h8 : applyOp 4 4 (.internal [(.leaf [(1, 1), (2, 2)], 2),
        (.leaf [(3, 3), (4, 4)], 4), (.leaf [(5, 5), (6, 6), (7, 7)], 5)])
        (.ins 8 8) =
      .internal [(.leaf [(1, 1), (2, 2)], 2), (.leaf [(3, 3), (4, 4)], 4),
        (.leaf [(5, 5), (6, 6), (7, 7), (8, 8)], 5)] := by
    simp only [applyOp, treeInsert, nodeInsert]
    rw [internalInsert_step rfl]
    simp [nodeInsert, leafInsert, keyFound, lbIdx, UNDERFLOW_BOUND,
      searchChildIndex, routingKeys]
  rw [show ([.ins 1 1, .ins 2 2, .ins 3 3, .ins 4 4, .ins 5 5, .ins 6 6, .ins 7 7,
        .ins 8 8] : List Op) =
      [.ins 1 1, .ins 2 2, .ins 3 3, .ins 4 4, .ins 5 5] ++
        [.ins 6 6, .ins 7 7, .ins 8 8] from rfl]
  rw [applyOps_append, applyOps_ins5_ex]
  simp only [List.foldl]
  rw [h6, h7, h8]

/-- Deleting 4 underflows the middle leaf and merges it into its left sibling;
the swapped-in separator 4 no longer equals the left child's rightmost key 3. -/
theorem nodeDelete_merge_mid_ex :
    nodeDelete 4 4 4 (.internal [(.leaf [(1, 1), (2, 2)], 2),
        (.leaf [(3, 3), (4, 4)], 4), (.leaf [(5, 5), (6, 6), (7, 7), (8, 8)], 5)]) =
      (true, false, .internal [(.leaf [(1, 1), (2, 2), (3, 3)], 4),
        (.leaf [(5, 5), (6, 6), (7, 7), (8, 8)], 5)]) := by
  simp only [nodeDelete]
  rw [internalDelete_step rfl]
  simp [nodeDelete, leafDelete, nodeBalance, leafBalance, keyFound, lbIdx,
    UNDERFLOW_BOUND, entriesRightmostKey, entriesLeftmostKey, searchChildIndex,
    routingKeys]

theorem applyOps_del4_ex :
    applyOps 4 4 [.ins 1 1, .ins 2 2, .ins 3 3, .ins 4 4, .ins 5 5, .ins 6 6,
        .ins 7 7, .ins 8 8, .del 4] =
      .internal [(.leaf [(1, 1), (2, 2), (3, 3)], 4),
        (.leaf [(5, 5), (6, 6), (7, 7), (8, 8)], 5)] := by
  rw [show ([.ins 1 1, .ins 2 2, .ins 3 3, .ins 4 4, .ins 5 5, .ins 6 6, .ins 7 7,
        .ins 8 8, .del 4] : List Op) =
      [.ins 1 1, .ins 2 2, .ins 3 3, .ins 4 4, .ins 5 5, .ins 6 6, .ins 7 7,
        .ins 8 8] ++ [.del 4] from rfl]
  rw [applyOps_snoc, applyOps_ins8_ex]
  simp only [applyOp, treeDelete]
  rw [nodeDelete_merge_mid_ex]
  rfl

/-! ## The claims -/

/-- C1: on any reachable tree, after `Insert(k, v)` a `Search(k)` returns the
value `v`; `Insert(k, v1)` then `Insert(k, v2)` makes `Search(k)` return `v2`
(inserting an existing key overwrites its value); and the tree never holds a
duplicate key. -/
theorem C1_insert_search_overwrite {L I : Nat} (hL : 2 ≤ L) (hI : 3 ≤ I)
    {t : BNode} (hgr : GoodRoot 1 2 L I t) (k v v1 v2 : Int) :
    treeSearch k (treeInsert L I k v t) = some v ∧
      treeSearch k (treeInsert L I k v2 (treeInsert L I k v1 t)) = some v2 ∧
      ((toList (treeInsert L I k v t)).map Prod.fst).Nodup := by
  have s1 : 1 ≤ UNDERFLOW_BOUND L := by unfold UNDERFLOW_BOUND; omega
  have s2 : (1 : Nat) ≤ L - UNDERFLOW_BOUND L := by unfold UNDERFLOW_BOUND; omega
  have s3 : 2 ≤ UNDERFLOW_BOUND (I + 1) := by unfold UNDERFLOW_BOUND; omega
  have s4 : 2 ≤ I + 1 - UNDERFLOW_BOUND (I + 1) := by unfold UNDERFLOW_BOUND; omega
  obtain ⟨hgr1, htl1⟩ := treeInsert_root hL hI (le_refl 1) (le_refl 2) s1 s2 s3 s4
    (k := k) (v := v) hgr
  obtain ⟨hgrA, htlA⟩ := treeInsert_root hL hI (le_refl 1) (le_refl 2) s1 s2 s3 s4
    (k := k) (v := v1) hgr
  obtain ⟨hgrB, htlB⟩ := treeInsert_root hL hI (le_refl 1) (le_refl 2) s1 s2 s3 s4
    (k := k) (v := v2) hgrA
  refine ⟨?_, ?_, ?_⟩
  · obtain ⟨h1, hg1⟩ := goodRoot_goodT hgr1
    rw [treeSearch, nodeSearch_spec hg1 trivial, htl1, listLookup_listInsert]
  · obtain ⟨h2, hg2⟩ := goodRoot_goodT hgrB
    rw [treeSearch, nodeSearch_spec hg2 trivial, htlB, listLookup_listInsert]
  · have hs := goodRoot_sorted hgr1
    have hp : ((toList (treeInsert L I k v t)).map Prod.fst).Pairwise (· < ·) := by
      rw [List.pairwise_map]
      exact hs
    exact hp.imp ne_of_lt

theorem C1_insert_search_overwrite_witness :
    (2 ≤ 4 ∧ 3 ≤ 4) ∧
      treeSearch 5 (treeInsert 4 4 5 50 emptyTree) = some 50 ∧
      treeSearch 5 (treeInsert 4 4 5 52 (treeInsert 4 4 5 51 emptyTree)) = some 52 ∧
      ((toList (treeInsert 4 4 5 50 emptyTree)).map Prod.fst).Nodup :=
  ⟨⟨by decide, by decide⟩,
    C1_insert_search_overwrite (by decide) (by decide)
      (show GoodRoot 1 2 4 4 emptyTree from ⟨entSorted_nil, by decide⟩) 5 50 51 52⟩

/-- C2: after any completed insert/delete workload, the full scan — the flattened
in-order leaf chain that `TreeScan` + repeated `Next` enumerate — is exactly the
reference model: the current key set, each key with its last-written value, in
strictly ascending key order. -/
theorem C2_treescan_model {L I : Nat} (hL : 2 ≤ L) (hI : 3 ≤ I) (ops : List Op) :
    (leaves (applyOps L I ops)).flatten = modelOps ops ∧
      toList (applyOps L I ops) = modelOps ops ∧
      EntSorted (toList (applyOps L I ops)) := by
  have s1 : 1 ≤ UNDERFLOW_BOUND L := by unfold UNDERFLOW_BOUND; omega
  have s2 : (1 : Nat) ≤ L - UNDERFLOW_BOUND L := by unfold UNDERFLOW_BOUND; omega
  have s3 : 2 ≤ UNDERFLOW_BOUND (I + 1) := by unfold UNDERFLOW_BOUND; omega
  have s4 : 2 ≤ I + 1 - UNDERFLOW_BOUND (I + 1) := by unfold UNDERFLOW_BOUND; omega
  have s5 : 2 ≤ UNDERFLOW_BOUND I := by unfold UNDERFLOW_BOUND; omega
  obtain ⟨hgr, htl⟩ := applyOps_invariant hL hI (le_refl 1) (le_refl 2)
    s1 s2 s3 s4 s5 ops
  exact ⟨by rw [leaves_flatten (sizeOf (applyOps L I ops)) _ le_rfl, htl],
    htl, goodRoot_sorted hgr⟩

theorem C2_treescan_model_witness :
    (2 ≤ 4 ∧ 3 ≤ 4) ∧
      (leaves (applyOps 4 4 [.ins 1 10, .ins 3 30, .ins 2 20, .ins 1 11,
          .del 3])).flatten = modelOps [.ins 1 10, .ins 3 30, .ins 2 20,
          .ins 1 11, .del 3] ∧
      toList (applyOps 4 4 [.ins 1 10, .ins 3 30, .ins 2 20, .ins 1 11,
          .del 3]) = modelOps [.ins 1 10, .ins 3 30, .ins 2 20, .ins 1 11,
          .del 3] ∧
      EntSorted (toList (applyOps 4 4 [.ins 1 10, .ins 3 30, .ins 2 20,
          .ins 1 11, .del 3])) :=
  ⟨⟨by decide, by decide⟩,
    C2_treescan_model (by decide) (by decide)
      [.ins 1 10, .ins 3 30, .ins 2 20, .ins 1 11, .del 3]⟩

/-- C3 (counterexample): with `L = I = 4`, after inserting 3, 4, 6, 5 and then 1
— a completed legal operation sequence — a non-root leaf holds only 2 entries,
below the claimed ceiling bound `⌈(4+1)/2⌉ = 3` (checked here as
`(4+2)/2 = 3`). -/
theorem C3_ceiling_counterexample :
    lowAllB ((4 + 2) / 2) ((4 + 2) / 2)
      (applyOps 4 4 [.ins 3 3, .ins 4 4, .ins 6 6, .ins 5 5, .ins 1 1]) =
      false := by
  rw [applyOps_ins_ex2]
  decide

/-- C3 (amended): the bound the code actually maintains is the *floor*
`UNDERFLOW_BOUND(cap) = ⌊(cap+1)/2⌋`, and for leaves it needs an even leaf
capacity: then after any completed operation sequence every node except the root
holds at least `⌊(L+1)/2⌋` entries (leaves) / `⌊(I+1)/2⌋` children (internal). -/
theorem C3_floor_min_occupancy {L I : Nat} (hL : 2 ≤ L) (hI : 3 ≤ I)
    (hLeven : 2 ∣ L) (ops : List Op) :
    lowAllB (UNDERFLOW_BOUND L) (UNDERFLOW_BOUND I) (applyOps L I ops) = true := by
  obtain ⟨m, rfl⟩ := hLeven
  have s1 : 1 ≤ UNDERFLOW_BOUND (2 * m) := by unfold UNDERFLOW_BOUND; omega
  have s2 : 2 ≤ UNDERFLOW_BOUND I := by unfold UNDERFLOW_BOUND; omega
  have s3 : UNDERFLOW_BOUND (2 * m) ≤ UNDERFLOW_BOUND (2 * m) := le_refl _
  have s4 : UNDERFLOW_BOUND (2 * m) ≤ 2 * m - UNDERFLOW_BOUND (2 * m) := by
    unfold UNDERFLOW_BOUND; omega
  have s5 : UNDERFLOW_BOUND I ≤ UNDERFLOW_BOUND (I + 1) := by
    unfold UNDERFLOW_BOUND; omega
  have s6 : UNDERFLOW_BOUND I ≤ I + 1 - UNDERFLOW_BOUND (I + 1) := by
    unfold UNDERFLOW_BOUND; omega
  have s7 : UNDERFLOW_BOUND I ≤ UNDERFLOW_BOUND I := le_refl _
  obtain ⟨hgr, -⟩ := applyOps_invariant hL hI s1 s2 s3 s4 s5 s6 s7 ops
  obtain ⟨h, hg⟩ := goodRoot_goodT hgr
  exact goodT_lowAllB hg

theorem C3_floor_min_occupancy_witness :
    (2 ≤ 4 ∧ 3 ≤ 4 ∧ 2 ∣ 4) ∧
      lowAllB (UNDERFLOW_BOUND 4) (UNDERFLOW_BOUND 4)
        (applyOps 4 4 [.ins 3 3, .ins 4 4, .ins 6 6, .ins 5 5, .ins 1 1]) =
        true :=
  ⟨⟨by decide, by decide, by decide⟩,
    C3_floor_min_occupancy (by decide) (by decide) (by decide)
      [.ins 3 3, .ins 4 4, .ins 6 6, .ins 5 5, .ins 1 1]⟩

/-- C4 (counterexample): with `L = I = 4`, after inserting 1..8 and deleting 4,
the root's routing separator is 4 while the rightmost key stored in its first
child's subtree is 3 — a separator need *not* equal the rightmost key of its
child's subtree. -/
theorem C4_separator_counterexample :
    sepEqB (applyOps 4 4 [.ins 1 1, .ins 2 2, .ins 3 3, .ins 4 4, .ins 5 5,
      .ins 6 6, .ins 7 7, .ins 8 8, .del 4]) = false := by
  rw [applyOps_del4_ex]
  decide

/-- C4 (amended): what every reachable tree does satisfy is the bound part of the
claim: each routing separator `kᵢ` is an inclusive upper bound for every key in
child `cᵢ` and a strict lower bound for every key stored to its right (hence keys
in `cᵢ₊₁` are `> kᵢ`); the "equals the rightmost key of the child" part is only a
best-effort cache. -/
theorem C4_separator_bounds {L I : Nat} (hL : 2 ≤ L) (hI : 3 ≤ I)
    (ops : List Op) : sepOKb (applyOps L I ops) = true := by
  have s1 : 1 ≤ UNDERFLOW_BOUND L := by unfold UNDERFLOW_BOUND; omega
  have s2 : (1 : Nat) ≤ L - UNDERFLOW_BOUND L := by unfold UNDERFLOW_BOUND; omega
  have s3 : 2 ≤ UNDERFLOW_BOUND (I + 1) := by unfold UNDERFLOW_BOUND; omega
  have s4 : 2 ≤ I + 1 - UNDERFLOW_BOUND (I + 1) := by unfold UNDERFLOW_BOUND; omega
  have s5 : 2 ≤ UNDERFLOW_BOUND I := by unfold UNDERFLOW_BOUND; omega
  obtain ⟨hgr, -⟩ := applyOps_invariant hL hI (le_refl 1) (le_refl 2)
    s1 s2 s3 s4 s5 ops
  obtain ⟨h, hg⟩ := goodRoot_goodT hgr
  exact goodT_sepOKb hg

theorem C4_separator_bounds_witness :
    (2 ≤ 4 ∧ 3 ≤ 4) ∧
      sepOKb (applyOps 4 4 [.ins 1 1, .ins 2 2, .ins 3 3, .ins 4 4, .ins 5 5,
        .ins 6 6, .ins 7 7, .ins 8 8, .del 4]) = true :=
  ⟨⟨by decide, by decide⟩,
    C4_separator_bounds (by decide) (by decide)
      [.ins 1 1, .ins 2 2, .ins 3 3, .ins 4 4, .ins 5 5, .ins 6 6, .ins 7 7,
        .ins 8 8, .del 4]⟩

/-- C5: with `L = 4`, inserting 3, 4, 6, 5 builds a single leaf (no split); then
inserting 1 splits that full leaf exactly once with boundary key 4, the two
halves printing as `[LEAF: (1,1) (3,3) (4,4)]` and `[LEAF: (5,5) (6,6)]`; in
general, inserting a fresh key into a full leaf of `L` entries produces exactly
one split whose boundary equals the left half's rightmost key. -/
theorem C5_leaf_split :
    (applyOps 4 4 [.ins 3 3, .ins 4 4, .ins 6 6, .ins 5 5] =
        .leaf [(3, 3), (4, 4), (5, 5), (6, 6)] ∧
      leafInsert 4 1 1 [(3, 3), (4, 4), (5, 5), (6, 6)] =
        .split (.leaf [(1, 1), (3, 3), (4, 4)]) 4 (.leaf [(5, 5), (6, 6)]) ∧
      nodeString (.leaf [(1, 1), (3, 3), (4, 4)]) = "[LEAF: (1,1) (3,3) (4,4)]" ∧
      nodeString (.leaf [(5, 5), (6, 6)]) = "[LEAF: (5,5) (6,6)]") ∧
    ∀ (Lc : Nat) (k v : Int) (kvs : List Entry), kvs.length = Lc →
      keyFound k kvs = false →
      ∃ le b re, leafInsert Lc k v kvs = .split (.leaf le) b (.leaf re) ∧
        b = entriesRightmostKey le := by
  constructor
  · exact ⟨applyOps_ins_ex1, rfl, by decide, by decide⟩
  · intro Lc k v kvs hfull hf
    unfold leafInsert
    rw [if_neg (by simp [hf]), if_neg (by omega)]
    by_cases hpos : lbIdx k kvs < UNDERFLOW_BOUND kvs.length
    · rw [if_pos hpos]
      exact ⟨_, _, _, rfl, rfl⟩
    · rw [if_neg hpos]
      exact ⟨_, _, _, rfl, rfl⟩

theorem C5_leaf_split_witness :
    ((2 : Nat) = 2 ∧ keyFound 3 [(1, 1), (2, 2)] = false) ∧
      ∃ le b re, leafInsert 2 3 30 [(1, 1), (2, 2)] =
          .split (.leaf le) b (.leaf re) ∧ b = entriesRightmostKey le :=
  ⟨⟨by decide, by decide⟩,
    C5_leaf_split.2 2 3 30 [(1, 1), (2, 2)] (by decide) (by decide)⟩

/-- C6: deleting a key that is not in the tree returns `false` and leaves the
tree completely unchanged. -/
theorem C6_delete_absent_noop {L I : Nat} (hL : 2 ≤ L) (hI : 3 ≤ I)
    {t : BNode} (hgr : GoodRoot 1 2 L I t) {k : Int}
    (hk : k ∉ (toList t).map Prod.fst) :
    treeDelete L I k t = (false, t) := by
  have s1 : 1 ≤ UNDERFLOW_BOUND L := by unfold UNDERFLOW_BOUND; omega
  have s5 : 2 ≤ UNDERFLOW_BOUND I := by unfold UNDERFLOW_BOUND; omega
  obtain ⟨-, -, hmem, hid⟩ := treeDelete_root hL hI (le_refl 1) (le_refl 2)
    s1 s5 (k := k) hgr
  have hf : (treeDelete L I k t).1 = false := by
    cases hfv : (treeDelete L I k t).1 with
    | false => rfl
    | true => exact absurd (hmem.mp hfv) hk
  exact Prod.ext_iff.mpr ⟨hf, hid hf⟩

theorem C6_delete_absent_noop_witness :
    (2 ≤ 4 ∧ 3 ≤ 4 ∧
        (9 : Int) ∉ (toList (applyOps 4 4 [.ins 1 1, .ins 2 2])).map Prod.fst) ∧
      treeDelete 4 4 9 (applyOps 4 4 [.ins 1 1, .ins 2 2]) =
        (false, applyOps 4 4 [.ins 1 1, .ins 2 2]) :=
  ⟨⟨by decide, by decide, by rw [applyOps_pair_ex]; decide⟩,
    C6_delete_absent_noop (by decide) (by decide)
      (applyOps_invariant (by decide) (by decide) (by decide) (by decide)
        (by decide) (by decide) (by decide) (by decide) (by decide)
        [.ins 1 1, .ins 2 2]).1 (by rw [applyOps_pair_ex]; decide)⟩

/-- C7: when a delete leaves the internal root with a single child, that child is
promoted to be the new root; the old root is destroyed after `ClearChildArray`,
so exactly one node object is freed and the promoted subtree is not. -/
theorem C7_root_collapse {L I : Nat} (hL : 2 ≤ L) (hI : 3 ≤ I)
    {t : BNode} (hgr : GoodRoot 1 2 L I t) {k : Int} {uf : Bool} {c : BNode}
    {kx : Int} (hcol : nodeDelete L I k t = (true, uf, .internal [(c, kx)])) :
    treeDelete L I k t = (true, c) ∧ GoodRoot 1 2 L I c ∧
      toList c = listErase k (toList t) ∧
      destructorFreeCount (clearChildArray (.internal [(c, kx)])) = 1 ∧
      destructorFreeCount (.internal [(c, kx)]) = 1 + destructorFreeCount c := by
  have s1 : 1 ≤ UNDERFLOW_BOUND L := by unfold UNDERFLOW_BOUND; omega
  have s5 : 2 ≤ UNDERFLOW_BOUND I := by unfold UNDERFLOW_BOUND; omega
  obtain ⟨h, hg⟩ := goodRoot_goodT hgr
  have hsz2 : ∀ cs0, t = .internal cs0 → 2 ≤ cs0.length := by
    intro cs0 he
    subst he
    exact hgr.1
  have hdel := nodeDelete_spec hL hI (le_refl 1) (le_refl 2) s1 s5 (k := k) hg
    trivial trivial hsz2
  rw [hcol] at hdel
  obtain ⟨hg0, htl0, -, -, -, -, -, -, -⟩ := hdel
  obtain ⟨h', ps, c0, kx0, m, hh', hEq, -, hch0, hc0, hlow0, -, -, -⟩ :=
    goodT_internal_inv hg0
  have hps : ps = [] ∧ c0 = c ∧ kx0 = kx := by
    cases ps with
    | nil =>
      simp only [List.nil_append, List.cons.injEq, Prod.mk.injEq] at hEq
      exact ⟨rfl, hEq.1.1.symm, hEq.1.2.symm⟩
    | cons p ps' =>
      have := congrArg List.length hEq
      simp at this
  obtain ⟨hps0, hc0c, hkx0⟩ := hps
  subst hps0
  rw [hc0c] at hc0 hlow0
  have hm : m = none := chainT_nil_inv hch0
  subst hm
  refine ⟨?_, ?_, ?_, rfl, rfl⟩
  · unfold treeDelete
    rw [hcol]
    rfl
  · cases c with
    | leaf kvs1 =>
      obtain ⟨-, hs1, -, hlen1⟩ := goodT_leaf_inv hc0
      exact ⟨hs1, hlen1⟩
    | internal cs1 =>
      refine ⟨?_, h', hc0⟩
      simp only [LowOK] at hlow0
      omega
  · rw [← htl0]
    simp [toList, pairsToList]

theorem C7_root_collapse_witness :
    (2 ≤ 4 ∧ 3 ≤ 4 ∧
        nodeDelete 4 4 4 (applyOps 4 4 [.ins 1 1, .ins 2 2, .ins 3 3, .ins 4 4,
          .ins 5 5, .del 5]) =
          (true, true, .internal [(.leaf [(1, 1), (2, 2), (3, 3)], 5)])) ∧
      treeDelete 4 4 4 (applyOps 4 4 [.ins 1 1, .ins 2 2, .ins 3 3, .ins 4 4,
          .ins 5 5, .del 5]) = (true, .leaf [(1, 1), (2, 2), (3, 3)]) ∧
      GoodRoot 1 2 4 4 (.leaf [(1, 1), (2, 2), (3, 3)]) ∧
      toList (.leaf [(1, 1), (2, 2), (3, 3)]) =
        listErase 4 (toList (applyOps 4 4 [.ins 1 1, .ins 2 2, .ins 3 3,
          .ins 4 4, .ins 5 5, .del 5])) ∧
      destructorFreeCount (clearChildArray
        (.internal [(.leaf [(1, 1), (2, 2), (3, 3)], 5)])) = 1 ∧
      destructorFreeCount (.internal [(.leaf [(1, 1), (2, 2), (3, 3)], 5)]) =
        1 + destructorFreeCount (.leaf [(1, 1), (2, 2), (3, 3)]) :=
  ⟨⟨by decide, by decide, by rw [applyOps_del5_ex]; exact nodeDelete_merge_root_ex⟩,
    C7_root_collapse (by decide) (by decide)
      (applyOps_invariant (by decide) (by decide) (by decide) (by decide)
        (by decide) (by decide) (by decide) (by decide) (by decide)
        [.ins 1 1, .ins 2 2, .ins 3 3, .ins 4 4, .ins 5 5, .del 5]).1
      (by rw [applyOps_del5_ex]; exact nodeDelete_merge_root_ex)⟩

/-- C8: the latch trace of `LeafNode::Update` acquires the leaf latch in
EXCLUSIVE mode but releases it in SHARE mode (`ReleaseLatch(depth + 1, SHARE)`
after `AcquireLatch(…, EXCLUSIVE)`) — the claimed acquire/release mode agreement
fails for `Update`. -/
theorem C8_update_release_mode_mismatch :
    leafUpdateTrace = [.acquire 0 .EXCLUSIVE, .release 0 .SHARE] ∧
      modesMatchB leafUpdateTrace = false := by
  exact ⟨rfl, rfl⟩

/-- C9: when `Next` reads an entry whose key exceeds the inclusive upper bound,
it returns `false` but has already copied that out-of-range key and value into
the out-parameters and advanced the offset — the out-parameters are not left
unchanged. -/
theorem C9_next_overruns_bound {kvs : List Entry} {rest : List (List Entry)}
    {off : Nat} {hb k0 v0 : Int} (out : Int × Int)
    (hget : kvs[off]? = some (k0, v0)) (hgt : hb < k0) :
    iterNext ⟨kvs :: rest, off, some hb⟩ out =
      (false, (k0, v0), ⟨kvs :: rest, off + 1, some hb⟩) := by
  simp only [iterNext, hget]
  simp [show ¬(k0 ≤ hb) from by omega]

theorem C9_next_overruns_bound_witness :
    (([(1, 1), (5, 5)] : List Entry)[1]? = some (5, 5) ∧ (3 : Int) < 5) ∧
      iterNext ⟨[[(1, 1), (5, 5)]], 1, some 3⟩ (1, 1) =
        (false, (5, 5), ⟨[[(1, 1), (5, 5)]], 2, some 3⟩) :=
  ⟨⟨by decide, by decide⟩,
    @C9_next_overruns_bound [(1, 1), (5, 5)] [] 1 3 5 5 (1, 1)
      (by decide) (by decide)⟩

/-- C10: on a nonempty internal node, `SearchChildIndex` returns an index below
`size`, so the descent always selects an existing child (`child_[index]` is
populated). -/
theorem C10_searchChildIndex_in_range {k : Int} {cs : List (BNode × Int)}
    (hne : cs ≠ []) :
    searchChildIndex k cs < cs.length ∧ (cs[searchChildIndex k cs]?).isSome := by
  have h1 : searchChildIndex k cs ≤ (routingKeys cs).length := by
    simpa [searchChildIndex] using
      List.Sublist.length_le (List.takeWhile_sublist _)
  have h2 : (routingKeys cs).length = cs.length - 1 := by
    simp [routingKeys]
  have h3 : 1 ≤ cs.length := by
    cases cs with
    | nil => exact absurd rfl hne
    | cons p cs' => simp
  have h4 : searchChildIndex k cs < cs.length := by omega
  exact ⟨h4, by rw [List.getElem?_eq_getElem h4]; rfl⟩

theorem C10_searchChildIndex_in_range_witness :
    ([(BNode.leaf [(1, 1)], 1), (BNode.leaf [(2, 2)], 2)] ≠
        ([] : List (BNode × Int))) ∧
      searchChildIndex 7 [(BNode.leaf [(1, 1)], 1), (BNode.leaf [(2, 2)], 2)] <
          2 ∧
        (([(BNode.leaf [(1, 1)], 1), (BNode.leaf [(2, 2)], 2)] :
          List (BNode × Int))[searchChildIndex 7 [(BNode.leaf [(1, 1)], 1),
          (BNode.leaf [(2, 2)], 2)]]?).isSome :=
  ⟨by simp,
    @C10_searchChildIndex_in_range 7
      [(BNode.leaf [(1, 1)], 1), (BNode.leaf [(2, 2)], 2)] (by simp)⟩

end BTree
